import Mathlib

/-!
Verification of the scheduling and execution engine of the dwas task
pipeline runner, shallowly embedded from `src/dwas/_scheduler.py`,
`src/dwas/_pipeline.py` and `src/dwas/_exceptions.py`.

Modelling conventions, used consistently below:

* Python `dict`s are association lists (`List (String × α)`) in insertion
  order; assignment replaces the value of the first matching key or appends
  a fresh binding at the end, exactly like a Python dict.
* Python `set`s of step names are duplicate-free `List String`s; iterating
  a set iterates the list (a fixed, deterministic iteration order, one of
  the orders Python may choose).  `set.add` appends when absent.
* `time.monotonic()` is an explicit `Nat` argument supplied at each
  transition.  `datetime.timedelta` values are total microseconds: the
  keyword form `timedelta(seconds=x)` is `x * 1000000` and the positional
  form `timedelta(x)` is `x` days, i.e. `x * 86400000000`.
* Python `Exception` objects carried in results are opaque `Nat` tokens.
* Unbounded recursion in the source (the blocked cascade, the weight DFS,
  the worklist loops) is embedded with explicit fuel; every caller passes
  fuel large enough to cover the terminating executions of the source.
-/

namespace Dwas

/-- Outcome enumeration mirroring `JobResult` in `_scheduler.py`. -/
inductive JobResult where
  | SUCCESS
  | FAILED
  | BLOCKED
  | CANCELLED
  | SKIPPED
deriving DecidableEq, Repr

/-- Microseconds denoted by the Python keyword form `timedelta(seconds=x)`. -/
def tdSeconds (x : Nat) : Nat := x * 1000000

/-- Microseconds denoted by the Python positional form `timedelta(x)`,
whose first positional parameter is `days`. -/
def tdDays (x : Nat) : Nat := x * 86400000000

/-- One result record `(outcome, elapsed, optional error)` as stored in
`Scheduler.results`; the duration is in microseconds and the error is an
opaque token. -/
abbrev ResultRec := JobResult × Nat × Option Nat

/-- A Python `dict[str, ...]` in insertion order. -/
abbrev AssocL (α : Type) := List (String × α)

/-- A dependency or dependent graph, `dict[str, set[str]]` in the source. -/
abbrev Graph := AssocL (List String)

/-- Lookup of a key in an association list (Python dict indexing). -/
def alook {α : Type} : AssocL α → String → Option α
  | [], _ => none
  | (k, v) :: rest, q => if k = q then some v else alook rest q

/-- Assignment `d[k] = v` on a Python dict: replace the first binding of
`k`, or append a fresh binding when the key is absent. -/
def aset {α : Type} : AssocL α → String → α → AssocL α
  | [], q, v => [(q, v)]
  | (k, w) :: rest, q, v =>
      if k = q then (k, v) :: rest else (k, w) :: aset rest q v

/-- Removal `d.pop(k)` of a binding from a Python dict. -/
def aerase {α : Type} : AssocL α → String → AssocL α
  | [], _ => []
  | (k, w) :: rest, q => if k = q then rest else (k, w) :: aerase rest q

/-- Addition of an element to a Python set modelled as a list: append when
absent, keep unchanged otherwise. -/
def insertNew (l : List String) (x : String) : List String :=
  if x ∈ l then l else l ++ [x]

/-- Lookup in a graph, defaulting to the empty adjacency list; reachable
states only ever look up present keys. -/
def lookupD (g : Graph) (k : String) : List String := (alook g k).getD []

/-- Key list of a graph in insertion order. -/
def keysOf (g : Graph) : List String := g.map Prod.fst

/-- Normalization of a list to a duplicate-free list keeping first
occurrences, modelling `set(dependencies)` with a fixed order. -/
def dedup (l : List String) : List String := l.foldl insertNew []

/-- Run-time state of `Scheduler` (`_scheduler.py`): the two mutable graph
copies, the eight status collections, the results dict and the stop flag.
`running` carries the`time.monotonic()` start stamp of each running step.
The unused `_weights` attribute is not part of the state. -/
structure Sched where
  deps : Graph
  depd : Graph
  waiting : List String
  ready : List String
  running : AssocL Nat
  success : List String
  failed : List String
  blocked : List String
  cancelled : List String
  skipped : List String
  results : AssocL ResultRec
  stopped : Bool
deriving Repr

/-- Key list of the `running` dict. -/
def runKeys (s : Sched) : List String := s.running.map Prod.fst

/-- Construction of a `Scheduler` over the two graphs: every step with no
dependencies is enqueued as ready, the others wait. -/
def Sched.init (deps depd : Graph) : Sched where
  deps := deps
  depd := depd
  waiting := (deps.filter (fun p => !p.2.isEmpty)).map Prod.fst
  ready := (deps.filter (fun p => p.2.isEmpty)).map Prod.fst
  running := []
  success := []
  failed := []
  blocked := []
  cancelled := []
  skipped := []
  results := []
  stopped := false

/-- Transition `mark_started(step)`: remove the step from `ready` and
record its start stamp in `running`. -/
def markStarted (s : Sched) (step : String) (now : Nat) : Sched :=
  { s with ready := s.ready.erase step, running := s.running ++ [(step, now)] }

/-- Body of the loop in `_mark_dependents_ready` for one dependent:
remove the finished step from the dependent's remaining dependencies and,
when none remain, move the dependent from `waiting` to `ready` (a
dependent already cancelled stays cancelled). -/
def readyOne (step : String) (s : Sched) (d : String) : Sched :=
  if ((lookupD s.deps d).erase step).isEmpty then
    if d ∈ s.waiting then
      { s with deps := aset s.deps d ((lookupD s.deps d).erase step),
               waiting := s.waiting.erase d, ready := s.ready ++ [d] }
    else { s with deps := aset s.deps d ((lookupD s.deps d).erase step) }
  else { s with deps := aset s.deps d ((lookupD s.deps d).erase step) }

/-- Method `_mark_dependents_ready(step)`: fold `readyOne` over the direct
dependents of the step. -/
def markDependentsReady (s : Sched) (step : String) : Sched :=
  (lookupD s.depd step).foldl (readyOne step) s

/-- Transition `mark_success(step)`: pop the start stamp, add the step to
`success`, record a `(SUCCESS, seconds-elapsed, None)` result and unblock
dependents. -/
def markSuccess (s : Sched) (step : String) (now : Nat) : Sched :=
  let start := (alook s.running step).getD 0
  let s1 := { s with
    running := aerase s.running step,
    success := insertNew s.success step,
    results := aset s.results step (JobResult.SUCCESS, tdSeconds (now - start), none) }
  markDependentsReady s1 step

/-- Transition `mark_skipped(step, exc)` exactly as written in the source:
the step joins the `skipped` set but the recorded outcome is
`JobResult.FAILED`, and the elapsed time is passed to `timedelta`
positionally, hence interpreted as days; dependents are unblocked as on
success. -/
def markSkipped (s : Sched) (step : String) (now : Nat) (err : Nat) : Sched :=
  let start := (alook s.running step).getD 0
  let s1 := { s with
    running := aerase s.running step,
    skipped := insertNew s.skipped step,
    results := aset s.results step (JobResult.FAILED, tdDays (now - start), some err) }
  markDependentsReady s1 step

/-- Body of the loop in `_mark_dependents_blocked` for one dependent, up to
the recursive call: drop it from `waiting` (or else from `cancelled`), add
it to `blocked` with a zero-duration `BLOCKED` result, remove the failed
step from its remaining dependencies, and sever the dependent from the
dependent lists of all its remaining dependencies. -/
def blockOne (step : String) (s : Sched) (d : String) : Sched :=
  { s with
    waiting := if d ∈ s.waiting then s.waiting.erase d else s.waiting,
    cancelled := if d ∈ s.waiting then s.cancelled else s.cancelled.erase d,
    blocked := insertNew s.blocked d,
    results := aset s.results d (JobResult.BLOCKED, 0, none),
    deps := aset s.deps d ((lookupD s.deps d).erase step),
    depd := ((lookupD s.deps d).erase step).foldl
      (fun dd r => aset dd r ((lookupD dd r).erase d)) s.depd }

/-- Method `_mark_dependents_blocked(step)`: block every direct dependent
and recurse on it; the recursion of the source is embedded with fuel. -/
def markDepsBlocked : Nat → Sched → String → Sched
  | 0, s, _ => s
  | fuel + 1, s, step =>
      (lookupD s.depd step).foldl (fun t d => markDepsBlocked fuel (blockOne step t d) d) s

/-- Transition `mark_failed(step, exc)`: pop the start stamp, add the step
to `failed`, record a `(FAILED, seconds-elapsed, exc)` result, then block
all transitive dependents. -/
def markFailed (s : Sched) (step : String) (now : Nat) (err : Nat) : Sched :=
  let start := (alook s.running step).getD 0
  let s1 := { s with
    running := aerase s.running step,
    failed := insertNew s.failed step,
    results := aset s.results step (JobResult.FAILED, tdSeconds (now - start), some err) }
  markDepsBlocked (s1.deps.length + 1) s1 step

/-- Drain of one list of steps into `cancelled` with zero-duration
`CANCELLED` results, as the two while-loops of `stop` do. -/
def cancelAll (l : List String) (s : Sched) : Sched :=
  l.foldl
    (fun t st =>
      { t with
        cancelled := insertNew t.cancelled st,
        results := aset t.results st (JobResult.CANCELLED, 0, none) })
    s

/-- Transition `stop()`: set the stop flag and drain `ready` (popped from
the right, hence in reverse order) and then `waiting` into `cancelled`. -/
def stop (s : Sched) : Sched :=
  let s1 := cancelAll s.ready.reverse { s with stopped := true, ready := [] }
  cancelAll s1.waiting { s1 with waiting := [] }

/-- Truthiness of a `Scheduler`: live while a step is ready or running. -/
def isActive (s : Sched) : Bool := !s.ready.isEmpty || !s.running.isEmpty

/-! Resolver (`_scheduler.py`): graph normalization, the dependent graph,
the weight computation with cycle detection, and `order()`. -/

/-- Normalization done by `Resolver.__init__`: each adjacency list becomes
a set, modelled as a duplicate-free list of first occurrences. -/
def mkDeps (m : Graph) : Graph := m.map (fun p => (p.1, dedup p.2))

/-- Method `_make_dependent_graph`: start from an empty adjacency for every
key, then add each step to the dependent list of each of its dependencies. -/
def mkDepd (g : Graph) : Graph :=
  g.foldl
    (fun acc p => p.2.foldl (fun a d => aset a d (insertNew (lookupD a d) p.1)) acc)
    (g.map (fun p => (p.1, ([] : List String))))

/-- Priority weight of a node:
`(sum of dependents' weights, count of direct dependents, name)`. -/
abbrev Weight := Nat × Nat × String

/-- Memoization dict of `_build_weights`. -/
abbrev WMap := AssocL Weight

/-- Accumulation of `sum(_compute_weight(dep)[0] for dep in dependents)`,
threading the memoization dict left to right; the recursive weight
computation is passed in as `f`. -/
def sumW (f : WMap → String → Except (List String) (WMap × Weight)) :
    WMap → List String → Except (List String) (WMap × Nat)
  | ws, [] => .ok (ws, 0)
  | ws, d :: rest =>
    match f ws d with
    | .error e => .error e
    | .ok (ws1, w) =>
      match sumW f ws1 rest with
      | .error e => .error e
      | .ok (ws2, total) => .ok (ws2, w.1 + total)

/-- Closure `_compute_weight(step)` of `_build_weights`: on a memo hit
return it; otherwise push the step on the recursion path, raise the cycle
error carrying the whole path when the step already occurs on it, and
otherwise sum the weights of the direct dependents.  The error value `[]`
is reserved for fuel exhaustion and never produced by a genuine cycle. -/
def computeWeight (depd : Graph) :
    Nat → List String → WMap → String → Except (List String) (WMap × Weight)
  | 0, _, _, _ => .error []
  | fuel + 1, path, ws, step =>
    match alook ws step with
    | some w => .ok (ws, w)
    | none =>
      let path2 := step :: path
      if step ∈ path then .error path2
      else
        let dd := lookupD depd step
        match sumW (computeWeight depd fuel path2) ws dd with
        | .error e => .error e
        | .ok (ws1, total) =>
          let w : Weight := (total, dd.length, step)
          .ok (aset ws1 step w, w)

/-- Outer loop of `_build_weights` over every node of the dependent graph. -/
def buildWLoop (depd : Graph) (fuel : Nat) :
    WMap → List String → Except (List String) WMap
  | ws, [] => .ok ws
  | ws, k :: rest =>
    match computeWeight depd fuel [] ws k with
    | .error e => .error e
    | .ok (ws1, _) => buildWLoop depd fuel ws1 rest

/-- Method `_build_weights`, run with fuel ample for every graph. -/
def buildWeights (depd : Graph) : Except (List String) WMap :=
  buildWLoop depd (depd.length + 1) [] (keysOf depd)

/-- Constructor `Resolver.__init__` over a step-to-dependencies mapping:
normalize, transpose, and compute the weights, propagating the cycle
error.  The scheduler of `get_scheduler()` is built from the first two
components; the weights are stored but never read by the scheduler. -/
def resolverInit (m : Graph) : Except (List String) (Graph × Graph × WMap) :=
  let deps := mkDeps m
  let depd := mkDepd deps
  match buildWeights depd with
  | .error e => .error e
  | .ok ws => .ok (deps, depd, ws)

/-- Loop of `Resolver.order()`: while the scheduler is active take the
first ready step, mark it started then succeeded, and append it to the
output; embedded with fuel, `none` meaning the loop of the source would
not terminate normally. -/
def orderLoop : Nat → Sched → List String → Option (List String)
  | fuel, s, acc =>
    if s.ready.isEmpty && s.running.isEmpty then some acc.reverse
    else
      match fuel with
      | 0 => none
      | fuel + 1 =>
        match s.ready.head? with
        | none => none
        | some st => orderLoop fuel (markSuccess (markStarted s st 0) st 0) (st :: acc)

/-- Composition `Resolver(mapping).order()`: `none` when construction
raises the cycle error or the drain loop cannot complete. -/
def resolverOrder (m : Graph) : Option (List String) :=
  match resolverInit m with
  | .error _ => none
  | .ok (deps, depd, _) => orderLoop (m.length + 1) (Sched.init deps depd) []

/-! Executor summary (`Pipeline._log_summary` and
`FailedPipelineException` in `_exceptions.py`). -/

/-- Kinds of exception a per-step result can carry in
`Pipeline._execute`: the tolerated missing-interpreter error, the
cancellation marker, or any other failure. -/
inductive ExcKind where
  | unavailableInterpreter
  | cancelledErr
  | other
deriving DecidableEq, Repr

/-- Results dict of `Pipeline._execute`: step name to
`(optional exception, duration)`. -/
abbrev PyResults := AssocL (Option ExcKind × Nat)

/-- Accumulated job classification of `_log_summary`. -/
structure Jobs where
  failedJobs : List String
  blockedJobs : List String
  cancelledJobs : List String
deriving DecidableEq, Repr

/-- Classification of one step of the topological order in
`_log_summary`: success, tolerated skip, cancelled, failed, or — when the
step never produced a result — cancelled if a cancellation was already
seen, blocked otherwise. -/
def classifyStep (skipMissing : Bool) (results : PyResults) (acc : Jobs)
    (name : String) : Jobs :=
  match alook results name with
  | some (none, _) => acc
  | some (some ExcKind.unavailableInterpreter, _) =>
      if skipMissing then acc
      else { acc with failedJobs := acc.failedJobs ++ [name] }
  | some (some ExcKind.cancelledErr, _) =>
      { acc with cancelledJobs := acc.cancelledJobs ++ [name] }
  | some (some ExcKind.other, _) =>
      { acc with failedJobs := acc.failedJobs ++ [name] }
  | none =>
      if acc.cancelledJobs.isEmpty then
        { acc with blockedJobs := acc.blockedJobs ++ [name] }
      else { acc with cancelledJobs := acc.cancelledJobs ++ [name] }

/-- Model of `FailedPipelineException`: the three counts it is constructed
from; its `BaseDwasException` exit code is the constant 1. -/
structure FailedPipelineExc where
  nFailed : Nat
  nBlocked : Nat
  nCancelled : Nat
deriving DecidableEq, Repr

/-- Exit code passed by `FailedPipelineException.__init__` to
`BaseDwasException`, signalling a failed pipeline run. -/
def FailedPipelineExc.exitCode (_ : FailedPipelineExc) : Nat := 1

/-- Tail of `Pipeline._log_summary`: classify every step of the
topological order, then raise `FailedPipelineException` with the three
counts when, and only when, some job failed. -/
def logSummary (skipMissing : Bool) (ord : List String) (results : PyResults) :
    Option FailedPipelineExc :=
  let jobs := ord.foldl (classifyStep skipMissing results) ⟨[], [], []⟩
  if jobs.failedJobs.isEmpty then none
  else some ⟨jobs.failedJobs.length, jobs.blockedJobs.length, jobs.cancelledJobs.length⟩

/-! Graph builder (`Pipeline._build_graph`), for the fragment with
`only_selected_steps=False` that claims C8 and C9 concern.  The step
registry maps each name to its handler: whether it is a
`StepGroupHandler`, its `requires` list and its `run_by_default` flag. -/

/-- Registered step handler data relevant to graph building. -/
structure StepInfo where
  isGroup : Bool
  requires : List String
  runByDefault : Bool
deriving DecidableEq, Repr

/-- Finalized step registry, `Pipeline.steps`. -/
abbrev Registry := AssocL StepInfo

/-- Errors `_build_graph` can raise: a bare `KeyError` escaping the
`expand` closure, the aggregated `UnknownStepsException`, or exhaustion of
the fuel that embeds the unbounded worklist loops. -/
inductive BuildErr where
  | fuelOut
  | keyErr (name : String)
  | unknownSteps (names : List String)
deriving DecidableEq, Repr

/-- Total number of requirement references in a registry, used to size
fuel for the worklist loops. -/
def totalReq (reg : Registry) : Nat := (reg.map (fun p => p.2.requires.length)).sum

/-- Closure `expand(steps)` of `_build_graph`: LIFO worklist that adds
every processed name to the expansion and pushes the requirements of step
groups; the worklist is a list whose head is the right end of the deque.
An unregistered name raises a bare `KeyError`. -/
def expandLoop (reg : Registry) :
    Nat → List String → List String → Except BuildErr (List String)
  | _, [], exp => .ok exp
  | 0, _ :: _, _ => .error .fuelOut
  | fuel + 1, step :: rest, exp =>
      let exp2 := insertNew exp step
      match alook reg step with
      | none => .error (.keyErr step)
      | some info =>
          let rest2 :=
            if info.isGroup then
              info.requires.foldl (fun st r => if r ∈ exp2 then st else r :: st) rest
            else rest
          expandLoop reg fuel rest2 exp2

/-- Main collection loop of `_build_graph`: pop names off the LIFO
worklist, collect unregistered ones instead of raising, record the
requirements of registered ones and push requirements not yet in the
graph. -/
def mainLoop (reg : Registry) :
    Nat → List String → Graph → List String → Except BuildErr (Graph × List String)
  | _, [], g, unk => .ok (g, unk)
  | 0, _ :: _, _, _ => .error .fuelOut
  | fuel + 1, step :: rest, g, unk =>
      match alook reg step with
      | none => mainLoop reg fuel rest g (unk ++ [step])
      | some info =>
          let g2 := aset g step info.requires
          let rest2 :=
            info.requires.foldl (fun st r => if (alook g2 r).isSome then st else r :: st) rest
          mainLoop reg fuel rest2 g2 unk

/-- Closure `compute_replacement(requirements)` of `_build_graph`: keep a
requirement that is in the requested steps list, otherwise splice in its
own (memoized) replacement, computed recursively. -/
def computeRepl (g : Graph) (steps : List String) :
    Nat → AssocL (List String) → List String →
      Except BuildErr (AssocL (List String) × List String)
  | _, er, [] => .ok (er, [])
  | 0, _, _ :: _ => .error .fuelOut
  | fuel + 1, er, req :: rest =>
      if req ∈ steps then
        match computeRepl g steps fuel er rest with
        | .error e => .error e
        | .ok (er2, t) => .ok (er2, req :: t)
      else
        match alook er req with
        | some repl =>
            match computeRepl g steps fuel er rest with
            | .error e => .error e
            | .ok (er2, t) => .ok (er2, repl ++ t)
        | none =>
            match computeRepl g steps fuel er (lookupD g req) with
            | .error e => .error e
            | .ok (er1, r) =>
                match computeRepl g steps fuel (aset er1 req r) rest with
                | .error e => .error e
                | .ok (er3, t) => .ok (er3, r ++ t)

/-- Loop over the excluded steps computing their replacements; a step
whose adjacency is missing or empty (`graph.get(step)` falsy) gets no
replacement entry. -/
def exceptLoop (g : Graph) (steps : List String) (fuel : Nat) :
    AssocL (List String) → List String → Except BuildErr (AssocL (List String))
  | er, [] => .ok er
  | er, step :: rest =>
      if (alook er step).isSome then exceptLoop g steps fuel er rest
      else
        match lookupD g step with
        | [] => exceptLoop g steps fuel er rest
        | d :: ds =>
            match computeRepl g steps fuel er (d :: ds) with
            | .error e => .error e
            | .ok (er1, r) => exceptLoop g steps fuel (aset er1 step r) rest

/-- Final comprehension of the except branch: drop excluded keys and
substitute every edge by its replacement when one exists. -/
def applyReplacements (g : Graph) (exceptSet : List String)
    (er : AssocL (List String)) : Graph :=
  (g.filter (fun p => !exceptSet.contains p.1)).map
    (fun p =>
      (p.1, p.2.flatMap (fun v => match alook er v with | some repl => repl | none => [v])))

/-- Default requested steps when none are given: every registered step
that runs by default and is not excluded, in registration order. -/
def defaultSteps (reg : Registry) (exceptSet : List String) : List String :=
  (reg.filter (fun p => p.2.runByDefault && !exceptSet.contains p.1)).map Prod.fst

/-- Fuel ample for the worklist loops on the graphs of the claims. -/
def wlFuel (reg : Registry) (l : List String) : Nat :=
  (reg.length + 1) * (totalReq reg + 1) + l.length + 1

/-- Fuel ample for the replacement recursion on the graphs of the claims. -/
def replFuel (g : Graph) : Nat :=
  (g.length + 1) * ((g.map (fun p => p.2.length)).sum + 2)

/-- Method `Pipeline._build_graph(steps, except_steps)` with
`only_selected_steps=False`: expand the except list (a bare `KeyError` on
an unknown name), default the requested steps, collect the reachable
graph while gathering unknown names, raise them together, then apply the
except splicing. -/
def buildGraph (reg : Registry) (steps? : Option (List String))
    (exceptSteps? : Option (List String)) : Except BuildErr Graph :=
  match (match exceptSteps? with
         | none => Except.ok []
         | some es => expandLoop reg (wlFuel reg es) es.reverse []) with
  | .error e => .error e
  | .ok exceptSet =>
      let steps :=
        match steps? with
        | none => defaultSteps reg exceptSet
        | some s => s
      match mainLoop reg (wlFuel reg steps) steps.reverse [] [] with
      | .error e => .error e
      | .ok (g, unk) =>
          if !unk.isEmpty then .error (.unknownSteps unk)
          else if !exceptSet.isEmpty then
            match exceptLoop g steps (replFuel g) [] exceptSet with
            | .error e => .error e
            | .ok er => .ok (applyReplacements g exceptSet er)
          else .ok g

/-! Specification apparatus: well-formed input mappings, the valid
transition relation of the scheduler, and the state predicates the claims
quantify over. -/

/-- Well-formedness of a step-to-dependencies mapping handed to
`Resolver`: distinct keys (it is a Python dict) and every dependency
registered as a key (otherwise `_make_dependent_graph` raises). -/
def WFmap (m : Graph) : Prop :=
  (keysOf m).Nodup ∧ ∀ p ∈ m, ∀ d ∈ p.2, d ∈ keysOf m

instance : DecidablePred WFmap := fun m => by
  unfold WFmap; infer_instance

/-- Scheduler produced for a mapping by `Resolver(mapping).get_scheduler()`. -/
def schedOf (m : Graph) : Sched := Sched.init (mkDeps m) (mkDepd (mkDeps m))

/-- States reachable from construction by valid transitions: each marking
method requires its step to be in the state the transition reads it from
(`mark_started` furthermore requires the scheduler not stopped, per its
assertion), and `stop` is always allowed. -/
inductive Reaches (m : Graph) : Sched → Prop where
  | init : Reaches m (schedOf m)
  | started {s : Sched} {step : String} {now : Nat} :
      Reaches m s → step ∈ s.ready → s.stopped = false →
      Reaches m (markStarted s step now)
  | succeeded {s : Sched} {step : String} {now : Nat} :
      Reaches m s → step ∈ runKeys s → Reaches m (markSuccess s step now)
  | skippedStep {s : Sched} {step : String} {now : Nat} {err : Nat} :
      Reaches m s → step ∈ runKeys s → Reaches m (markSkipped s step now err)
  | failedStep {s : Sched} {step : String} {now : Nat} {err : Nat} :
      Reaches m s → step ∈ runKeys s → Reaches m (markFailed s step now err)
  | stopped {s : Sched} : Reaches m s → Reaches m (stop s)

/-- Indicator count of how many of the eight status collections contain a
given name. -/
def memCount (s : Sched) (n : String) : Nat :=
  (if n ∈ s.waiting then 1 else 0) + (if n ∈ s.ready then 1 else 0) +
  (if n ∈ runKeys s then 1 else 0) + (if n ∈ s.success then 1 else 0) +
  (if n ∈ s.failed then 1 else 0) + (if n ∈ s.blocked then 1 else 0) +
  (if n ∈ s.cancelled then 1 else 0) + (if n ∈ s.skipped then 1 else 0)

/-- Membership in at least one of the eight status collections. -/
def inSomeSet (s : Sched) (n : String) : Prop :=
  n ∈ s.waiting ∨ n ∈ s.ready ∨ n ∈ runKeys s ∨ n ∈ s.success ∨
  n ∈ s.failed ∨ n ∈ s.blocked ∨ n ∈ s.cancelled ∨ n ∈ s.skipped

/-- Names of the eight status collections of the scheduler. -/
inductive StName where
  | stWaiting
  | stReady
  | stRunning
  | stSuccess
  | stFailed
  | stBlocked
  | stCancelled
  | stSkipped
deriving DecidableEq, Repr

/-- Membership of a step in the named status collection. -/
def inSt (s : Sched) (n : String) : StName → Prop
  | .stWaiting => n ∈ s.waiting
  | .stReady => n ∈ s.ready
  | .stRunning => n ∈ runKeys s
  | .stSuccess => n ∈ s.success
  | .stFailed => n ∈ s.failed
  | .stBlocked => n ∈ s.blocked
  | .stCancelled => n ∈ s.cancelled
  | .stSkipped => n ∈ s.skipped

/-- Presence of a result record for a step. -/
def hasResult (s : Sched) (n : String) : Prop := (alook s.results n).isSome

/-- Membership in one of the five terminal collections, the ones that
carry a result record. -/
def inTerminal (s : Sched) (n : String) : Prop :=
  n ∈ s.success ∨ n ∈ s.failed ∨ n ∈ s.blocked ∨ n ∈ s.cancelled ∨ n ∈ s.skipped

/-- Inductive invariant of the scheduler, proved to hold in every
reachable state: key preservation of the two graph copies, no duplicates
in the collections that are erased from, the eight-way partition, empty
remaining dependencies for steps at or past `ready`, the edge coherence
between the two graph copies, closure of both graphs over the node set,
nonempty remaining dependencies for waiting steps, and the result-record
domain. -/
structure Inv (m : Graph) (s : Sched) : Prop where
  depsKeys : keysOf s.deps = keysOf m
  depdKeys : keysOf s.depd = keysOf m
  nodupW : s.waiting.Nodup
  nodupRd : s.ready.Nodup
  nodupRn : (runKeys s).Nodup
  nodupC : s.cancelled.Nodup
  partSome : ∀ n ∈ keysOf m, ∃ st, inSt s n st ∧ ∀ st2, inSt s n st2 → st2 = st
  partNone : ∀ n, n ∉ keysOf m → ∀ st, ¬inSt s n st
  emptyDeps : ∀ n, n ∈ s.ready ∨ n ∈ runKeys s ∨ n ∈ s.success ∨ n ∈ s.failed ∨ n ∈ s.skipped →
      lookupD s.deps n = []
  edgeQ : ∀ st d, st ∉ s.success → st ∉ s.skipped → d ∈ lookupD s.depd st →
      d ∈ s.blocked ∨ st ∈ lookupD s.deps d
  depdSub : ∀ st d, d ∈ lookupD s.depd st → d ∈ keysOf m
  depsSub : ∀ st d, d ∈ lookupD s.deps st → d ∈ keysOf m
  wDeps : ∀ n ∈ s.waiting, lookupD s.deps n ≠ []
  nodupDeps : ∀ st, (lookupD s.deps st).Nodup
  nodupDepd : ∀ st, (lookupD s.depd st).Nodup
  resDom : ∀ n, hasResult s n ↔ inTerminal s n

/-- Existence of a strictly descending numeric rank along every
dependency edge: the standard characterization of acyclicity for a finite
mapping. -/
def Acyclic (m : Graph) : Prop :=
  ∃ rank : String → Nat, ∀ p ∈ m, ∀ d ∈ p.2, rank d < rank p.1

/-- Dependency edge of a mapping: `x` directly requires `y`. -/
def reqEdge (m : Graph) (x y : String) : Prop := y ∈ lookupD (mkDeps m) x

/-- Validity of a list as a topological order of a mapping: it lists each
step exactly once and every step appears after all of its dependencies. -/
def isTopoOrder (m : Graph) (l : List String) : Prop :=
  l.Nodup ∧ (∀ n, n ∈ l ↔ n ∈ keysOf m) ∧
    ∀ n x, n ∈ keysOf m → x ∈ lookupD (mkDeps m) n → l.indexOf x < l.indexOf n

/-- Classification accumulated over a whole topological order by
`_log_summary`, starting from the three empty job lists. -/
def jobsOf (skipMissing : Bool) (ord : List String) (results : PyResults) : Jobs :=
  ord.foldl (classifyStep skipMissing results) ⟨[], [], []⟩

/-- Test for a step whose recorded result makes `_log_summary` append it
to `failed_jobs`: an ordinary exception, or an unavailable-interpreter
exception when missing interpreters are not tolerated. -/
def failsRun (sk : Bool) (res : PyResults) (n : String) : Bool :=
  match alook res n with
  | some (some ExcKind.other, _) => true
  | some (some ExcKind.unavailableInterpreter, _) => !sk
  | _ => false

/-- The scheduler state obtained from the two-step graph e ← c by starting
step e at monotonic time 3 and skipping it at time 5 with error token 7. -/
def c1State : Sched :=
  markSkipped (markStarted (schedOf [("e", []), ("c", ["e"])]) "e" 3) "e" 5 7

/-- Scheduler over the graph a ← b after starting b and then calling stop,
which drains the waiting dependent a into cancelled. -/
def c3Pre : Sched := stop (markStarted (schedOf [("b", []), ("a", ["b"])]) "b" 0)

/-- The state after the running step b then fails: its cascade reaches the
already-cancelled dependent a. -/
def c3State : Sched := markFailed c3Pre "b" 1 9

/-! Basic lemmas about the dict and set helpers. -/

theorem alook_aset {α : Type} (l : AssocL α) (k q : String) (v : α) :
    alook (aset l k v) q = if q = k then some v else alook l q := by
  induction l with
  | nil =>
      simp only [aset, alook]
      by_cases h : k = q
      · subst h; simp
      · have h2 : ¬q = k := fun hh => h (Eq.symm hh)
        simp [h, h2]
  | cons p rest ih =>
      obtain ⟨k2, w⟩ := p
      simp only [aset]
      by_cases h1 : k2 = k
      · subst h1
        simp only [if_pos rfl, alook]
        by_cases h2 : k2 = q
        · subst h2; simp
        · have h2b : ¬q = k2 := fun hh => h2 (Eq.symm hh)
          simp [h2, h2b]
      · simp only [if_neg h1, alook]
        by_cases h2 : k2 = q
        · subst h2; simp [h1]
        · simp [h2, ih]

theorem lookupD_aset (g : Graph) (k q : String) (v : List String) :
    lookupD (aset g k v) q = if q = k then v else lookupD g q := by
  unfold lookupD
  rw [alook_aset]
  by_cases h : q = k <;> simp [h]

theorem keys_aset_of_mem {α : Type} (l : AssocL α) (k : String) (v : α)
    (h : k ∈ l.map Prod.fst) : (aset l k v).map Prod.fst = l.map Prod.fst := by
  induction l with
  | nil => simp at h
  | cons p rest ih =>
      by_cases h1 : p.1 = k
      · obtain ⟨k2, w⟩ := p
        simp only at h1
        simp [aset, h1]
      · obtain ⟨k2, w⟩ := p
        simp only at h1
        simp only [List.map_cons, List.mem_cons] at h
        rcases h with h | h
        · exact absurd h.symm h1
        · simp [aset, h1, ih h]

theorem keys_aerase {α : Type} (l : AssocL α) (k : String) :
    (aerase l k).map Prod.fst = (l.map Prod.fst).erase k := by
  induction l with
  | nil => simp [aerase]
  | cons p rest ih =>
      obtain ⟨k2, w⟩ := p
      by_cases h1 : k2 = k
      · simp [aerase, h1, List.erase_cons_head]
      · have : ¬(k2 == k) = true := by simp [h1]
        simp [aerase, h1, List.erase_cons_tail this, ih]

theorem alook_isSome_iff {α : Type} (l : AssocL α) (k : String) :
    (alook l k).isSome ↔ k ∈ l.map Prod.fst := by
  induction l with
  | nil => simp [alook]
  | cons p rest ih =>
      obtain ⟨k2, w⟩ := p
      by_cases h1 : k2 = k
      · simp [alook, h1]
      · have h1x : ¬k = k2 := fun h => h1 (Eq.symm h)
        simp [alook, h1, h1x, ih]

theorem alook_aerase {α : Type} (l : AssocL α) (k q : String)
    (hnd : (l.map Prod.fst).Nodup) :
    alook (aerase l k) q = if q = k then none else alook l q := by
  induction l with
  | nil => simp [aerase, alook]
  | cons p rest ih =>
      obtain ⟨k2, w⟩ := p
      simp only [List.map_cons, List.nodup_cons] at hnd
      simp only [aerase]
      by_cases h1 : k2 = k
      · subst h1
        simp only [if_pos rfl]
        by_cases h2 : q = k2
        · subst h2
          have hnone : alook rest q = none := by
            cases hx : alook rest q with
            | none => rfl
            | some u =>
                exact absurd ((alook_isSome_iff rest q).mp (by simp [hx])) hnd.1
          simp [hnone]
        · have h2b : ¬k2 = q := fun hh => h2 (Eq.symm hh)
          simp [alook, h2, h2b]
      · simp only [if_neg h1]
        by_cases h2 : k2 = q
        · subst h2
          simp [alook, h1]
        · simp [alook, h2, ih hnd.2]

theorem mem_insertNew (l : List String) (x y : String) :
    x ∈ insertNew l y ↔ x = y ∨ x ∈ l := by
  unfold insertNew
  by_cases h : y ∈ l
  · rw [if_pos h]
    constructor
    · exact fun hx => Or.inr hx
    · rintro (rfl | hx)
      · exact h
      · exact hx
  · rw [if_neg h]
    simp [or_comm]

theorem nodup_insertNew (l : List String) (y : String) (h : l.Nodup) :
    (insertNew l y).Nodup := by
  unfold insertNew
  by_cases hm : y ∈ l
  · rwa [if_pos hm]
  · rw [if_neg hm]
    refine List.Nodup.append h (List.nodup_singleton y) ?_
    intro a ha hay
    simp only [List.mem_singleton] at hay
    subst hay
    exact hm ha

theorem foldl_preserve {α β : Type} {P : β → Prop} (f : β → α → β) (l : List α)
    (s : β) (h0 : P s) (hstep : ∀ t a, a ∈ l → P t → P (f t a)) :
    P (l.foldl f s) := by
  induction l generalizing s with
  | nil => exact h0
  | cons a rest ih =>
      exact ih (f s a) (hstep s a (by simp) h0)
        (fun t b hb => hstep t b (by simp [hb]))

theorem foldl_establish {α β : Type} {P Q : β → Prop} (f : β → α → β) :
    ∀ (l : List α) (d : α) (s : β), d ∈ l → Q s →
      (∀ t a, a ∈ l → Q t → Q (f t a)) →
      (∀ t, Q t → P (f t d)) →
      (∀ t a, a ∈ l → P t → P (f t a)) →
      P (l.foldl f s)
  | [], d, _, hd, _, _, _, _ => absurd hd (List.not_mem_nil d)
  | a :: rest, d, s, hd, hQ0, hQstep, hPQ, hPstep => by
      rcases List.mem_cons.mp hd with h | h
      · subst h
        exact foldl_preserve f rest (f s d) (hPQ s hQ0)
          (fun t b hb => hPstep t b (List.mem_cons_of_mem _ hb))
      · exact foldl_establish f rest d (f s a) h
          (hQstep s a (List.mem_cons_self a rest) hQ0)
          (fun t b hb => hQstep t b (List.mem_cons_of_mem _ hb))
          hPQ
          (fun t b hb => hPstep t b (List.mem_cons_of_mem _ hb))

theorem mem_foldl_insertNew (l : List String) (acc : List String) (x : String) :
    x ∈ l.foldl insertNew acc ↔ x ∈ acc ∨ x ∈ l := by
  induction l generalizing acc with
  | nil => simp
  | cons a rest ih =>
      simp only [List.foldl_cons, ih, mem_insertNew, List.mem_cons]
      tauto

theorem mem_dedup (l : List String) (x : String) : x ∈ dedup l ↔ x ∈ l := by
  unfold dedup
  simp [mem_foldl_insertNew]

theorem nodup_dedup (l : List String) : (dedup l).Nodup := by
  unfold dedup
  exact foldl_preserve insertNew l [] List.nodup_nil
    (fun t a _ ht => nodup_insertNew t a ht)

theorem alook_of_mem_nodup {α : Type} (l : AssocL α) (x : String) (v : α)
    (hnd : (l.map Prod.fst).Nodup) (hmem : (x, v) ∈ l) : alook l x = some v := by
  induction l with
  | nil => simp at hmem
  | cons p rest ih =>
      obtain ⟨k2, w⟩ := p
      simp only [List.map_cons, List.nodup_cons] at hnd
      rcases List.mem_cons.mp hmem with h | h
      · obtain ⟨h1, h2⟩ := Prod.mk.injEq .. ▸ h
        simp [alook, h1.symm, h2]
      · have hk2 : k2 ≠ x := by
          intro hk
          subst hk
          exact hnd.1 (List.mem_map.mpr ⟨(k2, v), h, rfl⟩)
        simp [alook, hk2, ih hnd.2 h]

theorem mem_of_alook {α : Type} (l : AssocL α) (x : String) (v : α)
    (h : alook l x = some v) : (x, v) ∈ l := by
  induction l with
  | nil => simp [alook] at h
  | cons p rest ih =>
      obtain ⟨k2, w⟩ := p
      by_cases h1 : k2 = x
      · subst h1
        have h2 : w = v := by simpa [alook] using h
        subst h2
        exact List.mem_cons_self _ _
      · simp only [alook, if_neg h1] at h
        exact List.mem_cons_of_mem _ (ih h)

theorem mem_keysOf_iff (g : Graph) (n : String) :
    n ∈ keysOf g ↔ ∃ vs, (n, vs) ∈ g := by
  unfold keysOf
  constructor
  · intro h
    obtain ⟨p, hp, he⟩ := List.mem_map.mp h
    obtain ⟨k, vs⟩ := p
    simp only at he
    subst he
    exact ⟨vs, hp⟩
  · rintro ⟨vs, hvs⟩
    exact List.mem_map.mpr ⟨(n, vs), hvs, rfl⟩

theorem mem_filterKeys (g : Graph) (f : String × List String → Bool) (n : String) :
    n ∈ (g.filter f).map Prod.fst ↔ ∃ vs, (n, vs) ∈ g ∧ f (n, vs) := by
  constructor
  · intro h
    obtain ⟨p, hp, he⟩ := List.mem_map.mp h
    obtain ⟨hpg, hpf⟩ := List.mem_filter.mp hp
    obtain ⟨k, vs⟩ := p
    simp only at he
    subst he
    exact ⟨vs, hpg, hpf⟩
  · rintro ⟨vs, hg, hf⟩
    exact List.mem_map.mpr ⟨(n, vs), List.mem_filter.mpr ⟨hg, hf⟩, rfl⟩

/-! Characterization of the dependent graph built by
`_make_dependent_graph`. -/

theorem depdInner_spec (k : String) (K : List String) :
    ∀ (vs : List String) (a : Graph), (keysOf a = K) →
      (∀ st, (lookupD a st).Nodup) → (∀ d ∈ vs, d ∈ K) →
      keysOf (vs.foldl (fun a d => aset a d (insertNew (lookupD a d) k)) a) = K ∧
      (∀ st, (lookupD (vs.foldl (fun a d => aset a d (insertNew (lookupD a d) k)) a) st).Nodup) ∧
      (∀ st x, x ∈ lookupD (vs.foldl (fun a d => aset a d (insertNew (lookupD a d) k)) a) st ↔
        (x ∈ lookupD a st ∨ (x = k ∧ st ∈ vs)))
  | [], a, hk, hn, _ => ⟨hk, hn, by simp⟩
  | d :: vs, a, hk, hn, hcl => by
      simp only [List.foldl_cons]
      set a1 := aset a d (insertNew (lookupD a d) k) with ha1
      have hk1 : keysOf a1 = K := by
        rw [ha1]
        unfold keysOf
        rw [keys_aset_of_mem a d _ (by rw [← hk] at hcl; exact hcl d (by simp))]
        exact hk
      have hl1 : ∀ st, lookupD a1 st = if st = d then insertNew (lookupD a d) k else lookupD a st :=
        fun st => lookupD_aset a d st _
      have hn1 : ∀ st, (lookupD a1 st).Nodup := by
        intro st
        rw [hl1 st]
        by_cases h : st = d
        · simp only [if_pos h]
          exact nodup_insertNew _ _ (hn d)
        · simp only [if_neg h]
          exact hn st
      obtain ⟨r1, r2, r3⟩ := depdInner_spec k K vs a1 hk1 hn1
        (fun e he => hcl e (List.mem_cons_of_mem _ he))
      refine ⟨r1, r2, fun st x => ?_⟩
      rw [r3 st x, hl1 st]
      by_cases h : st = d
      · subst h
        simp [mem_insertNew]
        tauto
      · simp only [if_neg h, List.mem_cons]
        constructor
        · rintro (hx | ⟨rfl, hst⟩)
          · exact Or.inl hx
          · exact Or.inr ⟨rfl, Or.inr hst⟩
        · rintro (hx | ⟨rfl, rfl | hst⟩)
          · exact Or.inl hx
          · exact absurd rfl h
          · exact Or.inr ⟨rfl, hst⟩

theorem depdFold_spec (K : List String) :
    ∀ (todo : List (String × List String)) (a : Graph), (keysOf a = K) →
      (∀ st, (lookupD a st).Nodup) → (∀ p ∈ todo, ∀ d ∈ p.2, d ∈ K) →
      keysOf (todo.foldl (fun acc p => p.2.foldl (fun a d => aset a d (insertNew (lookupD a d) p.1)) acc) a) = K ∧
      (∀ st, (lookupD (todo.foldl (fun acc p => p.2.foldl (fun a d => aset a d (insertNew (lookupD a d) p.1)) acc) a) st).Nodup) ∧
      (∀ st x, x ∈ lookupD (todo.foldl (fun acc p => p.2.foldl (fun a d => aset a d (insertNew (lookupD a d) p.1)) acc) a) st ↔
        (x ∈ lookupD a st ∨ ∃ vs, (x, vs) ∈ todo ∧ st ∈ vs))
  | [], a, hk, hn, _ => ⟨hk, hn, by simp⟩
  | p :: todo, a, hk, hn, hcl => by
      obtain ⟨i1, i2, i3⟩ := depdInner_spec p.1 K p.2 a hk hn
        (fun d hd => hcl p (List.mem_cons_self p todo) d hd)
      obtain ⟨r1, r2, r3⟩ := depdFold_spec K todo _ i1 i2
        (fun e he => hcl e (List.mem_cons_of_mem _ he))
      refine ⟨r1, r2, fun st x => ?_⟩
      simp only [List.foldl_cons] at r3 ⊢
      rw [r3 st x, i3 st x]
      constructor
      · rintro ((hx | ⟨rfl, hst⟩) | ⟨vs, hvs, hst⟩)
        · exact Or.inl hx
        · exact Or.inr ⟨p.2, List.mem_cons_self p todo, hst⟩
        · exact Or.inr ⟨vs, List.mem_cons_of_mem _ hvs, hst⟩
      · rintro (hx | ⟨vs, hvs, hst⟩)
        · exact Or.inl (Or.inl hx)
        · rcases List.mem_cons.mp hvs with h | h
          · refine Or.inl (Or.inr ⟨?_, ?_⟩)
            · rw [show x = (x, vs).1 from rfl, h]
            · rw [show st ∈ vs ↔ st ∈ ((x : String), vs).2 from Iff.rfl] at hst
              rw [h] at hst
              exact hst
          · exact Or.inr ⟨vs, h, hst⟩

theorem lookupD_initDepd (g : Graph) (st : String) :
    lookupD (g.map (fun p => (p.1, ([] : List String)))) st = [] := by
  induction g with
  | nil => simp [lookupD, alook]
  | cons p rest ih =>
      by_cases h : p.1 = st
      · simp [lookupD, alook, h]
      · simpa [lookupD, alook, h] using ih

theorem mkDepd_keys (g : Graph) (hcl : ∀ p ∈ g, ∀ d ∈ p.2, d ∈ keysOf g) :
    keysOf (mkDepd g) = keysOf g := by
  unfold mkDepd
  exact (depdFold_spec (keysOf g) g _ (by simp [keysOf])
    (fun st => by rw [lookupD_initDepd]; exact List.nodup_nil) hcl).1

theorem mkDepd_nodup (g : Graph) (hcl : ∀ p ∈ g, ∀ d ∈ p.2, d ∈ keysOf g) :
    ∀ st, (lookupD (mkDepd g) st).Nodup := by
  unfold mkDepd
  exact (depdFold_spec (keysOf g) g _ (by simp [keysOf])
    (fun st => by rw [lookupD_initDepd]; exact List.nodup_nil) hcl).2.1

theorem mkDepd_mem (g : Graph) (hnd : (keysOf g).Nodup)
    (hcl : ∀ p ∈ g, ∀ d ∈ p.2, d ∈ keysOf g) (st x : String) :
    x ∈ lookupD (mkDepd g) st ↔ x ∈ keysOf g ∧ st ∈ lookupD g x := by
  unfold mkDepd
  rw [(depdFold_spec (keysOf g) g _ (by simp [keysOf])
    (fun st => by rw [lookupD_initDepd]; exact List.nodup_nil) hcl).2.2 st x]
  rw [lookupD_initDepd]
  simp only [List.not_mem_nil, false_or]
  constructor
  · rintro ⟨vs, hvs, hst⟩
    refine ⟨(mem_keysOf_iff g x).mpr ⟨vs, hvs⟩, ?_⟩
    unfold lookupD
    rw [alook_of_mem_nodup g x vs hnd hvs]
    exact hst
  · rintro ⟨hx, hst⟩
    obtain ⟨vs, hvs⟩ := (mem_keysOf_iff g x).mp hx
    refine ⟨vs, hvs, ?_⟩
    unfold lookupD at hst
    rw [alook_of_mem_nodup g x vs hnd hvs] at hst
    exact hst

theorem alook_mkDeps (m : Graph) (n : String) :
    alook (mkDeps m) n = (alook m n).map dedup := by
  induction m with
  | nil => simp [mkDeps, alook]
  | cons p rest ih =>
      obtain ⟨k, vs⟩ := p
      by_cases h : k = n
      · simp [mkDeps, alook, h]
      · simpa [mkDeps, alook, h] using ih

theorem lookupD_mkDeps (m : Graph) (n : String) :
    lookupD (mkDeps m) n = dedup (lookupD m n) := by
  unfold lookupD
  rw [alook_mkDeps]
  cases alook m n with
  | none => simp [dedup]
  | some vs => simp

theorem keys_mkDeps (m : Graph) : keysOf (mkDeps m) = keysOf m := by
  unfold keysOf mkDeps
  rw [List.map_map]
  rfl

theorem mkDeps_closed (m : Graph) (hWF : WFmap m) :
    ∀ p ∈ mkDeps m, ∀ d ∈ p.2, d ∈ keysOf (mkDeps m) := by
  rintro p hp d hd
  rw [keys_mkDeps]
  obtain ⟨q, hq, he⟩ := List.mem_map.mp hp
  subst he
  simp only [mem_dedup] at hd
  exact hWF.2 q hq d hd

theorem mem_filterKeys_nodup (g : Graph) (hnd : (keysOf g).Nodup)
    (f : String × List String → Bool) (n : String) :
    n ∈ (g.filter f).map Prod.fst ↔ ∃ vs, alook g n = some vs ∧ f (n, vs) := by
  rw [mem_filterKeys]
  constructor
  · rintro ⟨vs, hg, hf⟩
    exact ⟨vs, alook_of_mem_nodup g n vs hnd hg, hf⟩
  · rintro ⟨vs, ha, hf⟩
    exact ⟨vs, mem_of_alook g n vs ha, hf⟩

theorem nodup_filterKeys (g : Graph) (hnd : (keysOf g).Nodup)
    (f : String × List String → Bool) : ((g.filter f).map Prod.fst).Nodup :=
  List.Nodup.sublist (List.Sublist.map Prod.fst (List.filter_sublist g)) hnd

theorem mem_keys_iff_isSome (g : Graph) (n : String) :
    n ∈ keysOf g ↔ (alook g n).isSome := (alook_isSome_iff g n).symm

theorem Inv_init (m : Graph) (hWF : WFmap m) : Inv m (schedOf m) := by
  have hndm : (keysOf m).Nodup := hWF.1
  have hkeys : keysOf (mkDeps m) = keysOf m := keys_mkDeps m
  have hndg : (keysOf (mkDeps m)).Nodup := by rwa [hkeys]
  have hclg : ∀ p ∈ mkDeps m, ∀ d ∈ p.2, d ∈ keysOf (mkDeps m) := mkDeps_closed m hWF
  have hready : ∀ n, n ∈ (schedOf m).ready ↔
      ∃ vs, alook (mkDeps m) n = some vs ∧ vs.isEmpty := by
    intro n
    exact mem_filterKeys_nodup (mkDeps m) hndg _ n
  have hwait : ∀ n, n ∈ (schedOf m).waiting ↔
      ∃ vs, alook (mkDeps m) n = some vs ∧ !vs.isEmpty := by
    intro n
    exact mem_filterKeys_nodup (mkDeps m) hndg _ n
  refine ⟨?_, ?_, ?_, ?_, ?_, ?_, ?_, ?_, ?_, ?_, ?_, ?_, ?_, ?_, ?_, ?_⟩
  · exact hkeys
  · rw [schedOf, Sched.init]
    simpa [hkeys] using mkDepd_keys (mkDeps m) hclg
  · exact nodup_filterKeys (mkDeps m) hndg _
  · exact nodup_filterKeys (mkDeps m) hndg _
  · simp [schedOf, Sched.init, runKeys]
  · simp [schedOf, Sched.init]
  · intro n hk
    have hsome : (alook (mkDeps m) n).isSome := by
      rw [← mem_keys_iff_isSome, hkeys]
      exact hk
    obtain ⟨vs, hvs⟩ := Option.isSome_iff_exists.mp hsome
    by_cases he : vs.isEmpty
    · have h1 : n ∈ (schedOf m).ready := (hready n).mpr ⟨vs, hvs, he⟩
      have h2 : n ∉ (schedOf m).waiting := by
        rw [hwait n]
        rintro ⟨vs2, hvs2, hne⟩
        rw [hvs] at hvs2
        obtain rfl : vs = vs2 := by injection hvs2
        rw [he] at hne
        simp at hne
      refine ⟨.stReady, h1, ?_⟩
      intro st2 hst2
      cases st2 <;> simp only [inSt] at hst2
      · exact absurd hst2 h2
      · rfl
      all_goals simp [schedOf, Sched.init, runKeys] at hst2
    · have h1 : n ∈ (schedOf m).waiting := (hwait n).mpr ⟨vs, hvs, by simp [he]⟩
      have h2 : n ∉ (schedOf m).ready := by
        rw [hready n]
        rintro ⟨vs2, hvs2, hne⟩
        rw [hvs] at hvs2
        obtain rfl : vs = vs2 := by injection hvs2
        exact he hne
      refine ⟨.stWaiting, h1, ?_⟩
      intro st2 hst2
      cases st2 <;> simp only [inSt] at hst2
      · rfl
      · exact absurd hst2 h2
      all_goals simp [schedOf, Sched.init, runKeys] at hst2
  · intro n hk st
    have hnone : ¬(alook (mkDeps m) n).isSome := by
      rw [← mem_keys_iff_isSome, hkeys]
      exact hk
    have h1 : n ∉ (schedOf m).ready := by
      rw [hready n]
      rintro ⟨vs, hvs, _⟩
      exact hnone (by simp [hvs])
    have h2 : n ∉ (schedOf m).waiting := by
      rw [hwait n]
      rintro ⟨vs, hvs, _⟩
      exact hnone (by simp [hvs])
    cases st <;> simp only [inSt]
    · exact h2
    · exact h1
    all_goals simp [schedOf, Sched.init, runKeys]
  · intro n hn
    rcases hn with hn | hn | hn | hn | hn
    · obtain ⟨vs, hvs, he⟩ := (hready n).mp hn
      show lookupD (schedOf m).deps n = []
      have : (schedOf m).deps = mkDeps m := rfl
      rw [this]
      unfold lookupD
      rw [hvs]
      simpa using he
    all_goals simp [schedOf, Sched.init, runKeys] at hn
  · intro st d _ _ hd
    have : (schedOf m).depd = mkDepd (mkDeps m) := rfl
    rw [this] at hd
    right
    exact ((mkDepd_mem (mkDeps m) hndg hclg st d).mp hd).2
  · intro st d hd
    have : (schedOf m).depd = mkDepd (mkDeps m) := rfl
    rw [this] at hd
    have := ((mkDepd_mem (mkDeps m) hndg hclg st d).mp hd).1
    rwa [hkeys] at this
  · intro st d hd
    have hds : (schedOf m).deps = mkDeps m := rfl
    rw [hds, lookupD_mkDeps, mem_dedup] at hd
    cases ha : alook m st with
    | none => rw [lookupD, ha] at hd; simp at hd
    | some vs =>
        rw [lookupD, ha] at hd
        simp only [Option.getD_some] at hd
        exact hWF.2 (st, vs) (mem_of_alook m st vs ha) d hd
  · intro n hn
    obtain ⟨vs, hvs, he⟩ := (hwait n).mp hn
    show lookupD (schedOf m).deps n ≠ []
    have : (schedOf m).deps = mkDeps m := rfl
    rw [this]
    unfold lookupD
    rw [hvs]
    simp only [Option.getD_some]
    intro hcon
    rw [hcon] at he
    simp at he
  · intro st
    have : (schedOf m).deps = mkDeps m := rfl
    rw [this, lookupD_mkDeps]
    exact nodup_dedup _
  · intro st
    have : (schedOf m).depd = mkDepd (mkDeps m) := rfl
    rw [this]
    exact mkDepd_nodup (mkDeps m) hclg st
  · intro n
    simp [hasResult, inTerminal, schedOf, Sched.init, alook]

theorem Inv.memKeys {m : Graph} {s : Sched} (hInv : Inv m s) {n : String}
    (st : StName) (h : inSt s n st) : n ∈ keysOf m := by
  by_contra hk
  exact hInv.partNone n hk st h

theorem Inv.unique {m : Graph} {s : Sched} (hInv : Inv m s) {n : String}
    (st st2 : StName) (h : inSt s n st) (h2 : inSt s n st2) : st2 = st := by
  obtain ⟨st0, _, hu⟩ := hInv.partSome n (hInv.memKeys st h)
  rw [hu st2 h2, hu st h]

theorem runKeys_markStarted (s : Sched) (step : String) (now : Nat) :
    runKeys (markStarted s step now) = runKeys s ++ [step] := by
  simp [markStarted, runKeys]

theorem Inv_markStarted {m : Graph} {s : Sched} {step : String} {now : Nat}
    (hInv : Inv m s) (hstep : step ∈ s.ready) :
    Inv m (markStarted s step now) := by
  have hrun : runKeys (markStarted s step now) = runKeys s ++ [step] :=
    runKeys_markStarted s step now
  have hnotrun : step ∉ runKeys s := by
    intro h
    exact absurd (hInv.unique .stReady .stRunning hstep h) (by simp)
  refine ⟨hInv.depsKeys, hInv.depdKeys, hInv.nodupW, hInv.nodupRd.erase step, ?_,
    hInv.nodupC, ?_, ?_, ?_, ?_, hInv.depdSub, hInv.depsSub, hInv.wDeps,
    hInv.nodupDeps, hInv.nodupDepd, ?_⟩
  · rw [hrun]
    simpa [List.nodup_append] using ⟨hInv.nodupRn, hnotrun⟩
  · intro n hk
    obtain ⟨st0, h0, hu⟩ := hInv.partSome n hk
    by_cases hne : n = step
    · subst hne
      have : st0 = .stReady := (hu .stReady hstep).symm
      subst this
      refine ⟨.stRunning, by simp [inSt, hrun], ?_⟩
      intro st2 hst2
      cases st2 <;> simp only [inSt, markStarted] at hst2
      · exact absurd (hu .stWaiting hst2) (by simp)
      · exact absurd hst2 hInv.nodupRd.not_mem_erase
      · rfl
      · exact absurd (hu .stSuccess hst2) (by simp)
      · exact absurd (hu .stFailed hst2) (by simp)
      · exact absurd (hu .stBlocked hst2) (by simp)
      · exact absurd (hu .stCancelled hst2) (by simp)
      · exact absurd (hu .stSkipped hst2) (by simp)
    · refine ⟨st0, ?_, ?_⟩
      · cases st0 <;> simp only [inSt, markStarted] at h0 ⊢
        · exact h0
        · exact (List.mem_erase_of_ne hne).mpr h0
        · show n ∈ List.map Prod.fst (s.running ++ [(step, now)])
          rw [List.map_append]
          exact List.mem_append_left _ h0
        all_goals exact h0
      · intro st2 hst2
        apply hu
        cases st2 <;> simp only [inSt, markStarted] at hst2 ⊢
        · exact hst2
        · exact List.mem_of_mem_erase hst2
        · have hst2b : n ∈ runKeys s ++ [step] := by
            simpa [runKeys] using hst2
          rcases List.mem_append.mp hst2b with h | h
          · exact h
          · simp at h
            exact absurd h hne
        all_goals exact hst2
  · intro n hk st
    have hstk : step ∈ keysOf m := hInv.memKeys .stReady hstep
    have hne : n ≠ step := fun he => hk (he ▸ hstk)
    cases st <;> simp only [inSt, markStarted]
    · exact hInv.partNone n hk .stWaiting
    · intro h
      exact hInv.partNone n hk .stReady (List.mem_of_mem_erase h)
    · rw [show runKeys { s with ready := s.ready.erase step, running := s.running ++ [(step, now)] } = runKeys s ++ [step] from hrun]
      intro h
      rcases List.mem_append.mp h with h | h
      · exact hInv.partNone n hk .stRunning h
      · simp at h
        exact hne h
    · exact hInv.partNone n hk .stSuccess
    · exact hInv.partNone n hk .stFailed
    · exact hInv.partNone n hk .stBlocked
    · exact hInv.partNone n hk .stCancelled
    · exact hInv.partNone n hk .stSkipped
  · intro n hn
    apply hInv.emptyDeps
    rcases hn with h | h | h | h | h
    · exact Or.inl (List.mem_of_mem_erase h)
    · rw [hrun] at h
      rcases List.mem_append.mp h with h | h
      · exact Or.inr (Or.inl h)
      · simp at h
        subst h
        exact Or.inl hstep
    · exact Or.inr (Or.inr (Or.inl h))
    · exact Or.inr (Or.inr (Or.inr (Or.inl h)))
    · exact Or.inr (Or.inr (Or.inr (Or.inr h)))
  · exact hInv.edgeQ
  · intro n
    exact hInv.resDom n

theorem readyOne_frame (step : String) (t : Sched) (d : String) :
    (readyOne step t d).depd = t.depd ∧ (readyOne step t d).running = t.running ∧
    (readyOne step t d).success = t.success ∧ (readyOne step t d).failed = t.failed ∧
    (readyOne step t d).blocked = t.blocked ∧ (readyOne step t d).cancelled = t.cancelled ∧
    (readyOne step t d).skipped = t.skipped ∧ (readyOne step t d).results = t.results ∧
    (readyOne step t d).stopped = t.stopped := by
  unfold readyOne
  split_ifs <;> exact ⟨rfl, rfl, rfl, rfl, rfl, rfl, rfl, rfl, rfl⟩

theorem readyOne_deps (step : String) (t : Sched) (d : String) :
    (readyOne step t d).deps = aset t.deps d ((lookupD t.deps d).erase step) := by
  unfold readyOne
  split_ifs <;> rfl

theorem readyOne_wr (step : String) (t : Sched) (d : String) :
    ((readyOne step t d).waiting = t.waiting ∧ (readyOne step t d).ready = t.ready ∧
      (¬((lookupD t.deps d).erase step).isEmpty ∨ d ∉ t.waiting)) ∨
    (((lookupD t.deps d).erase step).isEmpty ∧ d ∈ t.waiting ∧
      (readyOne step t d).waiting = t.waiting.erase d ∧
      (readyOne step t d).ready = t.ready ++ [d]) := by
  unfold readyOne
  split_ifs with h1 h2
  · exact Or.inr ⟨h1, h2, rfl, rfl⟩
  · exact Or.inl ⟨rfl, rfl, Or.inr h2⟩
  · exact Or.inl ⟨rfl, rfl, Or.inl h1⟩

theorem Inv_readyOne {m : Graph} {t : Sched} {step d : String} (hInv : Inv m t)
    (hd : d ∈ lookupD t.depd step) (hf : step ∈ t.success ∨ step ∈ t.skipped) :
    Inv m (readyOne step t d) := by
  have hdk : d ∈ keysOf m := hInv.depdSub step d hd
  obtain ⟨fdepd, frun, fsucc, ffail, fblock, fcanc, fskip, fres, fstop⟩ :=
    readyOne_frame step t d
  have fdeps := readyOne_deps step t d
  have hlook : ∀ q, lookupD (readyOne step t d).deps q =
      if q = d then (lookupD t.deps d).erase step else lookupD t.deps q := by
    intro q
    rw [fdeps, lookupD_aset]
  have hdepsKeys : keysOf (readyOne step t d).deps = keysOf m := by
    rw [fdeps]
    show (aset t.deps d _).map Prod.fst = keysOf m
    rw [keys_aset_of_mem t.deps d _ (by rw [show t.deps.map Prod.fst = keysOf t.deps from rfl, hInv.depsKeys]; exact hdk)]
    exact hInv.depsKeys
  have hedgeQ : ∀ st d2, st ∉ (readyOne step t d).success → st ∉ (readyOne step t d).skipped →
      d2 ∈ lookupD (readyOne step t d).depd st →
      d2 ∈ (readyOne step t d).blocked ∨ st ∈ lookupD (readyOne step t d).deps d2 := by
    intro st d2 hs1 hs2 hd2
    rw [fsucc] at hs1
    rw [fskip] at hs2
    rw [fdepd] at hd2
    rw [fblock]
    rcases hInv.edgeQ st d2 hs1 hs2 hd2 with h | h
    · exact Or.inl h
    · right
      rw [hlook d2]
      by_cases he : d2 = d
      · subst he
        have hne : st ≠ step := by
          rintro rfl
          rcases hf with hx | hx
          · exact hs1 hx
          · exact hs2 hx
        rw [if_pos rfl]
        exact (List.mem_erase_of_ne hne).mpr h
      · rw [if_neg he]
        exact h
  have hdepsSub : ∀ st d2, d2 ∈ lookupD (readyOne step t d).deps st → d2 ∈ keysOf m := by
    intro st d2 h2
    rw [hlook st] at h2
    by_cases he : st = d
    · rw [if_pos he] at h2
      exact hInv.depsSub d d2 (List.mem_of_mem_erase h2)
    · rw [if_neg he] at h2
      exact hInv.depsSub st d2 h2
  have hnodupDeps : ∀ st, (lookupD (readyOne step t d).deps st).Nodup := by
    intro st
    rw [hlook st]
    by_cases he : st = d
    · rw [if_pos he]
      exact (hInv.nodupDeps d).erase step
    · rw [if_neg he]
      exact hInv.nodupDeps st
  have hempty0 : ∀ n, n ∈ t.ready ∨ n ∈ runKeys t ∨ n ∈ t.success ∨ n ∈ t.failed ∨ n ∈ t.skipped →
      lookupD (readyOne step t d).deps n = [] := by
    intro n hn
    rw [hlook n]
    have h0 := hInv.emptyDeps n hn
    by_cases he : n = d
    · subst he
      rw [if_pos rfl, h0]
      rfl
    · rw [if_neg he]
      exact h0
  have frunK : runKeys (readyOne step t d) = runKeys t := by
    unfold runKeys
    rw [frun]
  rcases readyOne_wr step t d with ⟨fw, fr, hcase⟩ | ⟨hemp, hwmem, fw, fr⟩
  · -- the dependent is not moved: only its dependency list changed
    have hinSt1 : ∀ n2 st2, inSt (readyOne step t d) n2 st2 ↔ inSt t n2 st2 := by
      intro n2 st2
      cases st2 <;> simp only [inSt, runKeys]
      · rw [fw]
      · rw [fr]
      · rw [frun]
      · rw [fsucc]
      · rw [ffail]
      · rw [fblock]
      · rw [fcanc]
      · rw [fskip]
    refine ⟨hdepsKeys, fdepd ▸ hInv.depdKeys, fw ▸ hInv.nodupW, fr ▸ hInv.nodupRd,
      ?_, fcanc ▸ hInv.nodupC, ?_, ?_, ?_, hedgeQ, ?_, hdepsSub, ?_, hnodupDeps,
      ?_, ?_⟩
    · show ((readyOne step t d).running.map Prod.fst).Nodup
      rw [frun]
      exact hInv.nodupRn
    · intro n hk
      obtain ⟨st0, h0, hu⟩ := hInv.partSome n hk
      exact ⟨st0, (hinSt1 n st0).mpr h0, fun st2 hst2 => hu st2 ((hinSt1 n st2).mp hst2)⟩
    · intro n hk st
      exact fun hx => hInv.partNone n hk st ((hinSt1 n st).mp hx)
    · intro n hn
      apply hempty0
      rw [fr, frunK, fsucc, ffail, fskip] at hn
      exact hn
    · intro st d2 h2
      rw [fdepd] at h2
      exact hInv.depdSub st d2 h2
    · intro n hn
      rw [fw] at hn
      rw [hlook n]
      by_cases he : n = d
      · subst he
        rw [if_pos rfl]
        rcases hcase with hc | hc
        · intro hx
          rw [hx] at hc
          simp at hc
        · exact absurd hn hc
      · rw [if_neg he]
        exact hInv.wDeps n hn
    · intro st
      rw [fdepd]
      exact hInv.nodupDepd st
    · intro n
      rw [hasResult, fres, inTerminal, fsucc, ffail, fblock, fcanc, fskip]
      exact hInv.resDom n
  · -- the dependent moves from waiting to ready
    have hinSt2 : ∀ n2 st2, st2 ≠ .stWaiting → st2 ≠ .stReady →
        (inSt (readyOne step t d) n2 st2 ↔ inSt t n2 st2) := by
      intro n2 st2 hw1 hw2
      cases st2 <;> simp only [inSt, runKeys]
      · exact absurd rfl hw1
      · exact absurd rfl hw2
      · rw [frun]
      · rw [fsucc]
      · rw [ffail]
      · rw [fblock]
      · rw [fcanc]
      · rw [fskip]
    have hdready : d ∉ t.ready := by
      intro hx
      exact absurd (hInv.unique .stWaiting .stReady hwmem hx) (by simp)
    refine ⟨hdepsKeys, fdepd ▸ hInv.depdKeys, fw ▸ hInv.nodupW.erase d, ?_, ?_,
      fcanc ▸ hInv.nodupC, ?_, ?_, ?_, hedgeQ, ?_, hdepsSub, ?_, hnodupDeps,
      ?_, ?_⟩
    · rw [fr]
      simpa [List.nodup_append] using ⟨hInv.nodupRd, hdready⟩
    · show ((readyOne step t d).running.map Prod.fst).Nodup
      rw [frun]
      exact hInv.nodupRn
    · intro n hk
      obtain ⟨st0, h0, hu⟩ := hInv.partSome n hk
      by_cases hne : n = d
      · subst hne
        have hst0 : st0 = .stWaiting := (hu .stWaiting hwmem).symm
        subst hst0
        refine ⟨.stReady, ?_, ?_⟩
        · show n ∈ (readyOne step t n).ready
          rw [fr]
          simp
        · intro st2 hst2
          by_cases hc1 : st2 = StName.stWaiting
          · subst hc1
            rw [show inSt (readyOne step t n) n .stWaiting = (n ∈ (readyOne step t n).waiting) from rfl, fw] at hst2
            exact absurd hst2 hInv.nodupW.not_mem_erase
          · by_cases hc2 : st2 = StName.stReady
            · exact hc2
            · exact absurd (hu st2 ((hinSt2 n st2 hc1 hc2).mp hst2))
                (by cases st2 <;> simp_all)
      · refine ⟨st0, ?_, ?_⟩
        · by_cases hc1 : st0 = StName.stWaiting
          · subst hc1
            show n ∈ (readyOne step t d).waiting
            rw [fw]
            exact (List.mem_erase_of_ne hne).mpr h0
          · by_cases hc2 : st0 = StName.stReady
            · subst hc2
              show n ∈ (readyOne step t d).ready
              rw [fr]
              exact List.mem_append_left _ h0
            · exact (hinSt2 n st0 hc1 hc2).mpr h0
        · intro st2 hst2
          apply hu
          by_cases hc1 : st2 = StName.stWaiting
          · subst hc1
            rw [show inSt (readyOne step t d) n .stWaiting = (n ∈ (readyOne step t d).waiting) from rfl, fw] at hst2
            exact List.mem_of_mem_erase hst2
          · by_cases hc2 : st2 = StName.stReady
            · subst hc2
              rw [show inSt (readyOne step t d) n .stReady = (n ∈ (readyOne step t d).ready) from rfl, fr] at hst2
              rcases List.mem_append.mp hst2 with h | h
              · exact h
              · simp at h
                exact absurd h hne
            · exact (hinSt2 n st2 hc1 hc2).mp hst2
    · intro n hk st
      have h0 := hInv.partNone n hk
      have hne : n ≠ d := fun he => hk (he ▸ hdk)
      intro hx
      by_cases hc1 : st = StName.stWaiting
      · subst hc1
        rw [show inSt (readyOne step t d) n .stWaiting = (n ∈ (readyOne step t d).waiting) from rfl, fw] at hx
        exact h0 .stWaiting (List.mem_of_mem_erase hx)
      · by_cases hc2 : st = StName.stReady
        · subst hc2
          rw [show inSt (readyOne step t d) n .stReady = (n ∈ (readyOne step t d).ready) from rfl, fr] at hx
          rcases List.mem_append.mp hx with h | h
          · exact h0 .stReady h
          · simp at h
            exact hne h
        · exact h0 st ((hinSt2 n st hc1 hc2).mp hx)
    · intro n hn
      rw [fr, frunK, fsucc, ffail, fskip] at hn
      by_cases hne : n = d
      · subst hne
        rw [hlook n, if_pos rfl]
        simpa using hemp
      · apply hempty0
        rcases hn with h | h | h | h | h
        · rcases List.mem_append.mp h with h | h
          · exact Or.inl h
          · simp at h
            exact absurd h hne
        · exact Or.inr (Or.inl h)
        · exact Or.inr (Or.inr (Or.inl h))
        · exact Or.inr (Or.inr (Or.inr (Or.inl h)))
        · exact Or.inr (Or.inr (Or.inr (Or.inr h)))
    · intro st d2 h2
      rw [fdepd] at h2
      exact hInv.depdSub st d2 h2
    · intro n hn
      rw [fw] at hn
      have hn2 := List.mem_of_mem_erase hn
      have hne : n ≠ d := by
        intro he
        subst he
        exact hInv.nodupW.not_mem_erase hn
      rw [hlook n, if_neg hne]
      exact hInv.wDeps n hn2
    · intro st
      rw [fdepd]
      exact hInv.nodupDepd st
    · intro n
      rw [hasResult, fres, inTerminal, fsucc, ffail, fblock, fcanc, fskip]
      exact hInv.resDom n

theorem Inv_markDependentsReady {m : Graph} {s : Sched} {step : String}
    (hInv : Inv m s) (hf : step ∈ s.success ∨ step ∈ s.skipped) :
    Inv m (markDependentsReady s step) := by
  unfold markDependentsReady
  have h := foldl_preserve (readyOne step) (lookupD s.depd step) s
    (P := fun t => Inv m t ∧ t.depd = s.depd ∧ t.success = s.success ∧ t.skipped = s.skipped)
    ⟨hInv, rfl, rfl, rfl⟩
    (fun t d hdmem ⟨hI, hdepd, hsucc, hskip⟩ => by
      obtain ⟨fdepd, _, fsucc, _, _, _, fskip, _, _⟩ := readyOne_frame step t d
      exact ⟨Inv_readyOne hI (by rw [hdepd]; exact hdmem)
          (by rw [hsucc, hskip]; exact hf),
        by rw [fdepd, hdepd], by rw [fsucc, hsucc], by rw [fskip, hskip]⟩)
  exact h.1

theorem Inv_finishCore {m : Graph} {s s1 : Sched} {step : String} {tgt : StName}
    {v : ResultRec} (hInv : Inv m s) (hrun : step ∈ runKeys s)
    (hdeps : s1.deps = s.deps) (hdepd : s1.depd = s.depd)
    (hw : s1.waiting = s.waiting) (hrd : s1.ready = s.ready)
    (hrn : s1.running = aerase s.running step)
    (hres : s1.results = aset s.results step v)
    (hbl : s1.blocked = s.blocked) (hc : s1.cancelled = s.cancelled)
    (hT : (tgt = .stSuccess ∧ s1.success = insertNew s.success step ∧
            s1.failed = s.failed ∧ s1.skipped = s.skipped) ∨
          (tgt = .stFailed ∧ s1.failed = insertNew s.failed step ∧
            s1.success = s.success ∧ s1.skipped = s.skipped) ∨
          (tgt = .stSkipped ∧ s1.skipped = insertNew s.skipped step ∧
            s1.success = s.success ∧ s1.failed = s.failed)) :
    Inv m s1 := by
  have hrnK : runKeys s1 = (runKeys s).erase step := by
    unfold runKeys
    rw [hrn, keys_aerase]
  have htgtRn : tgt ≠ StName.stRunning := by
    rcases hT with ⟨rfl, _⟩ | ⟨rfl, _⟩ | ⟨rfl, _⟩ <;> simp
  have hstepK : step ∈ keysOf m := hInv.memKeys .stRunning hrun
  have hmem : ∀ n st2, st2 ≠ .stRunning →
      (inSt s1 n st2 ↔ (inSt s n st2 ∨ (st2 = tgt ∧ n = step))) := by
    intro n st2 hne
    rcases hT with ⟨rfl, hT1, hT2, hT3⟩ | ⟨rfl, hT1, hT2, hT3⟩ | ⟨rfl, hT1, hT2, hT3⟩ <;>
      cases st2 <;>
      simp only [inSt, hw, hrd, hT1, hT2, hT3, hbl, hc, mem_insertNew] <;>
      simp <;> tauto
  have hmemSucc := fun n => hmem n StName.stSuccess (by simp)
  have hmemFail := fun n => hmem n StName.stFailed (by simp)
  have hmemSkip := fun n => hmem n StName.stSkipped (by simp)
  refine ⟨hdeps ▸ hInv.depsKeys, hdepd ▸ hInv.depdKeys, hw ▸ hInv.nodupW,
    hrd ▸ hInv.nodupRd, ?_, hc ▸ hInv.nodupC, ?_, ?_, ?_, ?_, ?_, ?_, ?_, ?_, ?_, ?_⟩
  · show (s1.running.map Prod.fst).Nodup
    rw [show s1.running.map Prod.fst = runKeys s1 from rfl, hrnK]
    exact hInv.nodupRn.erase step
  · intro n hk
    obtain ⟨st0, h0, hu⟩ := hInv.partSome n hk
    by_cases hns : n = step
    · subst hns
      have hst0 : st0 = .stRunning := (hu .stRunning hrun).symm
      subst hst0
      refine ⟨tgt, (hmem n tgt htgtRn).mpr (Or.inr ⟨rfl, rfl⟩), ?_⟩
      intro st2 hst2
      by_cases hr2 : st2 = StName.stRunning
      · subst hr2
        rw [show inSt s1 n .stRunning = (n ∈ runKeys s1) from rfl, hrnK] at hst2
        exact absurd hst2 hInv.nodupRn.not_mem_erase
      · rcases (hmem n st2 hr2).mp hst2 with h | ⟨h, _⟩
        · exact absurd (hu st2 h) hr2
        · exact h
    · refine ⟨st0, ?_, ?_⟩
      · by_cases hr0 : st0 = StName.stRunning
        · subst hr0
          rw [show inSt s1 n .stRunning = (n ∈ runKeys s1) from rfl, hrnK]
          exact (List.mem_erase_of_ne hns).mpr h0
        · exact (hmem n st0 hr0).mpr (Or.inl h0)
      · intro st2 hst2
        apply hu
        by_cases hr2 : st2 = StName.stRunning
        · subst hr2
          rw [show inSt s1 n .stRunning = (n ∈ runKeys s1) from rfl, hrnK] at hst2
          exact List.mem_of_mem_erase hst2
        · rcases (hmem n st2 hr2).mp hst2 with h | ⟨_, h⟩
          · exact h
          · exact absurd h hns
  · intro n hk st
    have hns : n ≠ step := fun he => hk (he ▸ hstepK)
    intro hx
    by_cases hr : st = StName.stRunning
    · subst hr
      rw [show inSt s1 n .stRunning = (n ∈ runKeys s1) from rfl, hrnK] at hx
      exact hInv.partNone n hk .stRunning (List.mem_of_mem_erase hx)
    · rcases (hmem n st hr).mp hx with h | ⟨_, h⟩
      · exact hInv.partNone n hk st h
      · exact hns h
  · intro n hn
    rw [hdeps]
    apply hInv.emptyDeps
    rcases hn with h | h | h | h | h
    · exact Or.inl (hrd ▸ h)
    · rw [hrnK] at h
      exact Or.inr (Or.inl (List.mem_of_mem_erase h))
    · rcases (hmemSucc n).mp h with h | ⟨_, rfl⟩
      · exact Or.inr (Or.inr (Or.inl h))
      · exact Or.inr (Or.inl hrun)
    · rcases (hmemFail n).mp h with h | ⟨_, rfl⟩
      · exact Or.inr (Or.inr (Or.inr (Or.inl h)))
      · exact Or.inr (Or.inl hrun)
    · rcases (hmemSkip n).mp h with h | ⟨_, rfl⟩
      · exact Or.inr (Or.inr (Or.inr (Or.inr h)))
      · exact Or.inr (Or.inl hrun)
  · intro st d2 hs1 hs2 hd2
    rw [hdepd] at hd2
    rw [hbl, hdeps]
    have hs1b : st ∉ s.success := fun hx => hs1 ((hmemSucc st).mpr (Or.inl hx))
    have hs2b : st ∉ s.skipped := fun hx => hs2 ((hmemSkip st).mpr (Or.inl hx))
    exact hInv.edgeQ st d2 hs1b hs2b hd2
  · intro st d2 hd2
    rw [hdepd] at hd2
    exact hInv.depdSub st d2 hd2
  · intro st d2 hd2
    rw [hdeps] at hd2
    exact hInv.depsSub st d2 hd2
  · intro n hn
    rw [hdeps]
    exact hInv.wDeps n (hw ▸ hn)
  · intro st
    rw [hdeps]
    exact hInv.nodupDeps st
  · intro st
    rw [hdepd]
    exact hInv.nodupDepd st
  · intro n
    rw [hasResult, hres, alook_aset]
    by_cases hns : n = step
    · subst hns
      rw [if_pos rfl]
      simp only [Option.isSome_some, true_iff]
      show inTerminal s1 n
      unfold inTerminal
      have htmem : inSt s1 n tgt := (hmem n tgt htgtRn).mpr (Or.inr ⟨rfl, rfl⟩)
      rcases hT with ⟨rfl, _⟩ | ⟨rfl, _⟩ | ⟨rfl, _⟩
      · exact Or.inl htmem
      · exact Or.inr (Or.inl htmem)
      · exact Or.inr (Or.inr (Or.inr (Or.inr htmem)))
    · rw [if_neg hns]
      have hold := hInv.resDom n
      rw [hasResult] at hold
      rw [hold]
      unfold inTerminal
      constructor
      · rintro (h | h | h | h | h)
        · exact Or.inl ((hmemSucc n).mpr (Or.inl h))
        · exact Or.inr (Or.inl ((hmemFail n).mpr (Or.inl h)))
        · exact Or.inr (Or.inr (Or.inl (hbl ▸ h)))
        · exact Or.inr (Or.inr (Or.inr (Or.inl (hc ▸ h))))
        · exact Or.inr (Or.inr (Or.inr (Or.inr ((hmemSkip n).mpr (Or.inl h)))))
      · rintro (h | h | h | h | h)
        · rcases (hmemSucc n).mp h with h | ⟨_, h⟩
          · exact Or.inl h
          · exact absurd h hns
        · rcases (hmemFail n).mp h with h | ⟨_, h⟩
          · exact Or.inr (Or.inl h)
          · exact absurd h hns
        · exact Or.inr (Or.inr (Or.inl (hbl ▸ h)))
        · exact Or.inr (Or.inr (Or.inr (Or.inl (hc ▸ h))))
        · rcases (hmemSkip n).mp h with h | ⟨_, h⟩
          · exact Or.inr (Or.inr (Or.inr (Or.inr h)))
          · exact absurd h hns

theorem Inv_markSuccess {m : Graph} {s : Sched} {step : String} {now : Nat}
    (hInv : Inv m s) (hrun : step ∈ runKeys s) :
    Inv m (markSuccess s step now) := by
  unfold markSuccess
  apply Inv_markDependentsReady
  · exact Inv_finishCore hInv hrun rfl rfl rfl rfl rfl rfl rfl rfl
      (Or.inl ⟨rfl, rfl, rfl, rfl⟩)
  · left
    show step ∈ insertNew s.success step
    rw [mem_insertNew]
    exact Or.inl rfl

theorem Inv_markSkipped {m : Graph} {s : Sched} {step : String} {now err : Nat}
    (hInv : Inv m s) (hrun : step ∈ runKeys s) :
    Inv m (markSkipped s step now err) := by
  unfold markSkipped
  apply Inv_markDependentsReady
  · exact Inv_finishCore hInv hrun rfl rfl rfl rfl rfl rfl rfl rfl
      (Or.inr (Or.inr ⟨rfl, rfl, rfl, rfl⟩))
  · right
    show step ∈ insertNew s.skipped step
    rw [mem_insertNew]
    exact Or.inl rfl

theorem sever_spec (d : String) (K : List String) :
    ∀ (rs : List String) (dd : Graph), keysOf dd = K →
      (∀ q, (lookupD dd q).Nodup) → (∀ r ∈ rs, r ∈ K) →
      keysOf (rs.foldl (fun dd r => aset dd r ((lookupD dd r).erase d)) dd) = K ∧
      (∀ q, (lookupD (rs.foldl (fun dd r => aset dd r ((lookupD dd r).erase d)) dd) q).Nodup) ∧
      (∀ q x, x ∈ lookupD (rs.foldl (fun dd r => aset dd r ((lookupD dd r).erase d)) dd) q ↔
        (x ∈ lookupD dd q ∧ ¬(x = d ∧ q ∈ rs)))
  | [], dd, hk, hn, _ => ⟨hk, hn, by simp⟩
  | r :: rs, dd, hk, hn, hrs => by
      simp only [List.foldl_cons]
      set dd1 := aset dd r ((lookupD dd r).erase d) with hdd1
      have hk1 : keysOf dd1 = K := by
        rw [hdd1]
        show (aset dd r _).map Prod.fst = K
        rw [keys_aset_of_mem dd r _ (by rw [show dd.map Prod.fst = keysOf dd from rfl, hk]; exact hrs r (by simp))]
        exact hk
      have hl1 : ∀ q, lookupD dd1 q = if q = r then (lookupD dd r).erase d else lookupD dd q :=
        fun q => lookupD_aset dd r q _
      have hn1 : ∀ q, (lookupD dd1 q).Nodup := by
        intro q
        rw [hl1 q]
        by_cases h : q = r
        · rw [if_pos h]
          exact (hn r).erase d
        · rw [if_neg h]
          exact hn q
      obtain ⟨r1, r2, r3⟩ := sever_spec d K rs dd1 hk1 hn1
        (fun e he => hrs e (List.mem_cons_of_mem _ he))
      refine ⟨r1, r2, fun q x => ?_⟩
      rw [r3 q x, hl1 q]
      by_cases h : q = r
      · subst h
        rw [if_pos rfl, (hn q).mem_erase_iff]
        simp only [List.mem_cons]
        constructor
        · rintro ⟨⟨hne, hx⟩, hnot⟩
          exact ⟨hx, by rintro ⟨rfl, _⟩; exact hne rfl⟩
        · rintro ⟨hx, hnot⟩
          have hne : x ≠ d := by
            rintro rfl
            exact hnot ⟨rfl, Or.inl trivial⟩
          exact ⟨⟨hne, hx⟩, by rintro ⟨rfl, hq⟩; exact hne rfl⟩
      · rw [if_neg h]
        simp only [List.mem_cons]
        constructor
        · rintro ⟨hx, hnot⟩
          exact ⟨hx, by rintro ⟨rfl, rfl | hq⟩; exact h rfl; exact hnot ⟨rfl, hq⟩⟩
        · rintro ⟨hx, hnot⟩
          exact ⟨hx, by rintro ⟨rfl, hq⟩; exact hnot ⟨rfl, Or.inr hq⟩⟩

theorem blockOne_frame (step : String) (t : Sched) (d : String) :
    (blockOne step t d).ready = t.ready ∧ (blockOne step t d).running = t.running ∧
    (blockOne step t d).success = t.success ∧ (blockOne step t d).failed = t.failed ∧
    (blockOne step t d).skipped = t.skipped ∧ (blockOne step t d).stopped = t.stopped :=
  ⟨rfl, rfl, rfl, rfl, rfl, rfl⟩

theorem Inv_blockOne {m : Graph} {t : Sched} {step d : String} (hInv : Inv m t)
    (hdw : d ∈ t.waiting ∨ d ∈ t.cancelled ∨ d ∈ t.blocked) :
    Inv m (blockOne step t d) := by
  have hdk : d ∈ keysOf m := by
    rcases hdw with hx | hx | hx
    · exact hInv.memKeys .stWaiting hx
    · exact hInv.memKeys .stCancelled hx
    · exact hInv.memKeys .stBlocked hx
  have hnotR : d ∉ t.ready := by
    intro h2
    rcases hdw with hx | hx | hx
    · exact absurd (hInv.unique .stWaiting .stReady hx h2) (by simp)
    · exact absurd (hInv.unique .stCancelled .stReady hx h2) (by simp)
    · exact absurd (hInv.unique .stBlocked .stReady hx h2) (by simp)
  have hnotRun : d ∉ runKeys t := by
    intro h2
    rcases hdw with hx | hx | hx
    · exact absurd (hInv.unique .stWaiting .stRunning hx h2) (by simp)
    · exact absurd (hInv.unique .stCancelled .stRunning hx h2) (by simp)
    · exact absurd (hInv.unique .stBlocked .stRunning hx h2) (by simp)
  have hnotSu : d ∉ t.success := by
    intro h2
    rcases hdw with hx | hx | hx
    · exact absurd (hInv.unique .stWaiting .stSuccess hx h2) (by simp)
    · exact absurd (hInv.unique .stCancelled .stSuccess hx h2) (by simp)
    · exact absurd (hInv.unique .stBlocked .stSuccess hx h2) (by simp)
  have hnotFa : d ∉ t.failed := by
    intro h2
    rcases hdw with hx | hx | hx
    · exact absurd (hInv.unique .stWaiting .stFailed hx h2) (by simp)
    · exact absurd (hInv.unique .stCancelled .stFailed hx h2) (by simp)
    · exact absurd (hInv.unique .stBlocked .stFailed hx h2) (by simp)
  have hnotSk : d ∉ t.skipped := by
    intro h2
    rcases hdw with hx | hx | hx
    · exact absurd (hInv.unique .stWaiting .stSkipped hx h2) (by simp)
    · exact absurd (hInv.unique .stCancelled .stSkipped hx h2) (by simp)
    · exact absurd (hInv.unique .stBlocked .stSkipped hx h2) (by simp)
  have hrs : ∀ r ∈ (lookupD t.deps d).erase step, r ∈ keysOf m :=
    fun r hr => hInv.depsSub d r (List.mem_of_mem_erase hr)
  obtain ⟨sevK, sevN, sevMem⟩ :=
    sever_spec d (keysOf m) ((lookupD t.deps d).erase step) t.depd
      hInv.depdKeys hInv.nodupDepd hrs
  have hfw : (blockOne step t d).waiting =
      (if d ∈ t.waiting then t.waiting.erase d else t.waiting) := rfl
  have hfc : (blockOne step t d).cancelled =
      (if d ∈ t.waiting then t.cancelled else t.cancelled.erase d) := rfl
  have hW2 : ∀ n, n ∈ (blockOne step t d).waiting ↔
      (n ∈ t.waiting ∧ ¬(n = d ∧ d ∈ t.waiting)) := by
    intro n
    rw [hfw]
    by_cases hdw2 : d ∈ t.waiting
    · rw [if_pos hdw2, hInv.nodupW.mem_erase_iff]
      constructor
      · rintro ⟨hne, hmem⟩
        exact ⟨hmem, by rintro ⟨rfl, _⟩; exact hne rfl⟩
      · rintro ⟨hmem, hnot⟩
        refine ⟨?_, hmem⟩
        rintro rfl
        exact hnot ⟨rfl, hdw2⟩
    · rw [if_neg hdw2]
      constructor
      · intro hmem
        exact ⟨hmem, by rintro ⟨rfl, hx⟩; exact hdw2 hx⟩
      · rintro ⟨hmem, _⟩
        exact hmem
  have hC2 : ∀ n, n ∈ (blockOne step t d).cancelled ↔
      (n ∈ t.cancelled ∧ ¬(n = d ∧ d ∉ t.waiting)) := by
    intro n
    rw [hfc]
    by_cases hdw2 : d ∈ t.waiting
    · rw [if_pos hdw2]
      constructor
      · intro hmem
        exact ⟨hmem, by rintro ⟨rfl, hx⟩; exact hx hdw2⟩
      · rintro ⟨hmem, _⟩
        exact hmem
    · rw [if_neg hdw2, hInv.nodupC.mem_erase_iff]
      constructor
      · rintro ⟨hne, hmem⟩
        exact ⟨hmem, by rintro ⟨rfl, _⟩; exact hne rfl⟩
      · rintro ⟨hmem, hnot⟩
        refine ⟨?_, hmem⟩
        rintro rfl
        exact hnot ⟨rfl, hdw2⟩
  have hB2 : ∀ n, n ∈ (blockOne step t d).blocked ↔ (n = d ∨ n ∈ t.blocked) := by
    intro n
    exact mem_insertNew t.blocked n d
  have hlookDeps : ∀ q, lookupD (blockOne step t d).deps q =
      if q = d then (lookupD t.deps d).erase step else lookupD t.deps q := by
    intro q
    exact lookupD_aset t.deps d q _
  refine ⟨?_, sevK, ?_, hInv.nodupRd, hInv.nodupRn, ?_, ?_, ?_, ?_, ?_, ?_, ?_, ?_,
    ?_, sevN, ?_⟩
  · show (aset t.deps d _).map Prod.fst = keysOf m
    rw [keys_aset_of_mem t.deps d _ (by rw [show t.deps.map Prod.fst = keysOf t.deps from rfl, hInv.depsKeys]; exact hdk)]
    exact hInv.depsKeys
  · rw [hfw]
    by_cases hdw2 : d ∈ t.waiting
    · rw [if_pos hdw2]
      exact hInv.nodupW.erase d
    · rw [if_neg hdw2]
      exact hInv.nodupW
  · rw [hfc]
    by_cases hdw2 : d ∈ t.waiting
    · rw [if_pos hdw2]
      exact hInv.nodupC
    · rw [if_neg hdw2]
      exact hInv.nodupC.erase d
  · intro n hk
    obtain ⟨st0, h0, hu⟩ := hInv.partSome n hk
    by_cases hne : n = d
    · subst hne
      refine ⟨.stBlocked, (hB2 n).mpr (Or.inl rfl), ?_⟩
      intro st2 hst2
      cases st2
      · obtain ⟨hmem, hnot⟩ := (hW2 n).mp hst2
        exact absurd ⟨rfl, hmem⟩ hnot
      · exact absurd hst2 hnotR
      · exact absurd hst2 hnotRun
      · exact absurd hst2 hnotSu
      · exact absurd hst2 hnotFa
      · rfl
      · obtain ⟨hmem, hnot⟩ := (hC2 n).mp hst2
        have hwmem : n ∈ t.waiting := by
          by_contra hx
          exact hnot ⟨rfl, hx⟩
        exact absurd (hInv.unique .stWaiting .stCancelled hwmem hmem)
          (by simp)
      · exact absurd hst2 hnotSk
    · refine ⟨st0, ?_, ?_⟩
      · cases st0
        · exact (hW2 n).mpr ⟨h0, by rintro ⟨rfl, _⟩; exact hne rfl⟩
        · exact h0
        · exact h0
        · exact h0
        · exact h0
        · exact (hB2 n).mpr (Or.inr h0)
        · exact (hC2 n).mpr ⟨h0, by rintro ⟨rfl, _⟩; exact hne rfl⟩
        · exact h0
      · intro st2 hst2
        apply hu
        cases st2
        · exact ((hW2 n).mp hst2).1
        · exact hst2
        · exact hst2
        · exact hst2
        · exact hst2
        · rcases (hB2 n).mp hst2 with h | h
          · exact absurd h hne
          · exact h
        · exact ((hC2 n).mp hst2).1
        · exact hst2
  · intro n hk st
    have hne : n ≠ d := fun he => hk (he ▸ hdk)
    have h0 := hInv.partNone n hk
    intro hx
    cases st
    · exact h0 .stWaiting ((hW2 n).mp hx).1
    · exact h0 .stReady hx
    · exact h0 .stRunning hx
    · exact h0 .stSuccess hx
    · exact h0 .stFailed hx
    · rcases (hB2 n).mp hx with h | h
      · exact hne h
      · exact h0 .stBlocked h
    · exact h0 .stCancelled ((hC2 n).mp hx).1
    · exact h0 .stSkipped hx
  · intro n hn
    have hne : n ≠ d := by
      rintro rfl
      rcases hn with h | h | h | h | h
      · exact hnotR h
      · exact hnotRun h
      · exact hnotSu h
      · exact hnotFa h
      · exact hnotSk h
    rw [hlookDeps n, if_neg hne]
    exact hInv.emptyDeps n hn
  · intro st d2 hs1 hs2 hd2
    obtain ⟨hold, hnot⟩ := (sevMem st d2).mp hd2
    rcases hInv.edgeQ st d2 hs1 hs2 hold with h | h
    · exact Or.inl ((hB2 d2).mpr (Or.inr h))
    · by_cases hdd : d2 = d
      · exact Or.inl ((hB2 d2).mpr (Or.inl hdd))
      · right
        rw [hlookDeps d2, if_neg hdd]
        exact h
  · intro st d2 hd2
    exact hInv.depdSub st d2 ((sevMem st d2).mp hd2).1
  · intro st d2 hd2
    rw [hlookDeps st] at hd2
    by_cases he : st = d
    · rw [if_pos he] at hd2
      exact hInv.depsSub d d2 (List.mem_of_mem_erase hd2)
    · rw [if_neg he] at hd2
      exact hInv.depsSub st d2 hd2
  · intro n hn
    obtain ⟨hmem, hnot⟩ := (hW2 n).mp hn
    have hne : n ≠ d := by
      rintro rfl
      exact hnot ⟨rfl, hmem⟩
    rw [hlookDeps n, if_neg hne]
    exact hInv.wDeps n hmem
  · intro st
    rw [hlookDeps st]
    by_cases he : st = d
    · rw [if_pos he]
      exact (hInv.nodupDeps d).erase step
    · rw [if_neg he]
      exact hInv.nodupDeps st
  · intro n
    show (alook (aset t.results d (JobResult.BLOCKED, 0, none)) n).isSome ↔ _
    rw [alook_aset]
    by_cases hne : n = d
    · subst hne
      rw [if_pos rfl]
      simp only [Option.isSome_some, true_iff]
      exact Or.inr (Or.inr (Or.inl ((hB2 n).mpr (Or.inl rfl))))
    · rw [if_neg hne]
      have hold := hInv.resDom n
      rw [hasResult] at hold
      rw [hold]
      unfold inTerminal
      constructor
      · rintro (h | h | h | h | h)
        · exact Or.inl h
        · exact Or.inr (Or.inl h)
        · exact Or.inr (Or.inr (Or.inl ((hB2 n).mpr (Or.inr h))))
        · exact Or.inr (Or.inr (Or.inr (Or.inl
            ((hC2 n).mpr ⟨h, by rintro ⟨rfl, _⟩; exact hne rfl⟩))))
        · exact Or.inr (Or.inr (Or.inr (Or.inr h)))
      · rintro (h | h | h | h | h)
        · exact Or.inl h
        · exact Or.inr (Or.inl h)
        · rcases (hB2 n).mp h with h | h
          · exact absurd h hne
          · exact Or.inr (Or.inr (Or.inl h))
        · exact Or.inr (Or.inr (Or.inr (Or.inl ((hC2 n).mp h).1)))
        · exact Or.inr (Or.inr (Or.inr (Or.inr h)))

theorem sever_mono (d : String) :
    ∀ (rs : List String) (dd : Graph) (q x : String), x ≠ d →
      x ∈ lookupD dd q →
      x ∈ lookupD (rs.foldl (fun dd r => aset dd r ((lookupD dd r).erase d)) dd) q
  | [], _, _, _, _, hx => hx
  | r :: rs, dd, q, x, hne, hx => by
      simp only [List.foldl_cons]
      apply sever_mono d rs _ q x hne
      rw [lookupD_aset]
      by_cases he : q = r
      · rw [if_pos he]
        subst he
        exact (List.mem_erase_of_ne hne).mpr hx
      · rw [if_neg he]
        exact hx

theorem sever_anti (d : String) :
    ∀ (rs : List String) (dd : Graph) (q x : String),
      x ∈ lookupD (rs.foldl (fun dd r => aset dd r ((lookupD dd r).erase d)) dd) q →
      x ∈ lookupD dd q
  | [], _, _, _, hx => hx
  | r :: rs, dd, q, x, hx => by
      simp only [List.foldl_cons] at hx
      have hx2 := sever_anti d rs _ q x hx
      rw [lookupD_aset] at hx2
      by_cases he : q = r
      · rw [if_pos he] at hx2
        subst he
        exact List.mem_of_mem_erase hx2
      · rw [if_neg he] at hx2
        exact hx2

theorem markDepsBlocked_frame : ∀ (fuel : Nat) (t : Sched) (step : String),
    (markDepsBlocked fuel t step).ready = t.ready ∧
    (markDepsBlocked fuel t step).running = t.running ∧
    (markDepsBlocked fuel t step).success = t.success ∧
    (markDepsBlocked fuel t step).failed = t.failed ∧
    (markDepsBlocked fuel t step).skipped = t.skipped ∧
    (markDepsBlocked fuel t step).stopped = t.stopped
  | 0, _, _ => ⟨rfl, rfl, rfl, rfl, rfl, rfl⟩
  | fuel + 1, t, step => by
      simp only [markDepsBlocked]
      refine foldl_preserve (P := fun t2 => t2.ready = t.ready ∧ t2.running = t.running ∧
        t2.success = t.success ∧ t2.failed = t.failed ∧ t2.skipped = t.skipped ∧
        t2.stopped = t.stopped) _ _ t ⟨rfl, rfl, rfl, rfl, rfl, rfl⟩ ?_
      intro t2 a _ h
      obtain ⟨f1, f2, f3, f4, f5, f6⟩ := markDepsBlocked_frame fuel (blockOne step t2 a) a
      exact ⟨f1.trans h.1, f2.trans h.2.1, f3.trans h.2.2.1, f4.trans h.2.2.2.1,
        f5.trans h.2.2.2.2.1, f6.trans h.2.2.2.2.2⟩

theorem markDepsBlocked_blocked_mono : ∀ (fuel : Nat) (t : Sched) (step x : String),
    x ∈ t.blocked → x ∈ (markDepsBlocked fuel t step).blocked
  | 0, _, _, _, hx => hx
  | fuel + 1, t, step, x, hx => by
      show x ∈ ((lookupD t.depd step).foldl
        (fun t2 d => markDepsBlocked fuel (blockOne step t2 d) d) t).blocked
      exact foldl_preserve _ _ t hx
        (fun t2 a _ h => markDepsBlocked_blocked_mono fuel (blockOne step t2 a) a x
          ((mem_insertNew t2.blocked x a).mpr (Or.inr h)))

theorem markDepsBlocked_waiting_anti : ∀ (fuel : Nat) (t : Sched) (step x : String),
    x ∈ (markDepsBlocked fuel t step).waiting → x ∈ t.waiting
  | 0, _, _, _, hx => hx
  | fuel + 1, t, step, x, hx => by
      revert hx
      show x ∈ ((lookupD t.depd step).foldl
        (fun t2 d => markDepsBlocked fuel (blockOne step t2 d) d) t).waiting → x ∈ t.waiting
      refine foldl_preserve (P := fun t2 => x ∈ t2.waiting → x ∈ t.waiting) _ _ t id
        (fun t2 a _ h hx2 => ?_)
      apply h
      have hx3 := markDepsBlocked_waiting_anti fuel (blockOne step t2 a) a x hx2
      have hx4 : x ∈ (if a ∈ t2.waiting then t2.waiting.erase a else t2.waiting) := hx3
      by_cases he : a ∈ t2.waiting
      · rw [if_pos he] at hx4
        exact List.mem_of_mem_erase hx4
      · rw [if_neg he] at hx4
        exact hx4

theorem markDepsBlocked_cancelled_anti : ∀ (fuel : Nat) (t : Sched) (step x : String),
    x ∈ (markDepsBlocked fuel t step).cancelled → x ∈ t.cancelled
  | 0, _, _, _, hx => hx
  | fuel + 1, t, step, x, hx => by
      revert hx
      show x ∈ ((lookupD t.depd step).foldl
        (fun t2 d => markDepsBlocked fuel (blockOne step t2 d) d) t).cancelled → x ∈ t.cancelled
      refine foldl_preserve (P := fun t2 => x ∈ t2.cancelled → x ∈ t.cancelled) _ _ t id
        (fun t2 a _ h hx2 => ?_)
      apply h
      have hx3 := markDepsBlocked_cancelled_anti fuel (blockOne step t2 a) a x hx2
      have hx4 : x ∈ (if a ∈ t2.waiting then t2.cancelled else t2.cancelled.erase a) := hx3
      by_cases he : a ∈ t2.waiting
      · rw [if_pos he] at hx4
        exact hx4
      · rw [if_neg he] at hx4
        exact List.mem_of_mem_erase hx4

theorem markDepsBlocked_results_blocked : ∀ (fuel : Nat) (t : Sched) (step x : String),
    alook t.results x = some (JobResult.BLOCKED, 0, none) →
    alook (markDepsBlocked fuel t step).results x = some (JobResult.BLOCKED, 0, none)
  | 0, _, _, _, hx => hx
  | fuel + 1, t, step, x, hx => by
      show alook ((lookupD t.depd step).foldl
        (fun t2 d => markDepsBlocked fuel (blockOne step t2 d) d) t).results x = _
      refine foldl_preserve
        (P := fun t2 => alook t2.results x = some (JobResult.BLOCKED, 0, none)) _ _ t hx
        (fun t2 a _ h => ?_)
      apply markDepsBlocked_results_blocked fuel (blockOne step t2 a) a x
      show alook (aset t2.results a (JobResult.BLOCKED, 0, none)) x = _
      rw [alook_aset]
      by_cases he : x = a
      · rw [if_pos he]
      · rw [if_neg he]
        exact h

theorem markDepsBlocked_deps_anti : ∀ (fuel : Nat) (t : Sched) (step q x : String),
    x ∈ lookupD (markDepsBlocked fuel t step).deps q → x ∈ lookupD t.deps q
  | 0, _, _, _, _, hx => hx
  | fuel + 1, t, step, q, x, hx => by
      revert hx
      show x ∈ lookupD ((lookupD t.depd step).foldl
        (fun t2 d => markDepsBlocked fuel (blockOne step t2 d) d) t).deps q →
        x ∈ lookupD t.deps q
      refine foldl_preserve (P := fun t2 => x ∈ lookupD t2.deps q → x ∈ lookupD t.deps q)
        _ _ t id (fun t2 a _ h hx2 => ?_)
      apply h
      have hx3 := markDepsBlocked_deps_anti fuel (blockOne step t2 a) a q x hx2
      have hx4 : x ∈ lookupD (aset t2.deps a ((lookupD t2.deps a).erase step)) q := hx3
      rw [lookupD_aset] at hx4
      by_cases he : q = a
      · rw [if_pos he] at hx4
        subst he
        exact List.mem_of_mem_erase hx4
      · rw [if_neg he] at hx4
        exact hx4

theorem markDepsBlocked_depd_anti : ∀ (fuel : Nat) (t : Sched) (step q x : String),
    x ∈ lookupD (markDepsBlocked fuel t step).depd q → x ∈ lookupD t.depd q
  | 0, _, _, _, _, hx => hx
  | fuel + 1, t, step, q, x, hx => by
      revert hx
      show x ∈ lookupD ((lookupD t.depd step).foldl
        (fun t2 d => markDepsBlocked fuel (blockOne step t2 d) d) t).depd q →
        x ∈ lookupD t.depd q
      refine foldl_preserve (P := fun t2 => x ∈ lookupD t2.depd q → x ∈ lookupD t.depd q)
        _ _ t id (fun t2 a _ h hx2 => ?_)
      apply h
      have hx3 := markDepsBlocked_depd_anti fuel (blockOne step t2 a) a q x hx2
      exact sever_anti a _ t2.depd q x hx3

theorem markDepsBlocked_depd_or : ∀ (fuel : Nat) (t : Sched) (step q x : String),
    x ∈ lookupD t.depd q →
    x ∈ lookupD (markDepsBlocked fuel t step).depd q ∨ x ∈ (markDepsBlocked fuel t step).blocked
  | 0, _, _, _, _, hx => Or.inl hx
  | fuel + 1, t, step, q, x, hx => by
      show x ∈ lookupD ((lookupD t.depd step).foldl
        (fun t2 d => markDepsBlocked fuel (blockOne step t2 d) d) t).depd q ∨
        x ∈ ((lookupD t.depd step).foldl
          (fun t2 d => markDepsBlocked fuel (blockOne step t2 d) d) t).blocked
      refine foldl_preserve
        (P := fun t2 => x ∈ lookupD t2.depd q ∨ x ∈ t2.blocked) _ _ t (Or.inl hx)
        (fun t2 a _ h => ?_)
      rcases h with h | h
      · by_cases he : x = a
        · right
          subst he
          apply markDepsBlocked_blocked_mono
          exact (mem_insertNew t2.blocked x x).mpr (Or.inl rfl)
        · have : x ∈ lookupD (blockOne step t2 a).depd q :=
            sever_mono a _ t2.depd q x he h
          exact markDepsBlocked_depd_or fuel (blockOne step t2 a) a q x this
      · right
        apply markDepsBlocked_blocked_mono
        exact (mem_insertNew t2.blocked x a).mpr (Or.inr h)

theorem blockOne_precond {m : Graph} {t2 : Sched} {step a : String} (hI2 : Inv m t2)
    (hsb2 : step ∈ t2.failed ∨ step ∈ t2.blocked)
    (ha : a ∈ lookupD t2.depd step ∨ a ∈ t2.blocked) :
    a ∈ t2.waiting ∨ a ∈ t2.cancelled ∨ a ∈ t2.blocked := by
  rcases ha with ha | ha
  · have hnsucc : step ∉ t2.success := by
      intro hx
      rcases hsb2 with h | h
      · exact absurd (hI2.unique .stFailed .stSuccess h hx) (by simp)
      · exact absurd (hI2.unique .stBlocked .stSuccess h hx) (by simp)
    have hnskip : step ∉ t2.skipped := by
      intro hx
      rcases hsb2 with h | h
      · exact absurd (hI2.unique .stFailed .stSkipped h hx) (by simp)
      · exact absurd (hI2.unique .stBlocked .stSkipped h hx) (by simp)
    rcases hI2.edgeQ step a hnsucc hnskip ha with h | h
    · exact Or.inr (Or.inr h)
    · have hnonempty : lookupD t2.deps a ≠ [] := by
        intro hx
        rw [hx] at h
        exact List.not_mem_nil step h
      have hflag : ¬(a ∈ t2.ready ∨ a ∈ runKeys t2 ∨ a ∈ t2.success ∨ a ∈ t2.failed ∨
          a ∈ t2.skipped) := by
        intro hx
        exact hnonempty (hI2.emptyDeps a hx)
      obtain ⟨st0, h0, _⟩ := hI2.partSome a (hI2.depdSub step a ha)
      cases st0
      · exact Or.inl h0
      · exact absurd (Or.inl h0) hflag
      · exact absurd (Or.inr (Or.inl h0)) hflag
      · exact absurd (Or.inr (Or.inr (Or.inl h0))) hflag
      · exact absurd (Or.inr (Or.inr (Or.inr (Or.inl h0)))) hflag
      · exact Or.inr (Or.inr h0)
      · exact Or.inr (Or.inl h0)
      · exact absurd (Or.inr (Or.inr (Or.inr (Or.inr h0)))) hflag
  · exact Or.inr (Or.inr ha)

theorem Inv_markDepsBlocked : ∀ (fuel : Nat) {m : Graph} {t : Sched} {step : String},
    Inv m t → (step ∈ t.failed ∨ step ∈ t.blocked) →
    Inv m (markDepsBlocked fuel t step) ∧
    (∀ x, x ∈ t.failed ∨ x ∈ t.success ∨ x ∈ t.skipped ∨ x ∈ runKeys t ∨ x ∈ t.ready →
      alook (markDepsBlocked fuel t step).results x = alook t.results x)
  | 0, _, t, step, hInv, _ => ⟨hInv, fun _ _ => rfl⟩
  | fuel + 1, m, t, step, hInv, hstep => by
      simp only [markDepsBlocked]
      have hP := foldl_preserve (P := fun t2 =>
          Inv m t2 ∧ (step ∈ t2.failed ∨ step ∈ t2.blocked) ∧
          (∀ d2 ∈ lookupD t.depd step, d2 ∈ lookupD t2.depd step ∨ d2 ∈ t2.blocked) ∧
          (t2.ready = t.ready ∧ t2.running = t.running ∧ t2.success = t.success ∧
            t2.failed = t.failed ∧ t2.skipped = t.skipped) ∧
          (∀ x, x ∈ t.failed ∨ x ∈ t.success ∨ x ∈ t.skipped ∨ x ∈ runKeys t ∨ x ∈ t.ready →
            alook t2.results x = alook t.results x))
        (fun t2 d => markDepsBlocked fuel (blockOne step t2 d) d) (lookupD t.depd step) t
        ⟨hInv, hstep, fun d2 h => Or.inl h, ⟨rfl, rfl, rfl, rfl, rfl⟩, fun _ _ => rfl⟩
        ?_
      · exact ⟨hP.1, hP.2.2.2.2⟩
      · rintro t2 a ha ⟨hI2, hsb2, hsnap2, ⟨e1, e2, e3, e4, e5⟩, hres2⟩
        have hdw : a ∈ t2.waiting ∨ a ∈ t2.cancelled ∨ a ∈ t2.blocked :=
          blockOne_precond hI2 hsb2 (hsnap2 a ha)
        have hI3 : Inv m (blockOne step t2 a) := Inv_blockOne hI2 hdw
        have hrec := Inv_markDepsBlocked fuel hI3
          (Or.inr (show a ∈ (blockOne step t2 a).blocked from
            (mem_insertNew t2.blocked a a).mpr (Or.inl rfl)))
        obtain ⟨f1, f2, f3, f4, f5, _⟩ :=
          markDepsBlocked_frame fuel (blockOne step t2 a) a
        refine ⟨hrec.1, ?_, ?_, ?_, ?_⟩
        · rcases hsb2 with h | h
          · exact Or.inl (by rw [f4]; exact h)
          · exact Or.inr (markDepsBlocked_blocked_mono fuel _ a step
              ((mem_insertNew t2.blocked step a).mpr (Or.inr h)))
        · intro d2 hd2
          rcases hsnap2 d2 hd2 with h | h
          · by_cases he : d2 = a
            · subst he
              right
              apply markDepsBlocked_blocked_mono
              exact (mem_insertNew t2.blocked _ _).mpr (Or.inl rfl)
            · exact markDepsBlocked_depd_or fuel (blockOne step t2 a) a step d2
                (sever_mono a _ t2.depd step d2 he h)
          · exact Or.inr (markDepsBlocked_blocked_mono fuel (blockOne step t2 a) a d2
              ((mem_insertNew t2.blocked d2 a).mpr (Or.inr h)))
        · exact ⟨f1.trans e1, f2.trans e2, f3.trans e3, f4.trans e4, f5.trans e5⟩
        · intro x hx
          have hxf : x ∈ t.failed → x ∈ t2.failed := fun h => by rw [e4]; exact h
          have hxs : x ∈ t.success → x ∈ t2.success := fun h => by rw [e3]; exact h
          have hxk : x ∈ t.skipped → x ∈ t2.skipped := fun h => by rw [e5]; exact h
          have hxr : x ∈ t.ready → x ∈ t2.ready := fun h => by rw [e1]; exact h
          have hxrn : x ∈ runKeys t → x ∈ runKeys t2 := fun h => by
            show x ∈ t2.running.map Prod.fst
            rw [e2]
            exact h
          have hxne : x ≠ a := by
            rintro rfl
            rcases hx with h | h | h | h | h
            · rcases hdw with hw | hw | hw
              · exact absurd (hI2.unique .stWaiting .stFailed hw
                  (hxf h)) (by simp)
              · exact absurd (hI2.unique .stCancelled .stFailed hw
                  (hxf h)) (by simp)
              · exact absurd (hI2.unique .stBlocked .stFailed hw
                  (hxf h)) (by simp)
            · rcases hdw with hw | hw | hw
              · exact absurd (hI2.unique .stWaiting .stSuccess hw
                  (hxs h)) (by simp)
              · exact absurd (hI2.unique .stCancelled .stSuccess hw
                  (hxs h)) (by simp)
              · exact absurd (hI2.unique .stBlocked .stSuccess hw
                  (hxs h)) (by simp)
            · rcases hdw with hw | hw | hw
              · exact absurd (hI2.unique .stWaiting .stSkipped hw
                  (hxk h)) (by simp)
              · exact absurd (hI2.unique .stCancelled .stSkipped hw
                  (hxk h)) (by simp)
              · exact absurd (hI2.unique .stBlocked .stSkipped hw
                  (hxk h)) (by simp)
            · have hrk : x ∈ runKeys t2 := hxrn h
              rcases hdw with hw | hw | hw
              · exact absurd (hI2.unique .stWaiting .stRunning hw
                  hrk) (by simp)
              · exact absurd (hI2.unique .stCancelled .stRunning hw
                  hrk) (by simp)
              · exact absurd (hI2.unique .stBlocked .stRunning hw
                  hrk) (by simp)
            · rcases hdw with hw | hw | hw
              · exact absurd (hI2.unique .stWaiting .stReady hw
                  (hxr h)) (by simp)
              · exact absurd (hI2.unique .stCancelled .stReady hw
                  (hxr h)) (by simp)
              · exact absurd (hI2.unique .stBlocked .stReady hw
                  (hxr h)) (by simp)
          have hblock : alook (blockOne step t2 a).results x = alook t2.results x := by
            show alook (aset t2.results a (JobResult.BLOCKED, 0, none)) x = _
            rw [alook_aset, if_neg hxne]
          have hflag2 : x ∈ (blockOne step t2 a).failed ∨ x ∈ (blockOne step t2 a).success ∨
              x ∈ (blockOne step t2 a).skipped ∨ x ∈ runKeys (blockOne step t2 a) ∨
              x ∈ (blockOne step t2 a).ready := by
            rcases hx with h | h | h | h | h
            · exact Or.inl (hxf h)
            · exact Or.inr (Or.inl (hxs h))
            · exact Or.inr (Or.inr (Or.inl (hxk h)))
            · exact Or.inr (Or.inr (Or.inr (Or.inl (hxrn h))))
            · exact Or.inr (Or.inr (Or.inr (Or.inr (hxr h))))
          rw [hrec.2 x hflag2, hblock]
          exact hres2 x hx

theorem Inv_markFailed {m : Graph} {s : Sched} {step : String} {now err : Nat}
    (hInv : Inv m s) (hrun : step ∈ runKeys s) :
    Inv m (markFailed s step now err) := by
  have hI1 : Inv m { s with
      running := aerase s.running step,
      failed := insertNew s.failed step,
      results := aset s.results step
        (JobResult.FAILED, tdSeconds (now - (alook s.running step).getD 0), some err) } :=
    Inv_finishCore hInv hrun rfl rfl rfl rfl rfl rfl rfl rfl
      (Or.inr (Or.inl ⟨rfl, rfl, rfl, rfl⟩))
  exact (Inv_markDepsBlocked _ hI1
    (Or.inl ((mem_insertNew s.failed step step).mpr (Or.inl rfl)))).1

theorem cancelAll_frame : ∀ (l : List String) (s : Sched),
    (cancelAll l s).waiting = s.waiting ∧ (cancelAll l s).ready = s.ready ∧
    (cancelAll l s).running = s.running ∧ (cancelAll l s).success = s.success ∧
    (cancelAll l s).failed = s.failed ∧ (cancelAll l s).blocked = s.blocked ∧
    (cancelAll l s).skipped = s.skipped ∧ (cancelAll l s).stopped = s.stopped ∧
    (cancelAll l s).deps = s.deps ∧ (cancelAll l s).depd = s.depd
  | [], _ => ⟨rfl, rfl, rfl, rfl, rfl, rfl, rfl, rfl, rfl, rfl⟩
  | a :: l, s => by
      obtain ⟨h1, h2, h3, h4, h5, h6, h7, h8, h9, h10⟩ := cancelAll_frame l
        { s with cancelled := insertNew s.cancelled a,
                 results := aset s.results a (JobResult.CANCELLED, 0, none) }
      exact ⟨h1, h2, h3, h4, h5, h6, h7, h8, h9, h10⟩

theorem cancelAll_cancelled : ∀ (l : List String) (s : Sched) (x : String),
    x ∈ (cancelAll l s).cancelled ↔ (x ∈ s.cancelled ∨ x ∈ l)
  | [], _, _ => by simp [cancelAll]
  | a :: l, s, x => by
      show x ∈ (cancelAll l _).cancelled ↔ _
      rw [cancelAll_cancelled l _ x]
      show x ∈ insertNew s.cancelled a ∨ x ∈ l ↔ _
      rw [mem_insertNew]
      simp only [List.mem_cons]
      tauto

theorem cancelAll_nodupC (l : List String) (s : Sched) (h : s.cancelled.Nodup) :
    (cancelAll l s).cancelled.Nodup := by
  unfold cancelAll
  refine foldl_preserve (P := fun t => t.cancelled.Nodup) _ l s h ?_
  intro t a _ ht
  exact nodup_insertNew t.cancelled a ht

theorem cancelAll_results : ∀ (l : List String) (s : Sched) (x : String),
    alook (cancelAll l s).results x =
      if x ∈ l then some (JobResult.CANCELLED, 0, none) else alook s.results x
  | [], _, _ => by simp [cancelAll]
  | a :: l, s, x => by
      show alook (cancelAll l _).results x = _
      rw [cancelAll_results l _ x]
      show (if x ∈ l then _ else alook (aset s.results a (JobResult.CANCELLED, 0, none)) x) = _
      rw [alook_aset]
      by_cases h1 : x ∈ l
      · rw [if_pos h1, if_pos (List.mem_cons_of_mem a h1)]
      · rw [if_neg h1]
        by_cases h2 : x = a
        · rw [if_pos h2, if_pos (by simp [h2])]
        · rw [if_neg h2, if_neg (by simp [h1, h2])]

theorem Inv_stop {m : Graph} {s : Sched} (hInv : Inv m s) : Inv m (stop s) := by
  unfold stop
  obtain ⟨a1, a2, a3, a4, a5, a6, a7, a8, a9, a10⟩ :=
    cancelAll_frame s.ready.reverse { s with stopped := true, ready := [] }
  set s1 : Sched := cancelAll s.ready.reverse { s with stopped := true, ready := [] }
    with hs1
  obtain ⟨b1, b2, b3, b4, b5, b6, b7, b8, b9, b10⟩ :=
    cancelAll_frame s1.waiting { s1 with waiting := [] }
  set r : Sched := cancelAll s1.waiting { s1 with waiting := [] } with hr
  have hw1 : s1.waiting = s.waiting := a1
  have hwR : r.waiting = [] := b1
  have hrdR : r.ready = [] := b2.trans a2
  have hrnR : r.running = s.running := b3.trans a3
  have hsuR : r.success = s.success := b4.trans a4
  have hfaR : r.failed = s.failed := b5.trans a5
  have hblR : r.blocked = s.blocked := b6.trans a6
  have hskR : r.skipped = s.skipped := b7.trans a7
  have hdepsR : r.deps = s.deps := b9.trans a9
  have hdepdR : r.depd = s.depd := b10.trans a10
  have hrunKR : runKeys r = runKeys s := by
    unfold runKeys
    rw [hrnR]
  have hcR : ∀ x, x ∈ r.cancelled ↔ (x ∈ s.cancelled ∨ x ∈ s.ready ∨ x ∈ s.waiting) := by
    intro x
    rw [hr, cancelAll_cancelled]
    show x ∈ s1.cancelled ∨ x ∈ s1.waiting ↔ _
    rw [hw1, hs1, cancelAll_cancelled]
    show (x ∈ s.cancelled ∨ x ∈ s.ready.reverse) ∨ x ∈ s.waiting ↔ _
    rw [List.mem_reverse]
    tauto
  have hresR : ∀ x, alook r.results x =
      if x ∈ s.waiting then some (JobResult.CANCELLED, 0, none)
      else if x ∈ s.ready then some (JobResult.CANCELLED, 0, none)
      else alook s.results x := by
    intro x
    rw [hr, cancelAll_results]
    rw [hw1]
    by_cases h1 : x ∈ s.waiting
    · rw [if_pos h1, if_pos h1]
    · rw [if_neg h1, if_neg h1]
      show alook s1.results x = _
      rw [hs1, cancelAll_results]
      by_cases h2 : x ∈ s.ready
      · rw [if_pos (List.mem_reverse.mpr h2), if_pos h2]
      · rw [if_neg (fun hx => h2 (List.mem_reverse.mp hx)), if_neg h2]
  have cSu : ∀ n, n ∈ r.success → n ∈ s.success := fun n h => by rwa [hsuR] at h
  have cFa : ∀ n, n ∈ r.failed → n ∈ s.failed := fun n h => by rwa [hfaR] at h
  have cBl : ∀ n, n ∈ r.blocked → n ∈ s.blocked := fun n h => by rwa [hblR] at h
  have cSk : ∀ n, n ∈ r.skipped → n ∈ s.skipped := fun n h => by rwa [hskR] at h
  have cRn : ∀ n, n ∈ runKeys r → n ∈ runKeys s := fun n h => by rwa [hrunKR] at h
  have cSu2 : ∀ n, n ∈ s.success → n ∈ r.success := fun n h => by rwa [hsuR]
  have cFa2 : ∀ n, n ∈ s.failed → n ∈ r.failed := fun n h => by rwa [hfaR]
  have cBl2 : ∀ n, n ∈ s.blocked → n ∈ r.blocked := fun n h => by rwa [hblR]
  have cSk2 : ∀ n, n ∈ s.skipped → n ∈ r.skipped := fun n h => by rwa [hskR]
  have cRn2 : ∀ n, n ∈ runKeys s → n ∈ runKeys r := fun n h => by rwa [hrunKR]
  refine ⟨?_, ?_, ?_, ?_, ?_, ?_, ?_, ?_, ?_, ?_, ?_, ?_, ?_, ?_, ?_, ?_⟩
  · rw [hdepsR]
    exact hInv.depsKeys
  · rw [hdepdR]
    exact hInv.depdKeys
  · rw [hwR]
    exact List.nodup_nil
  · rw [hrdR]
    exact List.nodup_nil
  · show (r.running.map Prod.fst).Nodup
    rw [hrnR]
    exact hInv.nodupRn
  · apply cancelAll_nodupC
    show s1.cancelled.Nodup
    rw [hs1]
    apply cancelAll_nodupC
    exact hInv.nodupC
  · intro n hk
    obtain ⟨st0, h0, hu⟩ := hInv.partSome n hk
    have hnotW : n ∉ r.waiting := by
      rw [hwR]
      exact List.not_mem_nil n
    have hnotRd : n ∉ r.ready := by
      rw [hrdR]
      exact List.not_mem_nil n
    cases st0
    · -- was waiting, now cancelled
      refine ⟨.stCancelled, (hcR n).mpr (Or.inr (Or.inr h0)), ?_⟩
      intro st2 hst2
      cases st2
      · exact absurd hst2 hnotW
      · exact absurd hst2 hnotRd
      · exact absurd (hu .stRunning (cRn n hst2)) (by simp)
      · exact absurd (hu .stSuccess (cSu n hst2)) (by simp)
      · exact absurd (hu .stFailed (cFa n hst2)) (by simp)
      · exact absurd (hu .stBlocked (cBl n hst2)) (by simp)
      · rfl
      · exact absurd (hu .stSkipped (cSk n hst2)) (by simp)
    · -- was ready, now cancelled
      refine ⟨.stCancelled, (hcR n).mpr (Or.inr (Or.inl h0)), ?_⟩
      intro st2 hst2
      cases st2
      · exact absurd hst2 hnotW
      · exact absurd hst2 hnotRd
      · exact absurd (hu .stRunning (cRn n hst2)) (by simp)
      · exact absurd (hu .stSuccess (cSu n hst2)) (by simp)
      · exact absurd (hu .stFailed (cFa n hst2)) (by simp)
      · exact absurd (hu .stBlocked (cBl n hst2)) (by simp)
      · rfl
      · exact absurd (hu .stSkipped (cSk n hst2)) (by simp)
    · -- running stays
      refine ⟨.stRunning, cRn2 n h0, ?_⟩
      intro st2 hst2
      cases st2
      · exact absurd hst2 hnotW
      · exact absurd hst2 hnotRd
      · rfl
      · exact absurd (hu .stSuccess (cSu n hst2)) (by simp)
      · exact absurd (hu .stFailed (cFa n hst2)) (by simp)
      · exact absurd (hu .stBlocked (cBl n hst2)) (by simp)
      · rcases (hcR n).mp hst2 with h | h | h
        · exact absurd (hu .stCancelled h) (by simp)
        · exact absurd (hu .stReady h) (by simp)
        · exact absurd (hu .stWaiting h) (by simp)
      · exact absurd (hu .stSkipped (cSk n hst2)) (by simp)
    · -- success stays
      refine ⟨.stSuccess, cSu2 n h0, ?_⟩
      intro st2 hst2
      cases st2
      · exact absurd hst2 hnotW
      · exact absurd hst2 hnotRd
      · exact absurd (hu .stRunning (cRn n hst2)) (by simp)
      · rfl
      · exact absurd (hu .stFailed (cFa n hst2)) (by simp)
      · exact absurd (hu .stBlocked (cBl n hst2)) (by simp)
      · rcases (hcR n).mp hst2 with h | h | h
        · exact absurd (hu .stCancelled h) (by simp)
        · exact absurd (hu .stReady h) (by simp)
        · exact absurd (hu .stWaiting h) (by simp)
      · exact absurd (hu .stSkipped (cSk n hst2)) (by simp)
    · -- failed stays
      refine ⟨.stFailed, cFa2 n h0, ?_⟩
      intro st2 hst2
      cases st2
      · exact absurd hst2 hnotW
      · exact absurd hst2 hnotRd
      · exact absurd (hu .stRunning (cRn n hst2)) (by simp)
      · exact absurd (hu .stSuccess (cSu n hst2)) (by simp)
      · rfl
      · exact absurd (hu .stBlocked (cBl n hst2)) (by simp)
      · rcases (hcR n).mp hst2 with h | h | h
        · exact absurd (hu .stCancelled h) (by simp)
        · exact absurd (hu .stReady h) (by simp)
        · exact absurd (hu .stWaiting h) (by simp)
      · exact absurd (hu .stSkipped (cSk n hst2)) (by simp)
    · -- blocked stays
      refine ⟨.stBlocked, cBl2 n h0, ?_⟩
      intro st2 hst2
      cases st2
      · exact absurd hst2 hnotW
      · exact absurd hst2 hnotRd
      · exact absurd (hu .stRunning (cRn n hst2)) (by simp)
      · exact absurd (hu .stSuccess (cSu n hst2)) (by simp)
      · exact absurd (hu .stFailed (cFa n hst2)) (by simp)
      · rfl
      · rcases (hcR n).mp hst2 with h | h | h
        · exact absurd (hu .stCancelled h) (by simp)
        · exact absurd (hu .stReady h) (by simp)
        · exact absurd (hu .stWaiting h) (by simp)
      · exact absurd (hu .stSkipped (cSk n hst2)) (by simp)
    · -- cancelled stays
      refine ⟨.stCancelled, (hcR n).mpr (Or.inl h0), ?_⟩
      intro st2 hst2
      cases st2
      · exact absurd hst2 hnotW
      · exact absurd hst2 hnotRd
      · exact absurd (hu .stRunning (cRn n hst2)) (by simp)
      · exact absurd (hu .stSuccess (cSu n hst2)) (by simp)
      · exact absurd (hu .stFailed (cFa n hst2)) (by simp)
      · exact absurd (hu .stBlocked (cBl n hst2)) (by simp)
      · rfl
      · exact absurd (hu .stSkipped (cSk n hst2)) (by simp)
    · -- skipped stays
      refine ⟨.stSkipped, cSk2 n h0, ?_⟩
      intro st2 hst2
      cases st2
      · exact absurd hst2 hnotW
      · exact absurd hst2 hnotRd
      · exact absurd (hu .stRunning (cRn n hst2)) (by simp)
      · exact absurd (hu .stSuccess (cSu n hst2)) (by simp)
      · exact absurd (hu .stFailed (cFa n hst2)) (by simp)
      · exact absurd (hu .stBlocked (cBl n hst2)) (by simp)
      · rcases (hcR n).mp hst2 with h | h | h
        · exact absurd (hu .stCancelled h) (by simp)
        · exact absurd (hu .stReady h) (by simp)
        · exact absurd (hu .stWaiting h) (by simp)
      · rfl
  · intro n hk st
    have h0 := hInv.partNone n hk
    intro hx
    cases st
    · have hx2 : n ∈ r.waiting := hx
      rw [hwR] at hx2
      exact List.not_mem_nil n hx2
    · have hx2 : n ∈ r.ready := hx
      rw [hrdR] at hx2
      exact List.not_mem_nil n hx2
    · exact h0 .stRunning (cRn n hx)
    · exact h0 .stSuccess (cSu n hx)
    · exact h0 .stFailed (cFa n hx)
    · exact h0 .stBlocked (cBl n hx)
    · rcases (hcR n).mp hx with h | h | h
      · exact h0 .stCancelled h
      · exact h0 .stReady h
      · exact h0 .stWaiting h
    · exact h0 .stSkipped (cSk n hx)
  · intro n hn
    rw [hdepsR]
    apply hInv.emptyDeps
    rw [hrdR, hrunKR, hsuR, hfaR, hskR] at hn
    rcases hn with h | h
    · exact absurd h (List.not_mem_nil n)
    · exact Or.inr h
  · intro st d2 hs1m hs2m hd2
    rw [hsuR] at hs1m
    rw [hskR] at hs2m
    rw [hdepdR] at hd2
    rw [hblR, hdepsR]
    exact hInv.edgeQ st d2 hs1m hs2m hd2
  · intro st d2 hd2
    rw [hdepdR] at hd2
    exact hInv.depdSub st d2 hd2
  · intro st d2 hd2
    rw [hdepsR] at hd2
    exact hInv.depsSub st d2 hd2
  · intro n hn
    rw [hwR] at hn
    exact absurd hn (List.not_mem_nil n)
  · intro st
    rw [hdepsR]
    exact hInv.nodupDeps st
  · intro st
    rw [hdepdR]
    exact hInv.nodupDepd st
  · intro n
    rw [hasResult, hresR n]
    unfold inTerminal
    rw [hsuR, hfaR, hblR, hskR]
    by_cases h1 : n ∈ s.waiting
    · rw [if_pos h1]
      simp only [Option.isSome_some, true_iff]
      exact Or.inr (Or.inr (Or.inr (Or.inl ((hcR n).mpr (Or.inr (Or.inr h1))))))
    · rw [if_neg h1]
      by_cases h2 : n ∈ s.ready
      · rw [if_pos h2]
        simp only [Option.isSome_some, true_iff]
        exact Or.inr (Or.inr (Or.inr (Or.inl ((hcR n).mpr (Or.inr (Or.inl h2))))))
      · rw [if_neg h2]
        have hold := hInv.resDom n
        rw [hasResult] at hold
        rw [hold]
        unfold inTerminal
        constructor
        · rintro (h | h | h | h | h)
          · exact Or.inl h
          · exact Or.inr (Or.inl h)
          · exact Or.inr (Or.inr (Or.inl h))
          · exact Or.inr (Or.inr (Or.inr (Or.inl ((hcR n).mpr (Or.inl h)))))
          · exact Or.inr (Or.inr (Or.inr (Or.inr h)))
        · rintro (h | h | h | h | h)
          · exact Or.inl h
          · exact Or.inr (Or.inl h)
          · exact Or.inr (Or.inr (Or.inl h))
          · rcases (hcR n).mp h with h | h | h
            · exact Or.inr (Or.inr (Or.inr (Or.inl h)))
            · exact absurd h h2
            · exact absurd h h1
          · exact Or.inr (Or.inr (Or.inr (Or.inr h)))

theorem Inv_reaches {m : Graph} {s : Sched} (hWF : WFmap m) (h : Reaches m s) :
    Inv m s := by
  induction h with
  | init => exact Inv_init m hWF
  | started _ hr _ ih => exact Inv_markStarted ih hr
  | succeeded _ hr ih => exact Inv_markSuccess ih hr
  | skippedStep _ hr ih => exact Inv_markSkipped ih hr
  | failedStep _ hr ih => exact Inv_markFailed ih hr
  | stopped _ ih => exact Inv_stop ih

theorem memCount_one {s : Sched} {n : String} {st : StName} (hin : inSt s n st)
    (hu : ∀ st2, inSt s n st2 → st2 = st) : memCount s n = 1 := by
  have hW : st ≠ .stWaiting → n ∉ s.waiting := fun hne hx => hne (hu .stWaiting hx).symm
  have hR : st ≠ .stReady → n ∉ s.ready := fun hne hx => hne (hu .stReady hx).symm
  have hRn : st ≠ .stRunning → n ∉ runKeys s := fun hne hx => hne (hu .stRunning hx).symm
  have hSu : st ≠ .stSuccess → n ∉ s.success := fun hne hx => hne (hu .stSuccess hx).symm
  have hFa : st ≠ .stFailed → n ∉ s.failed := fun hne hx => hne (hu .stFailed hx).symm
  have hBl : st ≠ .stBlocked → n ∉ s.blocked := fun hne hx => hne (hu .stBlocked hx).symm
  have hCa : st ≠ .stCancelled → n ∉ s.cancelled := fun hne hx => hne (hu .stCancelled hx).symm
  have hSk : st ≠ .stSkipped → n ∉ s.skipped := fun hne hx => hne (hu .stSkipped hx).symm
  unfold memCount
  cases st
  · have hin2 : n ∈ s.waiting := hin
    rw [if_pos hin2, if_neg (hR (by simp)), if_neg (hRn (by simp)), if_neg (hSu (by simp)),
      if_neg (hFa (by simp)), if_neg (hBl (by simp)), if_neg (hCa (by simp)),
      if_neg (hSk (by simp))]
  · have hin2 : n ∈ s.ready := hin
    rw [if_neg (hW (by simp)), if_pos hin2, if_neg (hRn (by simp)), if_neg (hSu (by simp)),
      if_neg (hFa (by simp)), if_neg (hBl (by simp)), if_neg (hCa (by simp)),
      if_neg (hSk (by simp))]
  · have hin2 : n ∈ runKeys s := hin
    rw [if_neg (hW (by simp)), if_neg (hR (by simp)), if_pos hin2, if_neg (hSu (by simp)),
      if_neg (hFa (by simp)), if_neg (hBl (by simp)), if_neg (hCa (by simp)),
      if_neg (hSk (by simp))]
  · have hin2 : n ∈ s.success := hin
    rw [if_neg (hW (by simp)), if_neg (hR (by simp)), if_neg (hRn (by simp)), if_pos hin2,
      if_neg (hFa (by simp)), if_neg (hBl (by simp)), if_neg (hCa (by simp)),
      if_neg (hSk (by simp))]
  · have hin2 : n ∈ s.failed := hin
    rw [if_neg (hW (by simp)), if_neg (hR (by simp)), if_neg (hRn (by simp)),
      if_neg (hSu (by simp)), if_pos hin2, if_neg (hBl (by simp)), if_neg (hCa (by simp)),
      if_neg (hSk (by simp))]
  · have hin2 : n ∈ s.blocked := hin
    rw [if_neg (hW (by simp)), if_neg (hR (by simp)), if_neg (hRn (by simp)),
      if_neg (hSu (by simp)), if_neg (hFa (by simp)), if_pos hin2, if_neg (hCa (by simp)),
      if_neg (hSk (by simp))]
  · have hin2 : n ∈ s.cancelled := hin
    rw [if_neg (hW (by simp)), if_neg (hR (by simp)), if_neg (hRn (by simp)),
      if_neg (hSu (by simp)), if_neg (hFa (by simp)), if_neg (hBl (by simp)), if_pos hin2,
      if_neg (hSk (by simp))]
  · have hin2 : n ∈ s.skipped := hin
    rw [if_neg (hW (by simp)), if_neg (hR (by simp)), if_neg (hRn (by simp)),
      if_neg (hSu (by simp)), if_neg (hFa (by simp)), if_neg (hBl (by simp)),
      if_neg (hCa (by simp)), if_pos hin2]

/-- C2: after any sequence of valid scheduler transitions from construction
over a well-formed mapping, every node of the graph lies in exactly one of
the eight status collections — so the collections are pairwise disjoint on
the node set — and no name outside the graph lies in any collection, so
their union is exactly the node set. -/
theorem scheduler_state_partition {m : Graph} {s : Sched} (hWF : WFmap m)
    (h : Reaches m s) :
    ∀ n, (n ∈ keysOf m → memCount s n = 1) ∧ (n ∉ keysOf m → ¬inSomeSet s n) := by
  have hInv := Inv_reaches hWF h
  intro n
  constructor
  · intro hk
    obtain ⟨st, hin, hu⟩ := hInv.partSome n hk
    exact memCount_one hin hu
  · intro hk hx
    rcases hx with h2 | h2 | h2 | h2 | h2 | h2 | h2 | h2
    · exact hInv.partNone n hk .stWaiting h2
    · exact hInv.partNone n hk .stReady h2
    · exact hInv.partNone n hk .stRunning h2
    · exact hInv.partNone n hk .stSuccess h2
    · exact hInv.partNone n hk .stFailed h2
    · exact hInv.partNone n hk .stBlocked h2
    · exact hInv.partNone n hk .stCancelled h2
    · exact hInv.partNone n hk .stSkipped h2

theorem scheduler_state_partition_witness :
    WFmap [("a", ["b"]), ("b", [])] ∧
    (∀ n, (n ∈ keysOf [("a", ["b"]), ("b", [])] →
        memCount (markSuccess (markStarted (schedOf [("a", ["b"]), ("b", [])]) "b" 0) "b" 1) n = 1) ∧
      (n ∉ keysOf [("a", ["b"]), ("b", [])] →
        ¬inSomeSet (markSuccess (markStarted (schedOf [("a", ["b"]), ("b", [])]) "b" 0) "b" 1) n)) :=
  ⟨by decide, scheduler_state_partition (by decide)
    (Reaches.succeeded (Reaches.started Reaches.init (by decide) (by decide)) (by decide))⟩

/-- C10: in every reachable scheduler state, the steps holding a result
record are exactly those in a terminal collection (success, failed,
blocked, cancelled or skipped); a step still waiting, ready or running has
no result record. -/
theorem results_iff_terminal {m : Graph} {s : Sched} (hWF : WFmap m)
    (h : Reaches m s) :
    ∀ n, (hasResult s n ↔ inTerminal s n) ∧
      ((n ∈ s.waiting ∨ n ∈ s.ready ∨ n ∈ runKeys s) → ¬hasResult s n) := by
  have hInv := Inv_reaches hWF h
  intro n
  refine ⟨hInv.resDom n, ?_⟩
  rintro (hx | hx | hx) hres
  · rcases (hInv.resDom n).mp hres with h2 | h2 | h2 | h2 | h2
    · exact absurd (hInv.unique .stWaiting .stSuccess hx h2) (by simp)
    · exact absurd (hInv.unique .stWaiting .stFailed hx h2) (by simp)
    · exact absurd (hInv.unique .stWaiting .stBlocked hx h2) (by simp)
    · exact absurd (hInv.unique .stWaiting .stCancelled hx h2) (by simp)
    · exact absurd (hInv.unique .stWaiting .stSkipped hx h2) (by simp)
  · rcases (hInv.resDom n).mp hres with h2 | h2 | h2 | h2 | h2
    · exact absurd (hInv.unique .stReady .stSuccess hx h2) (by simp)
    · exact absurd (hInv.unique .stReady .stFailed hx h2) (by simp)
    · exact absurd (hInv.unique .stReady .stBlocked hx h2) (by simp)
    · exact absurd (hInv.unique .stReady .stCancelled hx h2) (by simp)
    · exact absurd (hInv.unique .stReady .stSkipped hx h2) (by simp)
  · rcases (hInv.resDom n).mp hres with h2 | h2 | h2 | h2 | h2
    · exact absurd (hInv.unique .stRunning .stSuccess hx h2) (by simp)
    · exact absurd (hInv.unique .stRunning .stFailed hx h2) (by simp)
    · exact absurd (hInv.unique .stRunning .stBlocked hx h2) (by simp)
    · exact absurd (hInv.unique .stRunning .stCancelled hx h2) (by simp)
    · exact absurd (hInv.unique .stRunning .stSkipped hx h2) (by simp)

theorem results_iff_terminal_witness :
    WFmap [("a", ["b"]), ("b", [])] ∧
    (∀ n, (hasResult (stop (markStarted (schedOf [("a", ["b"]), ("b", [])]) "b" 0)) n ↔
        inTerminal (stop (markStarted (schedOf [("a", ["b"]), ("b", [])]) "b" 0)) n) ∧
      ((n ∈ (stop (markStarted (schedOf [("a", ["b"]), ("b", [])]) "b" 0)).waiting ∨
        n ∈ (stop (markStarted (schedOf [("a", ["b"]), ("b", [])]) "b" 0)).ready ∨
        n ∈ runKeys (stop (markStarted (schedOf [("a", ["b"]), ("b", [])]) "b" 0))) →
        ¬hasResult (stop (markStarted (schedOf [("a", ["b"]), ("b", [])]) "b" 0)) n)) :=
  ⟨by decide, results_iff_terminal (by decide)
    (Reaches.stopped (Reaches.started Reaches.init (by decide) (by decide)))⟩

/-- C1: divergence. Skipping a running step does move it into the skipped set
and unblocks dependents exactly as success does (here c becomes ready), but
the recorded result carries outcome FAILED, not SKIPPED, and its duration is
the elapsed monotonic seconds passed to timedelta positionally, i.e. scaled
as days, not the elapsed duration in seconds. -/
theorem mark_skipped_records_failed_days :
    alook c1State.results "e" = some (JobResult.FAILED, tdDays 2, some 7) ∧
    "e" ∈ c1State.skipped ∧ "c" ∈ c1State.ready ∧
    tdDays 2 ≠ tdSeconds 2 ∧ JobResult.FAILED ≠ JobResult.SKIPPED := by
  refine ⟨by decide, by decide, by decide, by decide, by decide⟩

theorem markDepsBlocked_blocks (fuel : Nat) (t : Sched) (step d : String)
    (hd : d ∈ lookupD t.depd step) :
    d ∈ (markDepsBlocked (fuel + 1) t step).blocked ∧
    alook (markDepsBlocked (fuel + 1) t step).results d =
      some (JobResult.BLOCKED, 0, none) := by
  simp only [markDepsBlocked]
  refine foldl_establish (P := fun t2 => d ∈ t2.blocked ∧
      alook t2.results d = some (JobResult.BLOCKED, 0, none)) (Q := fun _ => True)
    (fun t2 a => markDepsBlocked fuel (blockOne step t2 a) a)
    (lookupD t.depd step) d t hd trivial (fun _ _ _ _ => trivial) ?_ ?_
  · intro t2 _
    constructor
    · apply markDepsBlocked_blocked_mono
      exact (mem_insertNew t2.blocked d d).mpr (Or.inl rfl)
    · apply markDepsBlocked_results_blocked
      show alook (aset t2.results d (JobResult.BLOCKED, 0, none)) d = _
      rw [alook_aset, if_pos rfl]
  · rintro t2 a _ ⟨h1, h2⟩
    constructor
    · apply markDepsBlocked_blocked_mono
      exact (mem_insertNew t2.blocked d a).mpr (Or.inr h1)
    · apply markDepsBlocked_results_blocked
      show alook (aset t2.results a (JobResult.BLOCKED, 0, none)) d = _
      rw [alook_aset]
      by_cases he : d = a
      · rw [if_pos he]
      · rw [if_neg he]
        exact h2

theorem markFailed_blocks (s : Sched) (step d : String) (now err : Nat)
    (hd : d ∈ lookupD s.depd step) :
    d ∈ (markFailed s step now err).blocked ∧
    alook (markFailed s step now err).results d =
      some (JobResult.BLOCKED, 0, none) := by
  simp only [markFailed]
  exact markDepsBlocked_blocks _ _ step d hd

/-- C3: counterexample. The dependent a is cancelled with a zero-duration
CANCELLED result when mark_failed(b) runs, yet afterwards a has been moved
out of cancelled into blocked and its result record has been overwritten
with the zero-duration BLOCKED record — the claim said it would stay
cancelled, untouched. -/
theorem cancelled_dependent_not_kept_cex :
    "a" ∈ c3Pre.cancelled ∧
    alook c3Pre.results "a" = some (JobResult.CANCELLED, 0, none) ∧
    "a" ∉ c3State.cancelled ∧ "a" ∈ c3State.blocked ∧
    alook c3State.results "a" = some (JobResult.BLOCKED, 0, none) := by
  refine ⟨by decide, by decide, by decide, by decide, by decide⟩

/-- C3: amended. In a reachable state, when a running step fails while some
direct dependent is already cancelled, that dependent is moved out of
cancelled into blocked and its result record is overwritten with the
zero-duration BLOCKED record; it still ends in exactly one status set, so
the cascade accounts for it exactly once even under multiple failed or
blocked ancestors. -/
theorem cancelled_dependent_blocked {m : Graph} {s : Sched} {step d : String}
    {now err : Nat} (hWF : WFmap m) (hr : Reaches m s) (hrun : step ∈ runKeys s)
    (hd : d ∈ lookupD s.depd step) (_hc : d ∈ s.cancelled) :
    d ∈ (markFailed s step now err).blocked ∧
    d ∉ (markFailed s step now err).cancelled ∧
    alook (markFailed s step now err).results d = some (JobResult.BLOCKED, 0, none) ∧
    memCount (markFailed s step now err) d = 1 := by
  have hInv := Inv_reaches hWF hr
  have hInv2 : Inv m (markFailed s step now err) := Inv_markFailed hInv hrun
  have hb := markFailed_blocks s step d now err hd
  refine ⟨hb.1, ?_, hb.2, ?_⟩
  · intro hx
    exact absurd (hInv2.unique .stBlocked .stCancelled hb.1 hx) (by simp)
  · have hk : d ∈ keysOf m := hInv.depdSub step d hd
    obtain ⟨st, hin, hu⟩ := hInv2.partSome d hk
    exact memCount_one hin hu

theorem markDependentsReady_frame (s : Sched) (step : String) :
    (markDependentsReady s step).running = s.running ∧
    (markDependentsReady s step).success = s.success ∧
    (markDependentsReady s step).failed = s.failed ∧
    (markDependentsReady s step).blocked = s.blocked ∧
    (markDependentsReady s step).cancelled = s.cancelled ∧
    (markDependentsReady s step).skipped = s.skipped ∧
    (markDependentsReady s step).results = s.results ∧
    (markDependentsReady s step).stopped = s.stopped ∧
    (markDependentsReady s step).depd = s.depd := by
  unfold markDependentsReady
  refine foldl_preserve (P := fun t => t.running = s.running ∧ t.success = s.success ∧
    t.failed = s.failed ∧ t.blocked = s.blocked ∧ t.cancelled = s.cancelled ∧
    t.skipped = s.skipped ∧ t.results = s.results ∧ t.stopped = s.stopped ∧
    t.depd = s.depd) _ _ s
    ⟨rfl, rfl, rfl, rfl, rfl, rfl, rfl, rfl, rfl⟩ ?_
  rintro t a _ ⟨h1, h2, h3, h4, h5, h6, h7, h8, h9⟩
  obtain ⟨f1, f2, f3, f4, f5, f6, f7, f8, f9⟩ := readyOne_frame step t a
  exact ⟨f2.trans h1, f3.trans h2, f4.trans h3, f5.trans h4, f6.trans h5,
    f7.trans h6, f8.trans h7, f9.trans h8, f1.trans h9⟩

theorem markSuccess_self (s : Sched) (step : String) (now : Nat) :
    step ∈ (markSuccess s step now).success ∧
    alook (markSuccess s step now).results step =
      some (JobResult.SUCCESS, tdSeconds (now - (alook s.running step).getD 0), none) := by
  simp only [markSuccess]
  constructor
  · rw [(markDependentsReady_frame _ step).2.1]
    exact (mem_insertNew s.success step step).mpr (Or.inl rfl)
  · rw [(markDependentsReady_frame _ step).2.2.2.2.2.2.1]
    show alook (aset s.results step _) step = _
    rw [alook_aset, if_pos rfl]

theorem markFailed_self {m : Graph} {s : Sched} {step : String} {now err : Nat}
    (hInv : Inv m s) (hrun : step ∈ runKeys s) :
    step ∈ (markFailed s step now err).failed ∧
    alook (markFailed s step now err).results step =
      some (JobResult.FAILED, tdSeconds (now - (alook s.running step).getD 0), some err) := by
  have hI1 : Inv m { s with
      running := aerase s.running step,
      failed := insertNew s.failed step,
      results := aset s.results step
        (JobResult.FAILED, tdSeconds (now - (alook s.running step).getD 0), some err) } :=
    Inv_finishCore hInv hrun rfl rfl rfl rfl rfl rfl rfl rfl
      (Or.inr (Or.inl ⟨rfl, rfl, rfl, rfl⟩))
  have hmem : step ∈ insertNew s.failed step :=
    (mem_insertNew s.failed step step).mpr (Or.inl rfl)
  have hmd := Inv_markDepsBlocked (s.deps.length + 1) hI1 (Or.inl hmem)
  simp only [markFailed]
  constructor
  · rw [(markDepsBlocked_frame _ _ step).2.2.2.1]
    exact hmem
  · rw [hmd.2 step (Or.inl hmem)]
    show alook (aset s.results step _) step = _
    rw [alook_aset, if_pos rfl]

theorem stop_spec (s : Sched) :
    (stop s).ready = [] ∧ (stop s).waiting = [] ∧
    (stop s).running = s.running ∧ (stop s).success = s.success ∧
    (stop s).failed = s.failed ∧ (stop s).blocked = s.blocked ∧
    (stop s).skipped = s.skipped ∧ (stop s).stopped = true ∧
    (∀ x, x ∈ (stop s).cancelled ↔ x ∈ s.cancelled ∨ x ∈ s.ready ∨ x ∈ s.waiting) ∧
    (∀ x, alook (stop s).results x =
      if x ∈ s.waiting then some (JobResult.CANCELLED, 0, none)
      else if x ∈ s.ready then some (JobResult.CANCELLED, 0, none)
      else alook s.results x) := by
  unfold stop
  obtain ⟨a1, a2, a3, a4, a5, a6, a7, a8, a9, a10⟩ :=
    cancelAll_frame s.ready.reverse { s with stopped := true, ready := [] }
  set s1 : Sched := cancelAll s.ready.reverse { s with stopped := true, ready := [] }
    with hs1
  obtain ⟨b1, b2, b3, b4, b5, b6, b7, b8, b9, b10⟩ :=
    cancelAll_frame s1.waiting { s1 with waiting := [] }
  set r : Sched := cancelAll s1.waiting { s1 with waiting := [] } with hr
  have hw1 : s1.waiting = s.waiting := a1
  have hwR : r.waiting = [] := b1
  have hrdR : r.ready = [] := b2.trans a2
  have hrnR : r.running = s.running := b3.trans a3
  have hsuR : r.success = s.success := b4.trans a4
  have hfaR : r.failed = s.failed := b5.trans a5
  have hblR : r.blocked = s.blocked := b6.trans a6
  have hskR : r.skipped = s.skipped := b7.trans a7
  have hstR : r.stopped = true := b8.trans a8
  have hcR : ∀ x, x ∈ r.cancelled ↔ (x ∈ s.cancelled ∨ x ∈ s.ready ∨ x ∈ s.waiting) := by
    intro x
    rw [hr, cancelAll_cancelled]
    show x ∈ s1.cancelled ∨ x ∈ s1.waiting ↔ _
    rw [hw1, hs1, cancelAll_cancelled]
    show (x ∈ s.cancelled ∨ x ∈ s.ready.reverse) ∨ x ∈ s.waiting ↔ _
    rw [List.mem_reverse]
    tauto
  have hresR : ∀ x, alook r.results x =
      if x ∈ s.waiting then some (JobResult.CANCELLED, 0, none)
      else if x ∈ s.ready then some (JobResult.CANCELLED, 0, none)
      else alook s.results x := by
    intro x
    rw [hr, cancelAll_results]
    rw [hw1]
    by_cases h1 : x ∈ s.waiting
    · rw [if_pos h1, if_pos h1]
    · rw [if_neg h1, if_neg h1]
      show alook s1.results x = _
      rw [hs1, cancelAll_results]
      by_cases h2 : x ∈ s.ready
      · rw [if_pos (List.mem_reverse.mpr h2), if_pos h2]
      · rw [if_neg (fun hx => h2 (List.mem_reverse.mp hx)), if_neg h2]
  exact ⟨hrdR, hwR, hrnR, hsuR, hfaR, hblR, hskR, hstR, hcR, hresR⟩

/-- C5: stop moves every ready and waiting step into cancelled with a
zero-duration CANCELLED result and changes nothing else: running, success,
failed, blocked and skipped are untouched and the results of steps that
were not ready or waiting are unchanged; a step that was running is still
accepted by a later mark_success or mark_failed, which produces its normal
result record. -/
theorem stop_cancels_ready_and_waiting {m : Graph} {s : Sched} {step : String}
    {now err : Nat} (hWF : WFmap m) (hr : Reaches m s) (hrun : step ∈ runKeys s) :
    (∀ x, x ∈ (stop s).cancelled ↔ x ∈ s.cancelled ∨ x ∈ s.ready ∨ x ∈ s.waiting) ∧
    (∀ x, x ∈ s.ready ∨ x ∈ s.waiting →
      alook (stop s).results x = some (JobResult.CANCELLED, 0, none)) ∧
    (stop s).ready = [] ∧ (stop s).waiting = [] ∧
    (stop s).running = s.running ∧ (stop s).success = s.success ∧
    (stop s).failed = s.failed ∧ (stop s).blocked = s.blocked ∧
    (stop s).skipped = s.skipped ∧
    (∀ x, x ∉ s.ready → x ∉ s.waiting → alook (stop s).results x = alook s.results x) ∧
    step ∈ (markSuccess (stop s) step now).success ∧
    alook (markSuccess (stop s) step now).results step =
      some (JobResult.SUCCESS, tdSeconds (now - (alook s.running step).getD 0), none) ∧
    step ∈ (markFailed (stop s) step now err).failed ∧
    alook (markFailed (stop s) step now err).results step =
      some (JobResult.FAILED, tdSeconds (now - (alook s.running step).getD 0), some err) := by
  obtain ⟨h1, h2, h3, h4, h5, h6, h7, _, h9, h10⟩ := stop_spec s
  have hSucc := markSuccess_self (stop s) step now
  have hInv2 : Inv m (stop s) := Inv_stop (Inv_reaches hWF hr)
  have hrun2 : step ∈ runKeys (stop s) := by
    show step ∈ (stop s).running.map Prod.fst
    rw [h3]
    exact hrun
  have hFail : step ∈ (markFailed (stop s) step now err).failed ∧
      alook (markFailed (stop s) step now err).results step =
        some (JobResult.FAILED,
          tdSeconds (now - (alook (stop s).running step).getD 0), some err) :=
    markFailed_self hInv2 hrun2
  have hrw : (alook (stop s).running step).getD 0 = (alook s.running step).getD 0 := by
    rw [h3]
  refine ⟨h9, ?_, h1, h2, h3, h4, h5, h6, h7, ?_, hSucc.1, ?_, hFail.1, ?_⟩
  · intro x hx
    rw [h10 x]
    rcases hx with h | h
    · by_cases hw : x ∈ s.waiting
      · rw [if_pos hw]
      · rw [if_neg hw, if_pos h]
    · rw [if_pos h]
  · intro x hxr hxw
    rw [h10 x, if_neg hxw, if_neg hxr]
  · rw [hSucc.2, hrw]
  · rw [hFail.2, hrw]

theorem stop_cancels_ready_and_waiting_witness :
    WFmap [("b", []), ("a", ["b"])] ∧
    "b" ∈ runKeys (markStarted (schedOf [("b", []), ("a", ["b"])]) "b" 0) ∧
    ((∀ x, x ∈ (stop (markStarted (schedOf [("b", []), ("a", ["b"])]) "b" 0)).cancelled ↔
        x ∈ (markStarted (schedOf [("b", []), ("a", ["b"])]) "b" 0).cancelled ∨
        x ∈ (markStarted (schedOf [("b", []), ("a", ["b"])]) "b" 0).ready ∨
        x ∈ (markStarted (schedOf [("b", []), ("a", ["b"])]) "b" 0).waiting) ∧
     (∀ x, x ∈ (markStarted (schedOf [("b", []), ("a", ["b"])]) "b" 0).ready ∨
        x ∈ (markStarted (schedOf [("b", []), ("a", ["b"])]) "b" 0).waiting →
        alook (stop (markStarted (schedOf [("b", []), ("a", ["b"])]) "b" 0)).results x =
          some (JobResult.CANCELLED, 0, none)) ∧
     (stop (markStarted (schedOf [("b", []), ("a", ["b"])]) "b" 0)).ready = [] ∧
     (stop (markStarted (schedOf [("b", []), ("a", ["b"])]) "b" 0)).waiting = [] ∧
     (stop (markStarted (schedOf [("b", []), ("a", ["b"])]) "b" 0)).running =
       (markStarted (schedOf [("b", []), ("a", ["b"])]) "b" 0).running ∧
     (stop (markStarted (schedOf [("b", []), ("a", ["b"])]) "b" 0)).success =
       (markStarted (schedOf [("b", []), ("a", ["b"])]) "b" 0).success ∧
     (stop (markStarted (schedOf [("b", []), ("a", ["b"])]) "b" 0)).failed =
       (markStarted (schedOf [("b", []), ("a", ["b"])]) "b" 0).failed ∧
     (stop (markStarted (schedOf [("b", []), ("a", ["b"])]) "b" 0)).blocked =
       (markStarted (schedOf [("b", []), ("a", ["b"])]) "b" 0).blocked ∧
     (stop (markStarted (schedOf [("b", []), ("a", ["b"])]) "b" 0)).skipped =
       (markStarted (schedOf [("b", []), ("a", ["b"])]) "b" 0).skipped ∧
     (∀ x, x ∉ (markStarted (schedOf [("b", []), ("a", ["b"])]) "b" 0).ready →
        x ∉ (markStarted (schedOf [("b", []), ("a", ["b"])]) "b" 0).waiting →
        alook (stop (markStarted (schedOf [("b", []), ("a", ["b"])]) "b" 0)).results x =
          alook (markStarted (schedOf [("b", []), ("a", ["b"])]) "b" 0).results x) ∧
     "b" ∈ (markSuccess (stop (markStarted (schedOf [("b", []), ("a", ["b"])]) "b" 0)) "b" 4).success ∧
     alook (markSuccess (stop (markStarted (schedOf [("b", []), ("a", ["b"])]) "b" 0)) "b" 4).results "b" =
       some (JobResult.SUCCESS,
         tdSeconds (4 - (alook (markStarted (schedOf [("b", []), ("a", ["b"])]) "b" 0).running "b").getD 0), none) ∧
     "b" ∈ (markFailed (stop (markStarted (schedOf [("b", []), ("a", ["b"])]) "b" 0)) "b" 4 9).failed ∧
     alook (markFailed (stop (markStarted (schedOf [("b", []), ("a", ["b"])]) "b" 0)) "b" 4 9).results "b" =
       some (JobResult.FAILED,
         tdSeconds (4 - (alook (markStarted (schedOf [("b", []), ("a", ["b"])]) "b" 0).running "b").getD 0), some 9)) :=
  ⟨by decide, by decide,
    stop_cancels_ready_and_waiting (by decide)
      (Reaches.started Reaches.init (by decide) (by decide)) (by decide)⟩

theorem cancelled_dependent_blocked_witness :
    WFmap [("b", []), ("a", ["b"])] ∧
    "b" ∈ runKeys c3Pre ∧ "a" ∈ lookupD c3Pre.depd "b" ∧ "a" ∈ c3Pre.cancelled ∧
    ("a" ∈ (markFailed c3Pre "b" 1 9).blocked ∧
     "a" ∉ (markFailed c3Pre "b" 1 9).cancelled ∧
     alook (markFailed c3Pre "b" 1 9).results "a" = some (JobResult.BLOCKED, 0, none) ∧
     memCount (markFailed c3Pre "b" 1 9) "a" = 1) :=
  ⟨by decide, by decide, by decide, by decide,
    cancelled_dependent_blocked (by decide)
      (Reaches.stopped (Reaches.started Reaches.init (by decide) (by decide)))
      (by decide) (by decide) (by decide)⟩

theorem foldl_failedJobs (sk : Bool) (res : PyResults) :
    ∀ (ord : List String) (acc : Jobs),
      (ord.foldl (classifyStep sk res) acc).failedJobs =
        acc.failedJobs ++ ord.filter (failsRun sk res)
  | [], acc => by simp
  | n :: ord, acc => by
      rw [List.foldl_cons, foldl_failedJobs sk res ord, List.filter_cons]
      cases halook : alook res n with
      | none =>
          have hcl : classifyStep sk res acc n =
              if acc.cancelledJobs.isEmpty then
                { acc with blockedJobs := acc.blockedJobs ++ [n] }
              else { acc with cancelledJobs := acc.cancelledJobs ++ [n] } := by
            unfold classifyStep
            rw [halook]
          have hfr : failsRun sk res n = false := by
            unfold failsRun
            rw [halook]
          rw [hcl, hfr]
          by_cases hc : acc.cancelledJobs.isEmpty
          · rw [if_pos hc]
            simp
          · rw [if_neg hc]
            simp
      | some r =>
          obtain ⟨o, dur⟩ := r
          cases o with
          | none =>
              have hcl : classifyStep sk res acc n = acc := by
                unfold classifyStep
                rw [halook]
              have hfr : failsRun sk res n = false := by
                unfold failsRun
                rw [halook]
              rw [hcl, hfr]
              simp
          | some ek =>
              cases ek with
              | unavailableInterpreter =>
                  have hcl : classifyStep sk res acc n =
                      if sk then acc
                      else { acc with failedJobs := acc.failedJobs ++ [n] } := by
                    unfold classifyStep
                    rw [halook]
                  have hfr : failsRun sk res n = !sk := by
                    unfold failsRun
                    rw [halook]
                  rw [hcl, hfr]
                  cases sk with
                  | true => simp
                  | false => simp
              | cancelledErr =>
                  have hcl : classifyStep sk res acc n =
                      { acc with cancelledJobs := acc.cancelledJobs ++ [n] } := by
                    unfold classifyStep
                    rw [halook]
                  have hfr : failsRun sk res n = false := by
                    unfold failsRun
                    rw [halook]
                  rw [hcl, hfr]
                  simp
              | other =>
                  have hcl : classifyStep sk res acc n =
                      { acc with failedJobs := acc.failedJobs ++ [n] } := by
                    unfold classifyStep
                    rw [halook]
                  have hfr : failsRun sk res n = true := by
                    unfold failsRun
                    rw [halook]
                  rw [hcl, hfr]
                  simp

/-- C4: counterexample. A run whose single step ended cancelled: the
classification lists it among the cancelled jobs, yet `_log_summary`
raises nothing, while the claim demanded the aggregate error whenever at
least one step ended failed, blocked or cancelled. -/
theorem pipeline_cancelled_no_error_cex :
    (jobsOf false ["a"] [("a", (some ExcKind.cancelledErr, 0))]).cancelledJobs = ["a"] ∧
    logSummary false ["a"] [("a", (some ExcKind.cancelledErr, 0))] = none := by
  refine ⟨by decide, by decide⟩

/-- C4: amended. After the loop, `_log_summary` raises the aggregate
pipeline-failed error — carrying the counts of failed, blocked and
cancelled jobs, with exit code 1 — if and only if at least one step of the
order holds a result that classifies as failed; runs whose only abnormal
steps are blocked or cancelled return normally. -/
theorem pipeline_error_iff_some_failed (sk : Bool) (ord : List String)
    (res : PyResults) :
    ((logSummary sk ord res).isSome ↔ ∃ n ∈ ord, failsRun sk res n = true) ∧
    (jobsOf sk ord res).failedJobs = ord.filter (failsRun sk res) ∧
    (∀ e, logSummary sk ord res = some e →
      e = ⟨(jobsOf sk ord res).failedJobs.length,
           (jobsOf sk ord res).blockedJobs.length,
           (jobsOf sk ord res).cancelledJobs.length⟩ ∧
      e.exitCode = 1) := by
  have hjf : (jobsOf sk ord res).failedJobs = ord.filter (failsRun sk res) := by
    have h := foldl_failedJobs sk res ord ⟨[], [], []⟩
    simpa [jobsOf] using h
  have hlog : logSummary sk ord res =
      if (jobsOf sk ord res).failedJobs.isEmpty then none
      else some ⟨(jobsOf sk ord res).failedJobs.length,
        (jobsOf sk ord res).blockedJobs.length,
        (jobsOf sk ord res).cancelledJobs.length⟩ := rfl
  refine ⟨?_, hjf, ?_⟩
  · rw [hlog]
    by_cases hE : (jobsOf sk ord res).failedJobs.isEmpty
    · rw [if_pos hE]
      simp only [Option.isSome_none, Bool.false_eq_true, false_iff]
      rintro ⟨n, hn, hf⟩
      have hmem : n ∈ (jobsOf sk ord res).failedJobs := by
        rw [hjf]
        exact List.mem_filter.mpr ⟨hn, hf⟩
      rw [List.isEmpty_iff] at hE
      rw [hE] at hmem
      exact List.not_mem_nil n hmem
    · rw [if_neg hE]
      simp only [Option.isSome_some, true_iff]
      rw [List.isEmpty_iff] at hE
      obtain ⟨n, hn⟩ := List.exists_mem_of_ne_nil _ hE
      rw [hjf] at hn
      obtain ⟨h1, h2⟩ := List.mem_filter.mp hn
      exact ⟨n, h1, h2⟩
  · intro e he
    rw [hlog] at he
    by_cases hE : (jobsOf sk ord res).failedJobs.isEmpty
    · rw [if_pos hE] at he
      exact absurd he (by simp)
    · rw [if_neg hE] at he
      exact ⟨(Option.some.inj he).symm, rfl⟩

theorem pipeline_error_iff_some_failed_witness :
    ((logSummary false ["a", "b"]
        [("a", (some ExcKind.other, 5)), ("b", (none, 2))]).isSome ↔
      ∃ n ∈ ["a", "b"],
        failsRun false [("a", (some ExcKind.other, 5)), ("b", (none, 2))] n = true) ∧
    (jobsOf false ["a", "b"]
        [("a", (some ExcKind.other, 5)), ("b", (none, 2))]).failedJobs =
      ["a", "b"].filter
        (failsRun false [("a", (some ExcKind.other, 5)), ("b", (none, 2))]) ∧
    (∀ e, logSummary false ["a", "b"]
        [("a", (some ExcKind.other, 5)), ("b", (none, 2))] = some e →
      e = ⟨(jobsOf false ["a", "b"]
              [("a", (some ExcKind.other, 5)), ("b", (none, 2))]).failedJobs.length,
           (jobsOf false ["a", "b"]
              [("a", (some ExcKind.other, 5)), ("b", (none, 2))]).blockedJobs.length,
           (jobsOf false ["a", "b"]
              [("a", (some ExcKind.other, 5)), ("b", (none, 2))]).cancelledJobs.length⟩ ∧
      e.exitCode = 1) :=
  pipeline_error_iff_some_failed false ["a", "b"]
    [("a", (some ExcKind.other, 5)), ("b", (none, 2))]

theorem mainLoop_error (reg : Registry) :
    ∀ (fuel : Nat) (wl : List String) (g : Graph) (unk : List String) (e : BuildErr),
      mainLoop reg fuel wl g unk = .error e → e = .fuelOut
  | _, [], _, _, _, h => by
      simp only [mainLoop] at h
      exact Except.noConfusion h
  | 0, _ :: _, _, _, _, h => by
      simp only [mainLoop, Except.error.injEq] at h
      exact h.symm
  | fuel + 1, step :: rest, g, unk, e, h => by
      cases halook : alook reg step with
      | none =>
          have hmain : mainLoop reg (fuel + 1) (step :: rest) g unk =
              mainLoop reg fuel rest g (unk ++ [step]) := by
            simp only [mainLoop]
            rw [halook]
          rw [hmain] at h
          exact mainLoop_error reg fuel rest g (unk ++ [step]) e h
      | some info =>
          have hmain : mainLoop reg (fuel + 1) (step :: rest) g unk =
              mainLoop reg fuel
                (info.requires.foldl
                  (fun st r =>
                    if (alook (aset g step info.requires) r).isSome then st else r :: st)
                  rest)
                (aset g step info.requires) unk := by
            simp only [mainLoop]
            rw [halook]
          rw [hmain] at h
          exact mainLoop_error reg fuel _ _ unk e h

theorem mainLoop_collects (reg : Registry) :
    ∀ (fuel : Nat) (wl : List String) (g : Graph) (unk : List String)
      (g2 : Graph) (unk2 : List String),
      mainLoop reg fuel wl g unk = .ok (g2, unk2) →
      (∀ n ∈ unk, n ∈ unk2) ∧ (∀ n ∈ wl, alook reg n = none → n ∈ unk2)
  | _, [], g, unk, g2, unk2, h => by
      simp only [mainLoop, Except.ok.injEq, Prod.mk.injEq] at h
      obtain ⟨h3, h4⟩ := h
      subst h3
      subst h4
      exact ⟨fun n hn => hn, fun n hn => absurd hn (List.not_mem_nil n)⟩
  | 0, step :: rest, g, unk, g2, unk2, h => by
      simp only [mainLoop] at h
      exact Except.noConfusion h
  | fuel + 1, step :: rest, g, unk, g2, unk2, h => by
      cases halook : alook reg step with
      | none =>
          have hmain : mainLoop reg (fuel + 1) (step :: rest) g unk =
              mainLoop reg fuel rest g (unk ++ [step]) := by
            simp only [mainLoop]
            rw [halook]
          rw [hmain] at h
          obtain ⟨ih1, ih2⟩ := mainLoop_collects reg fuel rest g (unk ++ [step]) g2 unk2 h
          constructor
          · exact fun n hn => ih1 n (List.mem_append_left _ hn)
          · intro n hn hnone
            rcases List.mem_cons.mp hn with h2 | h2
            · subst h2
              exact ih1 n (List.mem_append_right _ (by simp))
            · exact ih2 n h2 hnone
      | some info =>
          have hmain : mainLoop reg (fuel + 1) (step :: rest) g unk =
              mainLoop reg fuel
                (info.requires.foldl
                  (fun st r =>
                    if (alook (aset g step info.requires) r).isSome then st else r :: st)
                  rest)
                (aset g step info.requires) unk := by
            simp only [mainLoop]
            rw [halook]
          rw [hmain] at h
          obtain ⟨ih1, ih2⟩ := mainLoop_collects reg fuel _ _ unk g2 unk2 h
          refine ⟨ih1, ?_⟩
          intro n hn hnone
          rcases List.mem_cons.mp hn with h2 | h2
          · subst h2
            rw [halook] at hnone
            exact Option.noConfusion hnone
          · refine ih2 n ?_ hnone
            refine foldl_preserve (P := fun st => n ∈ st) _ info.requires rest h2 ?_
            intro st a _ hm
            by_cases hc : (alook (aset g step info.requires) a).isSome
            · rw [if_pos hc]
              exact hm
            · rw [if_neg hc]
              exact List.mem_cons_of_mem a hm

/-- C9: counterexample. An unknown name in the except list is not
collected: the expand closure raises a bare KeyError naming just that
step, even when the requested list also holds an unknown name that would
have been aggregated, so the build does fail on the first unknown
encountered there rather than reporting them together. -/
theorem unknown_except_keyerror_cex :
    buildGraph [("a", ⟨false, ["r"], true⟩)] none (some ["z"]) =
      .error (.keyErr "z") ∧
    buildGraph [("a", ⟨false, ["r"], true⟩)] (some ["q"]) (some ["z"]) =
      .error (.keyErr "z") ∧
    ∀ L, BuildErr.keyErr "z" ≠ BuildErr.unknownSteps L := by
  refine ⟨by rfl, by rfl, fun L => by simp⟩

/-- C9: amended. For a build without an except list, every requested name
that is not registered — and, as the concrete instance shows, every
unregistered requirement reached from a registered step — ends up in the
single aggregated unknown-steps error, and a successful build implies
every requested name was registered; unknown names in the except list
instead abort immediately with a bare KeyError. -/
theorem unknown_steps_aggregated (reg : Registry) (steps : List String) :
    (∀ L, buildGraph reg (some steps) none = .error (.unknownSteps L) →
      ∀ n ∈ steps, alook reg n = none → n ∈ L) ∧
    (∀ g, buildGraph reg (some steps) none = .ok g →
      ∀ n ∈ steps, (alook reg n).isSome) ∧
    buildGraph [("a", ⟨false, ["r"], true⟩)] (some ["y", "a", "x"]) none =
      .error (.unknownSteps ["x", "r", "y"]) := by
  refine ⟨?_, ?_, by rfl⟩
  · intro L hL n hn hnone
    cases hml : mainLoop reg (wlFuel reg steps) steps.reverse [] [] with
    | error e =>
        have hbg : buildGraph reg (some steps) none = .error e := by
          simp only [buildGraph]
          rw [hml]
        rw [hbg] at hL
        have he : e = .unknownSteps L := by
          simpa using hL
        rw [mainLoop_error reg _ _ _ _ e hml] at he
        exact absurd he (by simp)
    | ok p =>
        obtain ⟨g1, unk1⟩ := p
        have hbg : buildGraph reg (some steps) none =
            if !unk1.isEmpty then .error (.unknownSteps unk1) else .ok g1 := by
          simp only [buildGraph]
          rw [hml]
          rfl
        rw [hbg] at hL
        by_cases hE : unk1.isEmpty
        · rw [hE] at hL
          simp at hL
        · rw [Bool.not_eq_true] at hE
          rw [if_pos (by simp [hE]), Except.error.injEq, BuildErr.unknownSteps.injEq] at hL
          obtain ⟨_, hcoll⟩ := mainLoop_collects reg (wlFuel reg steps) steps.reverse [] []
            g1 unk1 hml
          rw [← hL]
          exact hcoll n (List.mem_reverse.mpr hn) hnone
  · intro g hg n hn
    cases hml : mainLoop reg (wlFuel reg steps) steps.reverse [] [] with
    | error e =>
        have hbg : buildGraph reg (some steps) none = .error e := by
          simp only [buildGraph]
          rw [hml]
        rw [hbg] at hg
        exact Except.noConfusion hg
    | ok p =>
        obtain ⟨g1, unk1⟩ := p
        have hbg : buildGraph reg (some steps) none =
            if !unk1.isEmpty then .error (.unknownSteps unk1) else .ok g1 := by
          simp only [buildGraph]
          rw [hml]
          rfl
        rw [hbg] at hg
        by_cases hE : unk1.isEmpty
        · obtain ⟨_, hcoll⟩ := mainLoop_collects reg (wlFuel reg steps) steps.reverse [] []
            g1 unk1 hml
          rw [Option.isSome_iff_ne_none]
          intro hnone
          have hmem := hcoll n (List.mem_reverse.mpr hn) hnone
          rw [List.isEmpty_iff] at hE
          rw [hE] at hmem
          exact List.not_mem_nil n hmem
        · rw [if_pos (by simp [Bool.not_eq_true] at hE ⊢; exact hE)] at hg
          exact Except.noConfusion hg

theorem unknown_steps_aggregated_witness :
    (∀ L, buildGraph [("a", ⟨false, ["r"], true⟩)] (some ["y", "a", "x"]) none =
        .error (.unknownSteps L) →
      ∀ n ∈ ["y", "a", "x"],
        alook ([("a", ⟨false, ["r"], true⟩)] : Registry) n = none → n ∈ L) ∧
    (∀ g, buildGraph [("a", ⟨false, ["r"], true⟩)] (some ["y", "a", "x"]) none = .ok g →
      ∀ n ∈ ["y", "a", "x"],
        (alook ([("a", ⟨false, ["r"], true⟩)] : Registry) n).isSome) ∧
    buildGraph [("a", ⟨false, ["r"], true⟩)] (some ["y", "a", "x"]) none =
      .error (.unknownSteps ["x", "r", "y"]) :=
  unknown_steps_aggregated [("a", ⟨false, ["r"], true⟩)] ["y", "a", "x"]

theorem lookupD_cons_self (k : String) (w : List String) (l : Graph) :
    lookupD ((k, w) :: l) k = w := by
  simp [lookupD, alook]

theorem lookupD_cons_ne {k n : String} (w : List String) (l : Graph) (h : k ≠ n) :
    lookupD ((k, w) :: l) n = lookupD l n := by
  simp [lookupD, alook, h]

theorem applyReplacements_keys :
    ∀ (g : Graph) (ex : List String) (er : AssocL (List String)),
      keysOf (applyReplacements g ex er) = (keysOf g).filter (fun n => !ex.contains n)
  | [], _, _ => rfl
  | (k, vs) :: g, ex, er => by
      have ih := applyReplacements_keys g ex er
      by_cases hk : (!ex.contains k) = true
      · have h1 : applyReplacements ((k, vs) :: g) ex er =
            (k, vs.flatMap
              (fun v => match alook er v with | some r => r | none => [v])) ::
              applyReplacements g ex er := by
          unfold applyReplacements
          simp only [List.filter_cons]
          rw [if_pos hk]
          rfl
        have h2 : (keysOf ((k, vs) :: g)).filter (fun n => !ex.contains n) =
            k :: (keysOf g).filter (fun n => !ex.contains n) := by
          show (k :: keysOf g).filter _ = _
          simp only [List.filter_cons]
          rw [if_pos hk]
        rw [h1, h2]
        show k :: keysOf (applyReplacements g ex er) = _
        rw [ih]
      · have h1 : applyReplacements ((k, vs) :: g) ex er = applyReplacements g ex er := by
          unfold applyReplacements
          simp only [List.filter_cons]
          rw [if_neg hk]
        have h2 : (keysOf ((k, vs) :: g)).filter (fun n => !ex.contains n) =
            (keysOf g).filter (fun n => !ex.contains n) := by
          show (k :: keysOf g).filter _ = _
          simp only [List.filter_cons]
          rw [if_neg hk]
        rw [h1, h2, ih]

theorem applyReplacements_lookup :
    ∀ (g : Graph) (ex : List String) (er : AssocL (List String)) (n : String),
      (keysOf g).Nodup → n ∈ keysOf g → ex.contains n = false →
      lookupD (applyReplacements g ex er) n =
        (lookupD g n).flatMap
          (fun v => match alook er v with | some r => r | none => [v])
  | [], _, _, n, _, hn, _ => absurd hn (List.not_mem_nil n)
  | (k, vs) :: g, ex, er, n, hnd, hn, hex => by
      have hnd1 : (k :: keysOf g).Nodup := hnd
      have hnd2 : (keysOf g).Nodup := (List.nodup_cons.mp hnd1).2
      by_cases hkn : k = n
      · subst hkn
        have hhd : lookupD ((k, vs) :: g) k = vs := lookupD_cons_self k vs g
        rw [hhd]
        simp only [applyReplacements, List.filter_cons]
        rw [if_pos (show (!ex.contains k) = true by rw [hex]; rfl)]
        simp only [List.map_cons]
        exact lookupD_cons_self k _ _
      · have hn2 : n ∈ keysOf g := by
          have hn3 : n ∈ k :: keysOf g := hn
          rcases List.mem_cons.mp hn3 with h | h
          · exact absurd h.symm hkn
          · exact h
        have ih := applyReplacements_lookup g ex er n hnd2 hn2 hex
        rw [lookupD_cons_ne vs g hkn]
        simp only [applyReplacements, List.filter_cons]
        by_cases hk : (!ex.contains k) = true
        · rw [if_pos hk]
          simp only [List.map_cons]
          rw [lookupD_cons_ne _ _ hkn]
          exact ih
        · rw [if_neg hk]
          exact ih

/-- C8: counterexample. Chain 1→2→3, requested steps ["1"], except ["2"]:
the replacement of the excluded step 2 is computed against membership in
the *requested* list, not against non-exclusion, so its dependency 3 is
dropped instead of spliced in: 1 ends up requiring nothing although the
claim demanded 1 to require 3 directly, and 3 survives as a disconnected
node. -/
theorem except_contraction_cex :
    buildGraph
        [("1", ⟨false, ["2"], true⟩), ("2", ⟨false, ["3"], true⟩),
         ("3", ⟨false, [], true⟩)]
        (some ["1"]) (some ["2"]) = .ok [("1", []), ("3", [])] ∧
    "3" ∉ lookupD [("1", []), ("3", [])] "1" ∧
    "3" ∈ keysOf [("1", []), ("3", [])] := by
  refine ⟨by rfl, by decide, by decide⟩

/-- C8: amended. Excluded steps are removed from the graph entirely, and
each edge is rewritten by the computed replacement map — so for the
claim's chain 1→2→3→4 with {2,3} excluded under default step selection, 1
does end up requiring 4 directly with 2 and 3 absent; but in general a
replacement keeps exactly the requirements lying in the *requested* steps
list and recurses on the others, which coincides with the set of
non-excluded transitive dependencies only when every non-excluded
dependency is itself requested. -/
theorem except_contraction_amended :
    buildGraph
        [("1", ⟨false, ["2"], true⟩), ("2", ⟨false, ["3"], true⟩),
         ("3", ⟨false, ["4"], true⟩), ("4", ⟨false, [], true⟩)]
        none (some ["2", "3"]) = .ok [("4", []), ("1", ["4"])] ∧
    (∀ (g : Graph) (ex : List String) (er : AssocL (List String)),
      keysOf (applyReplacements g ex er) = (keysOf g).filter (fun n => !ex.contains n)) ∧
    (∀ (g : Graph) (ex : List String) (er : AssocL (List String)) (n : String),
      (keysOf g).Nodup → n ∈ keysOf g → ex.contains n = false →
      lookupD (applyReplacements g ex er) n =
        (lookupD g n).flatMap
          (fun v => match alook er v with | some r => r | none => [v])) :=
  ⟨by rfl, applyReplacements_keys, applyReplacements_lookup⟩

theorem except_contraction_amended_witness :
    keysOf (applyReplacements [("1", ["2"]), ("2", ["3"]), ("3", [])] ["2"]
        [("2", ["3"])]) =
      (keysOf [("1", ["2"]), ("2", ["3"]), ("3", [])]).filter
        (fun n => !(List.contains ["2"] n)) ∧
    lookupD (applyReplacements [("1", ["2"]), ("2", ["3"]), ("3", [])] ["2"]
        [("2", ["3"])]) "1" =
      (lookupD [("1", ["2"]), ("2", ["3"]), ("3", [])] "1").flatMap
        (fun v => match alook [("2", ["3"])] v with | some r => r | none => [v]) :=
  ⟨(except_contraction_amended.2.1) [("1", ["2"]), ("2", ["3"]), ("3", [])] ["2"]
      [("2", ["3"])],
   (except_contraction_amended.2.2) [("1", ["2"]), ("2", ["3"]), ("3", [])] ["2"]
      [("2", ["3"])] "1" (by decide) (by decide) (by decide)⟩

theorem sumW_error {f : WMap → String → Except (List String) (WMap × Weight)}
    (P : List String → Prop) (Q : String → Prop)
    (hf : ∀ ws d p, Q d → f ws d = .error p → p ≠ [] → P p) :
    ∀ (ws : WMap) (l : List String) (p : List String),
      (∀ d ∈ l, Q d) → sumW f ws l = .error p → p ≠ [] → P p
  | _, [], _, _, h, _ => by
      simp only [sumW] at h
      exact Except.noConfusion h
  | ws, d :: rest, p, hQ, h, hne => by
      simp only [sumW] at h
      cases hcw : f ws d with
      | error e =>
          simp only [hcw] at h
          have he : e = p := by simpa using h
          subst he
          exact hf ws d e (hQ d (List.mem_cons_self d rest)) hcw hne
      | ok pr =>
          obtain ⟨ws1, w⟩ := pr
          simp only [hcw] at h
          cases hsw : sumW f ws1 rest with
          | error e =>
              simp only [hsw] at h
              have he : e = p := by simpa using h
              subst he
              exact sumW_error P Q hf ws1 rest e
                (fun d2 hd2 => hQ d2 (List.mem_cons_of_mem d hd2)) hsw hne
          | ok pr2 =>
              obtain ⟨ws2, t2⟩ := pr2
              simp only [hsw] at h
              exact Except.noConfusion h

theorem computeWeight_error (depd : Graph) :
    ∀ (fuel : Nat) (path : List String) (ws : WMap) (step : String) (p : List String),
      computeWeight depd fuel path ws step = .error p → p ≠ [] →
      List.Chain' (fun x y => x ∈ lookupD depd y) (step :: path) →
      (∃ h t, p = h :: t ∧ h ∈ t) ∧
      List.Chain' (fun x y => x ∈ lookupD depd y) p
  | 0, path, ws, step, p, h, hne, _ => by
      simp only [computeWeight] at h
      exact absurd (by simpa using h : ([] : List String) = p).symm hne
  | fuel + 1, path, ws, step, p, h, hne, hch => by
      simp only [computeWeight] at h
      cases hws : alook ws step with
      | some w =>
          simp only [hws] at h
          exact Except.noConfusion h
      | none =>
          simp only [hws] at h
          by_cases hmem : step ∈ path
          · rw [if_pos hmem] at h
            have hp : step :: path = p := by simpa using h
            refine ⟨⟨step, path, hp.symm, hmem⟩, ?_⟩
            rw [← hp]
            exact hch
          · rw [if_neg hmem] at h
            cases hsw : sumW (computeWeight depd fuel (step :: path)) ws
                (lookupD depd step) with
            | error e =>
                simp only [hsw] at h
                have he : e = p := by simpa using h
                subst he
                refine sumW_error
                  (P := fun q => (∃ h t, q = h :: t ∧ h ∈ t) ∧
                    List.Chain' (fun x y => x ∈ lookupD depd y) q)
                  (Q := fun d => d ∈ lookupD depd step) ?_ ws (lookupD depd step) e
                  (fun d hd => hd) hsw hne
                intro ws2 d p2 hQd hcw hne2
                exact computeWeight_error depd fuel (step :: path) ws2 d p2 hcw hne2
                  (List.Chain'.cons hQd hch)
            | ok pr =>
                obtain ⟨ws1, total⟩ := pr
                simp only [hsw] at h
                exact Except.noConfusion h

theorem buildWLoop_error (depd : Graph) :
    ∀ (fuel : Nat) (ws : WMap) (ks : List String) (p : List String),
      buildWLoop depd fuel ws ks = .error p → p ≠ [] →
      (∃ h t, p = h :: t ∧ h ∈ t) ∧
      List.Chain' (fun x y => x ∈ lookupD depd y) p
  | _, ws, [], p, h, _ => by
      simp only [buildWLoop] at h
      exact Except.noConfusion h
  | fuel, ws, k :: rest, p, h, hne => by
      simp only [buildWLoop] at h
      cases hcw : computeWeight depd fuel [] ws k with
      | error e =>
          simp only [hcw] at h
          have he : e = p := by simpa using h
          subst he
          exact computeWeight_error depd fuel [] ws k e hcw hne (by simp)
      | ok pr =>
          obtain ⟨ws1, w⟩ := pr
          simp only [hcw] at h
          exact buildWLoop_error depd fuel ws1 rest p h hne

/-- C7: counterexample. For the mapping {c: [], a: [b, c], b: [a]} the
constructor raises the cycle error carrying the whole traversal path
["a", "b", "a", "c"]: beyond the segment from the repeated node back to
itself it also drags in the traversal root c, which is on no cycle, so
the carried path is not the cycle path from the repeated node back to
itself inclusive. -/
theorem cycle_path_overshoot_cex :
    resolverInit [("c", []), ("a", ["b", "c"]), ("b", ["a"])] =
      .error ["a", "b", "a", "c"] ∧
    (["a", "b", "a", "c"] : List String).getLast? ≠ some "a" ∧
    "c" ∉ (["a", "b", "a"] : List String) := by
  refine ⟨by rfl, by decide, by decide⟩

/-- C7: amended. Construction over a cyclic mapping raises the cycle
error before any scheduler exists; the carried path starts with the
repeated node, which occurs again later in it, and consecutive entries
follow dependent edges — but the path is the whole DFS stack at detection
time, which can extend past the cycle down to the traversal root. For the
mapping {a: [b], b: [a]} it is exactly ["a", "b", "a"]. -/
theorem cycle_error_carries_path :
    resolverInit [("a", ["b"]), ("b", ["a"])] = .error ["a", "b", "a"] ∧
    (∀ (m : Graph) (p : List String), resolverInit m = .error p → p ≠ [] →
      (∃ h t, p = h :: t ∧ h ∈ t) ∧
      List.Chain' (fun x y => x ∈ lookupD (mkDepd (mkDeps m)) y) p) := by
  refine ⟨by rfl, ?_⟩
  intro m p h hne
  have hbw : buildWeights (mkDepd (mkDeps m)) = .error p := by
    cases hb : buildWeights (mkDepd (mkDeps m)) with
    | error e =>
        have : resolverInit m = .error e := by
          simp only [resolverInit]
          rw [hb]
        rw [this] at h
        have he : e = p := by simpa using h
        rw [← he]
    | ok ws =>
        have : resolverInit m = .ok (mkDeps m, mkDepd (mkDeps m), ws) := by
          simp only [resolverInit]
          rw [hb]
        rw [this] at h
        exact Except.noConfusion h
  exact buildWLoop_error (mkDepd (mkDeps m)) ((mkDepd (mkDeps m)).length + 1) []
    (keysOf (mkDepd (mkDeps m))) p hbw hne

theorem cycle_error_carries_path_witness :
    (∃ h t, (["a", "b", "a"] : List String) = h :: t ∧ h ∈ t) ∧
    List.Chain'
      (fun x y => x ∈ lookupD (mkDepd (mkDeps [("a", ["b"]), ("b", ["a"])])) y)
      ["a", "b", "a"] :=
  cycle_error_carries_path.2 [("a", ["b"]), ("b", ["a"])] ["a", "b", "a"]
    (by rfl) (by decide)

theorem filter_notin_le (path : List String) (step : String) :
    ∀ K : List String,
      (K.filter (fun n => !(step :: path).contains n)).length ≤
      (K.filter (fun n => !path.contains n)).length
  | [] => Nat.le_refl 0
  | k :: K => by
      rw [List.filter_cons, List.filter_cons]
      by_cases h1 : k ∈ step :: path
      · rw [if_neg (by
            rw [show (!(step :: path).contains k) = false by
              simpa using fun hne => (List.mem_cons.mp h1).resolve_left hne]
            simp)]
        by_cases h2 : k ∈ path
        · rw [if_neg (by rw [show (!path.contains k) = false by simpa using h2]; simp)]
          exact filter_notin_le path step K
        · rw [if_pos (show (!path.contains k) = true by simpa using h2)]
          simp only [List.length_cons]
          exact Nat.le_succ_of_le (filter_notin_le path step K)
      · have h2 : k ∉ path := fun hx => h1 (List.mem_cons_of_mem step hx)
        rw [if_pos (show (!(step :: path).contains k) = true by simpa using h1),
          if_pos (show (!path.contains k) = true by simpa using h2)]
        simp only [List.length_cons]
        exact Nat.succ_le_succ (filter_notin_le path step K)

theorem filter_notin_lt (path : List String) (step : String) (hnp : step ∉ path) :
    ∀ K : List String, step ∈ K →
      (K.filter (fun n => !(step :: path).contains n)).length <
      (K.filter (fun n => !path.contains n)).length
  | [], h => absurd h (List.not_mem_nil step)
  | k :: K, h => by
      rw [List.filter_cons, List.filter_cons]
      by_cases hk : k = step
      · subst hk
        rw [if_neg (by
            rw [show (!(k :: path).contains k) = false by simp]
            simp),
          if_pos (show (!path.contains k) = true by simpa using hnp)]
        simp only [List.length_cons]
        exact Nat.lt_succ_of_le (filter_notin_le path k K)
      · have hmem : step ∈ K := by
          rcases List.mem_cons.mp h with h2 | h2
          · exact absurd h2.symm hk
          · exact h2
        by_cases h2 : k ∈ path
        · rw [if_neg (by
              rw [show (!(step :: path).contains k) = false by
                simpa using fun hne => h2]
              simp),
            if_neg (by rw [show (!path.contains k) = false by simpa using h2]; simp)]
          exact filter_notin_lt path step hnp K hmem
        · have h1 : k ∉ step :: path := by
            intro hx
            rcases List.mem_cons.mp hx with h3 | h3
            · exact hk h3
            · exact h2 h3
          rw [if_pos (show (!(step :: path).contains k) = true by simpa using h1),
            if_pos (show (!path.contains k) = true by simpa using h2)]
          simp only [List.length_cons]
          exact Nat.succ_lt_succ (filter_notin_lt path step hnp K hmem)

theorem filter_notin_nil (K : List String) :
    K.filter (fun n => !([] : List String).contains n) = K := by
  induction K with
  | nil => rfl
  | cons k K ih => simp [List.filter_cons, ih]

theorem sumW_ok {f : WMap → String → Except (List String) (WMap × Weight)}
    (Q : String → Prop) (hf : ∀ ws d, Q d → ∃ r, f ws d = .ok r) :
    ∀ (l : List String) (ws : WMap), (∀ d ∈ l, Q d) →
      ∃ r, sumW f ws l = .ok r
  | [], ws, _ => ⟨(ws, 0), rfl⟩
  | d :: rest, ws, hQ => by
      obtain ⟨⟨ws1, w⟩, hf1⟩ := hf ws d (hQ d (List.mem_cons_self d rest))
      obtain ⟨⟨ws2, total⟩, hs⟩ := sumW_ok Q hf rest ws1
        (fun d2 hd2 => hQ d2 (List.mem_cons_of_mem d hd2))
      refine ⟨(ws2, w.1 + total), ?_⟩
      simp only [sumW, hf1, hs]

theorem computeWeight_ok (depd : Graph) (rank : String → Nat)
    (hedge : ∀ y x, x ∈ lookupD depd y → rank y < rank x)
    (hcl : ∀ y x, x ∈ lookupD depd y → x ∈ keysOf depd) :
    ∀ (fuel : Nat) (path : List String) (ws : WMap) (step : String),
      step ∈ keysOf depd →
      (∀ q ∈ path, rank q < rank step) →
      ((keysOf depd).filter (fun n => !path.contains n)).length < fuel →
      ∃ r, computeWeight depd fuel path ws step = .ok r
  | 0, _, _, _, _, _, hfuel => absurd hfuel (Nat.not_lt_zero _)
  | fuel + 1, path, ws, step, hstep, hrk, hfuel => by
      cases hws : alook ws step with
      | some w =>
          refine ⟨(ws, w), ?_⟩
          simp only [computeWeight, hws]
      | none =>
          have hnp : step ∉ path := fun hq => absurd (hrk step hq) (Nat.lt_irrefl _)
          have hrec : ∀ ws2 d, d ∈ lookupD depd step →
              ∃ r, computeWeight depd fuel (step :: path) ws2 d = .ok r := by
            intro ws2 d hd
            refine computeWeight_ok depd rank hedge hcl fuel (step :: path) ws2 d
              (hcl step d hd) ?_ ?_
            · intro q hq
              rcases List.mem_cons.mp hq with h2 | h2
              · subst h2
                exact hedge q d hd
              · exact Nat.lt_trans (hrk q h2) (hedge step d hd)
            · exact Nat.lt_of_lt_of_le
                (filter_notin_lt path step hnp (keysOf depd) hstep)
                (Nat.lt_succ_iff.mp hfuel)
          obtain ⟨⟨ws1, total⟩, hsum⟩ :=
            sumW_ok (Q := fun d => d ∈ lookupD depd step) hrec
              (lookupD depd step) ws (fun d hd => hd)
          refine ⟨(aset ws1 step (total, (lookupD depd step).length, step),
            (total, (lookupD depd step).length, step)), ?_⟩
          simp only [computeWeight, hws]
          rw [if_neg hnp]
          simp only [hsum]

theorem buildWLoop_ok (depd : Graph) (rank : String → Nat)
    (hedge : ∀ y x, x ∈ lookupD depd y → rank y < rank x)
    (hcl : ∀ y x, x ∈ lookupD depd y → x ∈ keysOf depd) :
    ∀ (ks : List String) (ws : WMap), (∀ k ∈ ks, k ∈ keysOf depd) →
      ∃ ws2, buildWLoop depd (depd.length + 1) ws ks = .ok ws2
  | [], ws, _ => ⟨ws, rfl⟩
  | k :: rest, ws, hks => by
      have hfuel : ((keysOf depd).filter
          (fun n => !([] : List String).contains n)).length < depd.length + 1 := by
        rw [filter_notin_nil]
        show (depd.map Prod.fst).length < depd.length + 1
        rw [List.length_map]
        exact Nat.lt_succ_self _
      obtain ⟨⟨ws1, w⟩, hcw⟩ := computeWeight_ok depd rank hedge hcl
        (depd.length + 1) [] ws k (hks k (List.mem_cons_self k rest))
        (fun q hq => absurd hq (List.not_mem_nil q)) hfuel
      obtain ⟨ws2, hrest⟩ := buildWLoop_ok depd rank hedge hcl rest ws1
        (fun k2 hk2 => hks k2 (List.mem_cons_of_mem k hk2))
      refine ⟨ws2, ?_⟩
      simp only [buildWLoop, hcw, hrest]

theorem resolverInit_ok {m : Graph} (hWF : WFmap m) (hAcy : Acyclic m) :
    ∃ ws, resolverInit m = .ok (mkDeps m, mkDepd (mkDeps m), ws) := by
  obtain ⟨rank, hrank⟩ := hAcy
  have hnd : (keysOf (mkDeps m)).Nodup := by
    rw [keys_mkDeps]
    exact hWF.1
  have hclDeps : ∀ p ∈ mkDeps m, ∀ d ∈ p.2, d ∈ keysOf (mkDeps m) :=
    mkDeps_closed m hWF
  have hedge : ∀ y x, x ∈ lookupD (mkDepd (mkDeps m)) y → rank y < rank x := by
    intro y x hx
    obtain ⟨hxk, hyx⟩ := (mkDepd_mem (mkDeps m) hnd hclDeps y x).mp hx
    rw [lookupD_mkDeps, mem_dedup] at hyx
    have hax : ∃ vs, alook m x = some vs ∧ y ∈ vs := by
      unfold lookupD at hyx
      cases ha : alook m x with
      | none =>
          rw [ha] at hyx
          exact absurd hyx (List.not_mem_nil y)
      | some vs =>
          rw [ha] at hyx
          exact ⟨vs, rfl, hyx⟩
    obtain ⟨vs, hax2, hyvs⟩ := hax
    exact hrank (x, vs) (mem_of_alook m x vs hax2) y hyvs
  have hclD : ∀ y x, x ∈ lookupD (mkDepd (mkDeps m)) y →
      x ∈ keysOf (mkDepd (mkDeps m)) := by
    intro y x hx
    rw [mkDepd_keys (mkDeps m) hclDeps]
    exact ((mkDepd_mem (mkDeps m) hnd hclDeps y x).mp hx).1
  obtain ⟨ws, hws⟩ := buildWLoop_ok (mkDepd (mkDeps m)) rank hedge hclD
    (keysOf (mkDepd (mkDeps m))) [] (fun k hk => by
      rw [mkDepd_keys (mkDeps m) hclDeps] at hk ⊢
      exact hk)
  refine ⟨ws, ?_⟩
  simp only [resolverInit, buildWeights, hws]

theorem mdr_deps_foldl (step : String) :
    ∀ (l : List String) (t : Sched), l.Nodup → ∀ n,
      lookupD ((l.foldl (readyOne step) t)).deps n =
        if n ∈ l then (lookupD t.deps n).erase step else lookupD t.deps n
  | [], t, _, n => by simp
  | d :: l, t, hnd, n => by
      rw [List.foldl_cons]
      have hndl : l.Nodup := (List.nodup_cons.mp hnd).2
      have hdl : d ∉ l := (List.nodup_cons.mp hnd).1
      rw [mdr_deps_foldl step l (readyOne step t d) hndl n]
      have hro : ∀ q, lookupD (readyOne step t d).deps q =
          if q = d then (lookupD t.deps d).erase step else lookupD t.deps q := by
        intro q
        rw [readyOne_deps, lookupD_aset]
      by_cases h1 : n ∈ d :: l
      · rw [if_pos h1]
        rcases List.mem_cons.mp h1 with h2 | h2
        · subst h2
          rw [if_neg hdl, hro, if_pos rfl]
        · by_cases h3 : n = d
          · exact absurd (h3 ▸ h2) hdl
          · rw [if_pos h2, hro, if_neg h3]
      · have h2 : n ∉ l := fun hx => h1 (List.mem_cons_of_mem d hx)
        have h3 : ¬n = d := fun hx => h1 (hx ▸ List.mem_cons_self d l)
        rw [if_neg h1, if_neg h2, hro, if_neg h3]

theorem markSuccess_deps (s : Sched) (step : String) (now : Nat)
    (hnd : (lookupD s.depd step).Nodup) (n : String) :
    lookupD (markSuccess s step now).deps n =
      if n ∈ lookupD s.depd step then (lookupD s.deps n).erase step
      else lookupD s.deps n := by
  simp only [markSuccess, markDependentsReady]
  exact mdr_deps_foldl step (lookupD s.depd step) _ hnd n

theorem markSuccess_fields (s : Sched) (step : String) (now : Nat) :
    (markSuccess s step now).running = aerase s.running step ∧
    (markSuccess s step now).success = insertNew s.success step ∧
    (markSuccess s step now).failed = s.failed ∧
    (markSuccess s step now).blocked = s.blocked ∧
    (markSuccess s step now).cancelled = s.cancelled ∧
    (markSuccess s step now).skipped = s.skipped ∧
    (markSuccess s step now).stopped = s.stopped ∧
    (markSuccess s step now).depd = s.depd := by
  simp only [markSuccess]
  refine ⟨?_, ?_, ?_, ?_, ?_, ?_, ?_, ?_⟩
  · exact (markDependentsReady_frame _ step).1
  · exact (markDependentsReady_frame _ step).2.1
  · exact (markDependentsReady_frame _ step).2.2.1
  · exact (markDependentsReady_frame _ step).2.2.2.1
  · exact (markDependentsReady_frame _ step).2.2.2.2.1
  · exact (markDependentsReady_frame _ step).2.2.2.2.2.1
  · exact (markDependentsReady_frame _ step).2.2.2.2.2.2.2.1
  · exact (markDependentsReady_frame _ step).2.2.2.2.2.2.2.2

theorem filter_skip_head (st : String) (acc : List String) :
    ∀ l : List String, st ∉ l →
      l.filter (fun x => !(st :: acc).contains x) =
        l.filter (fun x => !acc.contains x)
  | [], _ => rfl
  | k :: l, h => by
      have hk : k ≠ st := fun he => h (he ▸ List.mem_cons_self k l)
      have hl : st ∉ l := fun hx => h (List.mem_cons_of_mem k hx)
      rw [List.filter_cons, List.filter_cons]
      by_cases h2 : k ∈ acc
      · rw [if_neg (by
            rw [show (!(st :: acc).contains k) = false by simpa using fun hne => h2]
            simp),
          if_neg (by rw [show (!acc.contains k) = false by simpa using h2]; simp)]
        exact filter_skip_head st acc l hl
      · have h1 : k ∉ st :: acc := fun hx => (List.mem_cons.mp hx).elim hk h2
        rw [if_pos (show (!(st :: acc).contains k) = true by simpa using h1),
          if_pos (show (!acc.contains k) = true by simpa using h2),
          filter_skip_head st acc l hl]

theorem filter_cons_erase (st : String) (acc : List String) :
    ∀ l : List String, l.Nodup →
      l.filter (fun x => !(st :: acc).contains x) =
        (l.filter (fun x => !acc.contains x)).erase st
  | [], _ => rfl
  | k :: l, hnd => by
      have hkl : k ∉ l := (List.nodup_cons.mp hnd).1
      have hl : l.Nodup := (List.nodup_cons.mp hnd).2
      rw [List.filter_cons, List.filter_cons]
      by_cases hk : k = st
      · subst hk
        rw [if_neg (by
            rw [show (!(k :: acc).contains k) = false by
              simp]
            simp)]
        by_cases h2 : k ∈ acc
        · rw [if_neg (by rw [show (!acc.contains k) = false by simpa using h2]; simp)]
          rw [filter_skip_head k acc l hkl]
          exact (List.erase_of_not_mem
            (fun hx => hkl (List.mem_of_mem_filter hx))).symm
        · rw [if_pos (show (!acc.contains k) = true by simpa using h2)]
          rw [List.erase_cons_head]
          exact filter_skip_head k acc l hkl
      · by_cases h2 : k ∈ acc
        · rw [if_neg (by
              rw [show (!(st :: acc).contains k) = false by simpa using fun hne => h2]
              simp),
            if_neg (by rw [show (!acc.contains k) = false by simpa using h2]; simp)]
          exact filter_cons_erase st acc l hl
        · have h1 : k ∉ st :: acc := fun hx => (List.mem_cons.mp hx).elim hk h2
          rw [if_pos (show (!(st :: acc).contains k) = true by simpa using h1),
            if_pos (show (!acc.contains k) = true by simpa using h2)]
          rw [List.erase_cons_tail (by simpa using hk)]
          rw [filter_cons_erase st acc l hl]

theorem indexOf_append_self (x : String) :
    ∀ l : List String, x ∉ l → (l ++ [x]).indexOf x = l.length
  | [], _ => List.indexOf_cons_self x []
  | k :: l, h => by
      have hk : k ≠ x := fun he => h (he ▸ List.mem_cons_self k l)
      rw [List.cons_append, List.indexOf_cons_ne _ hk,
        indexOf_append_self x l (fun hx => h (List.mem_cons_of_mem k hx)),
        List.length_cons]

theorem exists_min_rank (f : String → Nat) :
    ∀ l : List String, l ≠ [] → ∃ a ∈ l, ∀ b ∈ l, f a ≤ f b
  | [], h => absurd rfl h
  | a :: l, _ => by
      cases l with
      | nil =>
          refine ⟨a, List.mem_cons_self a [], ?_⟩
          intro b hb
          rcases List.mem_cons.mp hb with h2 | h2
          · subst h2
            exact Nat.le_refl _
          · exact absurd h2 (List.not_mem_nil b)
      | cons c l2 =>
          obtain ⟨w, hw, hmin⟩ := exists_min_rank f (c :: l2) (by simp)
          by_cases hac : f a ≤ f w
          · refine ⟨a, List.mem_cons_self _ _, ?_⟩
            intro b hb
            rcases List.mem_cons.mp hb with h2 | h2
            · subst h2
              exact Nat.le_refl _
            · exact Nat.le_trans hac (hmin b h2)
          · refine ⟨w, List.mem_cons_of_mem a hw, ?_⟩
            intro b hb
            rcases List.mem_cons.mp hb with h2 | h2
            · subst h2
              exact Nat.le_of_lt (Nat.lt_of_not_le hac)
            · exact hmin b h2

theorem orderLoop_eq :
    ∀ (fuel : Nat) (s : Sched) (acc : List String),
      orderLoop fuel s acc =
        if s.ready.isEmpty && s.running.isEmpty then some acc.reverse
        else match fuel with
          | 0 => none
          | fuel + 1 =>
            match s.ready.head? with
            | none => none
            | some st => orderLoop fuel (markSuccess (markStarted s st 0) st 0) (st :: acc)
  | 0, _, _ => rfl
  | _ + 1, _, _ => rfl

theorem rank_dep_lt (m : Graph) (rank : String → Nat)
    (hrank : ∀ p ∈ m, ∀ d ∈ p.2, rank d < rank p.1) (w x : String)
    (hx : x ∈ lookupD (mkDeps m) w) : rank x < rank w := by
  rw [lookupD_mkDeps, mem_dedup] at hx
  unfold lookupD at hx
  cases ha : alook m w with
  | none =>
      rw [ha] at hx
      exact absurd hx (List.not_mem_nil x)
  | some vs =>
      rw [ha] at hx
      exact hrank (w, vs) (mem_of_alook m w vs ha) x hx

theorem orderLoop_topo (m : Graph) (rank : String → Nat) (hWF : WFmap m)
    (hrank : ∀ p ∈ m, ∀ d ∈ p.2, rank d < rank p.1) :
    ∀ (fuel : Nat) (s : Sched) (acc : List String),
      Reaches m s →
      s.running = [] → s.stopped = false → s.failed = [] → s.blocked = [] →
      s.cancelled = [] → s.skipped = [] →
      s.depd = mkDepd (mkDeps m) →
      (∀ n, n ∈ s.success ↔ n ∈ acc) →
      acc.Nodup →
      (∀ n ∈ acc, n ∈ keysOf m) →
      (∀ n ∈ keysOf m, lookupD s.deps n =
        (lookupD (mkDeps m) n).filter (fun x => !acc.contains x)) →
      (∀ n ∈ acc, ∀ x ∈ lookupD (mkDeps m) n,
        x ∈ acc ∧ acc.reverse.indexOf x < acc.reverse.indexOf n) →
      ((keysOf m).filter (fun x => !acc.contains x)).length < fuel →
      ∃ l, orderLoop fuel s acc = some l ∧ isTopoOrder m l := by
  have hndK : (keysOf (mkDeps m)).Nodup := by
    rw [keys_mkDeps]
    exact hWF.1
  have hclDeps := mkDeps_closed m hWF
  intro fuel
  induction fuel with
  | zero =>
      intro s acc _ _ _ _ _ _ _ _ _ _ _ _ _ hfuel
      exact absurd hfuel (Nat.not_lt_zero _)
  | succ f ih =>
      intro s acc hR hrun hstop hfa hbl hca hsk hdepd hsucc hndacc hkacc hdeps hord hfuel
      have hInv := Inv_reaches hWF hR
      by_cases hrdy : s.ready.isEmpty = true
      · -- drain loop terminates: everything has succeeded
        have hrdE : s.ready = [] := List.isEmpty_iff.mp hrdy
        have hcondT : (s.ready.isEmpty && s.running.isEmpty) = true := by
          rw [hrdy, hrun]
          rfl
        have hwaitKey : ∀ q, q ∈ keysOf m → q ∉ acc → q ∈ s.waiting := by
          intro q hq hqacc
          obtain ⟨st0, h0, _⟩ := hInv.partSome q hq
          cases st0
          · exact h0
          · have h2 : q ∈ s.ready := h0
            rw [hrdE] at h2
            exact absurd h2 (List.not_mem_nil q)
          · have h2 : q ∈ s.running.map Prod.fst := h0
            rw [hrun] at h2
            simp at h2
          · exact absurd ((hsucc q).mp h0) hqacc
          · have h2 : q ∈ s.failed := h0
            rw [hfa] at h2
            exact absurd h2 (List.not_mem_nil q)
          · have h2 : q ∈ s.blocked := h0
            rw [hbl] at h2
            exact absurd h2 (List.not_mem_nil q)
          · have h2 : q ∈ s.cancelled := h0
            rw [hca] at h2
            exact absurd h2 (List.not_mem_nil q)
          · have h2 : q ∈ s.skipped := h0
            rw [hsk] at h2
            exact absurd h2 (List.not_mem_nil q)
        have hall : ∀ q ∈ keysOf m, q ∈ acc := by
          intro q hq
          by_contra hqacc
          have hqw : q ∈ s.waiting := hwaitKey q hq hqacc
          have hne : s.waiting ≠ [] := by
            intro he
            rw [he] at hqw
            exact List.not_mem_nil q hqw
          obtain ⟨w, hwmem, hwmin⟩ := exists_min_rank rank s.waiting hne
          have hdw : lookupD s.deps w ≠ [] := hInv.wDeps w hwmem
          have hwk : w ∈ keysOf m := hInv.memKeys .stWaiting hwmem
          obtain ⟨x, hx⟩ : ∃ x, x ∈ lookupD s.deps w := by
            cases hld : lookupD s.deps w with
            | nil => exact absurd hld hdw
            | cons a t =>
                exact ⟨a, by simp [hld]⟩
          have hx2 : x ∈ (lookupD (mkDeps m) w).filter (fun y => !acc.contains y) := by
            rw [← hdeps w hwk]
            exact hx
          obtain ⟨hx3, hx4⟩ := List.mem_filter.mp hx2
          have hxacc : x ∉ acc := by simpa using hx4
          have hxk : x ∈ keysOf m := hInv.depsSub w x hx
          have hxw : x ∈ s.waiting := hwaitKey x hxk hxacc
          have hrx : rank x < rank w := rank_dep_lt m rank hrank w x hx3
          exact absurd (hwmin x hxw) (Nat.not_le_of_lt hrx)
        refine ⟨acc.reverse, by rw [orderLoop_eq, if_pos hcondT],
          List.nodup_reverse.mpr hndacc, ?_, ?_⟩
        · intro n
          rw [List.mem_reverse]
          exact ⟨hkacc n, hall n⟩
        · intro n x hn hx
          exact (hord n (hall n hn) x hx).2
      · -- one more iteration
        have hrdne : s.ready ≠ [] := by
          intro he
          rw [he] at hrdy
          exact hrdy rfl
        obtain ⟨st, rest, hrd⟩ : ∃ a t, s.ready = a :: t := by
          cases hr2 : s.ready with
          | nil => exact absurd hr2 hrdne
          | cons a t => exact ⟨a, t, rfl⟩
        have hst : st ∈ s.ready := by
          rw [hrd]
          exact List.mem_cons_self st rest
        have hcondF : ¬((s.ready.isEmpty && s.running.isEmpty) = true) := by
          rw [hrd]
          simp
        have hstk : st ∈ keysOf m := hInv.memKeys .stReady hst
        have hstsucc : st ∉ s.success := fun hx =>
          absurd (hInv.unique .stReady .stSuccess hst hx) (by simp)
        have hstacc : st ∉ acc := fun hx => hstsucc ((hsucc st).mpr hx)
        have hR2 : Reaches m (markSuccess (markStarted s st 0) st 0) :=
          Reaches.succeeded (Reaches.started hR hst hstop) (by
            rw [runKeys_markStarted]
            exact List.mem_append_right _ (by simp))
        obtain ⟨g1, g2, g3, g4, g5, g6, g7, g8⟩ := markSuccess_fields (markStarted s st 0) st 0
        have hrun2 : (markSuccess (markStarted s st 0) st 0).running = [] := by
          rw [g1]
          show aerase (s.running ++ [(st, 0)]) st = []
          rw [hrun]
          simp [aerase]
        have hstop2 : (markSuccess (markStarted s st 0) st 0).stopped = false := by
          rw [g7]
          exact hstop
        have hfa2 : (markSuccess (markStarted s st 0) st 0).failed = [] := by
          rw [g3]
          exact hfa
        have hbl2 : (markSuccess (markStarted s st 0) st 0).blocked = [] := by
          rw [g4]
          exact hbl
        have hca2 : (markSuccess (markStarted s st 0) st 0).cancelled = [] := by
          rw [g5]
          exact hca
        have hsk2 : (markSuccess (markStarted s st 0) st 0).skipped = [] := by
          rw [g6]
          exact hsk
        have hdepd2 : (markSuccess (markStarted s st 0) st 0).depd = mkDepd (mkDeps m) := by
          rw [g8]
          exact hdepd
        have hsucc2 : ∀ n, n ∈ (markSuccess (markStarted s st 0) st 0).success ↔
            n ∈ st :: acc := by
          intro n
          rw [g2, mem_insertNew, List.mem_cons]
          exact or_congr Iff.rfl (hsucc n)
        have hndd : (lookupD s.depd st).Nodup := hInv.nodupDepd st
        have hdeps1 : ∀ n, lookupD (markSuccess (markStarted s st 0) st 0).deps n =
            if n ∈ lookupD s.depd st then (lookupD s.deps n).erase st
            else lookupD s.deps n :=
          fun n => markSuccess_deps (markStarted s st 0) st 0 hndd n
        have hdeps2 : ∀ n ∈ keysOf m,
            lookupD (markSuccess (markStarted s st 0) st 0).deps n =
              (lookupD (mkDeps m) n).filter (fun x => !(st :: acc).contains x) := by
          intro n hn
          have hnd0 : (lookupD (mkDeps m) n).Nodup := by
            rw [lookupD_mkDeps]
            exact nodup_dedup _
          rw [hdeps1 n]
          by_cases hdep : n ∈ lookupD s.depd st
          · rw [if_pos hdep, hdeps n hn, filter_cons_erase st acc _ hnd0]
          · rw [if_neg hdep, hdeps n hn]
            have hst_nin : st ∉ lookupD (mkDeps m) n := by
              intro hx
              apply hdep
              rw [hdepd]
              refine (mkDepd_mem (mkDeps m) hndK hclDeps st n).mpr ⟨?_, hx⟩
              rw [keys_mkDeps]
              exact hn
            rw [filter_skip_head st acc _ hst_nin]
        have hord2 : ∀ n ∈ st :: acc, ∀ x ∈ lookupD (mkDeps m) n,
            x ∈ st :: acc ∧
            (st :: acc).reverse.indexOf x < (st :: acc).reverse.indexOf n := by
          intro n hn x hx
          have hrevC : (st :: acc).reverse = acc.reverse ++ [st] := by
            rw [List.reverse_cons]
          rcases List.mem_cons.mp hn with h2 | h2
          · subst h2
            have hempty : lookupD s.deps n = [] := hInv.emptyDeps n (Or.inl hst)
            have hfe : (lookupD (mkDeps m) n).filter (fun y => !acc.contains y) = [] := by
              rw [← hdeps n hstk]
              exact hempty
            have hxacc : x ∈ acc := by
              by_contra hxacc
              have hxf : x ∈ (lookupD (mkDeps m) n).filter
                  (fun y => !acc.contains y) :=
                List.mem_filter.mpr ⟨hx, by simpa using hxacc⟩
              rw [hfe] at hxf
              exact List.not_mem_nil x hxf
            refine ⟨List.mem_cons_of_mem _ hxacc, ?_⟩
            rw [hrevC]
            have hxrev : x ∈ acc.reverse := List.mem_reverse.mpr hxacc
            rw [List.indexOf_append_of_mem hxrev,
              indexOf_append_self n acc.reverse
                (fun hx2 => hstacc (List.mem_reverse.mp hx2))]
            exact List.indexOf_lt_length.mpr hxrev
          · obtain ⟨hxin, hlt⟩ := hord n h2 x hx
            refine ⟨List.mem_cons_of_mem _ hxin, ?_⟩
            rw [hrevC, List.indexOf_append_of_mem (List.mem_reverse.mpr hxin),
              List.indexOf_append_of_mem (List.mem_reverse.mpr h2)]
            exact hlt
        have hfuel2 : ((keysOf m).filter
            (fun x => !(st :: acc).contains x)).length < f :=
          Nat.lt_of_lt_of_le (filter_notin_lt acc st hstacc (keysOf m) hstk)
            (Nat.lt_succ_iff.mp hfuel)
        obtain ⟨l, hl, ht⟩ := ih (markSuccess (markStarted s st 0) st 0) (st :: acc)
          hR2 hrun2 hstop2 hfa2 hbl2 hca2 hsk2 hdepd2 hsucc2
          (List.nodup_cons.mpr ⟨hstacc, hndacc⟩)
          (fun n hn => (List.mem_cons.mp hn).elim (fun he => he ▸ hstk) (hkacc n))
          hdeps2 hord2 hfuel2
        refine ⟨l, ?_, ht⟩
        rw [orderLoop_eq, if_neg hcondF, hrd]
        exact hl

/-- C6: for every well-formed acyclic dependency mapping,
Resolver(graph).order() succeeds and returns a list containing each step
name exactly once in which every step appears after all of its
dependencies: a valid topological order. -/
theorem order_topological {m : Graph} (hWF : WFmap m) (hAcy : Acyclic m) :
    ∃ l, resolverOrder m = some l ∧ isTopoOrder m l := by
  obtain ⟨rank, hrank⟩ := hAcy
  obtain ⟨ws, hws⟩ := resolverInit_ok hWF ⟨rank, hrank⟩
  have hro : resolverOrder m =
      orderLoop (m.length + 1) (Sched.init (mkDeps m) (mkDepd (mkDeps m))) [] := by
    simp only [resolverOrder, hws]
  have hinit : Sched.init (mkDeps m) (mkDepd (mkDeps m)) = schedOf m := rfl
  obtain ⟨l, hl, ht⟩ := orderLoop_topo m rank hWF hrank (m.length + 1)
    (Sched.init (mkDeps m) (mkDepd (mkDeps m))) []
    (hinit ▸ Reaches.init) rfl rfl rfl rfl rfl rfl rfl
    (fun n => by simp [Sched.init])
    List.nodup_nil
    (fun n hn => absurd hn (List.not_mem_nil n))
    (fun n _ => by
      show lookupD (mkDeps m) n = _
      rw [filter_notin_nil])
    (fun n hn => absurd hn (List.not_mem_nil n))
    (by
      rw [filter_notin_nil]
      show (m.map Prod.fst).length < m.length + 1
      rw [List.length_map]
      exact Nat.lt_succ_self _)
  exact ⟨l, by rw [hro]; exact hl, ht⟩

theorem order_topological_witness :
    ∃ l, resolverOrder [("a", ["b"]), ("b", [])] = some l ∧
      isTopoOrder [("a", ["b"]), ("b", [])] l :=
  order_topological (by decide)
    ⟨fun n => if n = "a" then 1 else 0, by decide⟩

end Dwas
